import Mathlib

/-!
# dhewm3 (Switch port): the bounded file-descriptor cache `cached_stdio.c` and `main.cpp`

A shallow embedding of `neo/framework/minizip/cached_stdio.c` (namespace `CachedStdio`)
and of `Sys_GetSystemRam` and the argument preparation of `main` in
`neo/sys/nx/main.cpp` (namespace `NxMain`).  For `cached_stdio.c`:

* A `fileref_t *` is `Option Nat`: `none` is `NULL`, `some a` is the address of a
  record.  `calloc` hands out the next unused address, `free` marks the cell as
  released.  Reading or writing a released (or never allocated) cell is undefined
  behaviour in C and is reported as `Fault.undefined`.
* A `FILE *` is `Option FILE`: the stream object is stored by value in the one
  record that owns it.  A stream closed behind the record's back (a failed
  `freopen`) keeps its slot with `closed = true`; using it is undefined behaviour.
* The C library (`fopen`, `fseek`, ...) is not part of the repository; it is
  modelled by the `stdio_*` functions over a small in-memory disk.  Every call of
  the underlying `fopen`/`freopen` additionally takes a flag `ok`: with
  `ok = false` the call fails for an external reason (descriptor table full,
  I/O error, ...).
* `int`/`long` values are `Int`; the counters stay far from the machine limits.
* The mutex calls are omitted: the embedding is sequential.

For `main.cpp`: `u64` and `int` values are `Nat`/`Int` with explicit wrap-around at 64 and
32 bits; `fake_argv` is a list of `MAX_FAKEARGS + 1` optional strings, and a store outside
of it is reported as `Fault.outOfBounds`.
-/

namespace CachedStdio

/-! ## The C library model -/

/-- Contents of the storage device: file name and bytes. -/
abbrev Disk := List (List Char × List Nat)

/-- Bytes of the file `path`, if it exists. -/
def Disk.get (d : Disk) (path : List Char) : Option (List Nat) :=
  match d with
  | [] => none
  | (p, c) :: rest => if p = path then some c else Disk.get rest path

/-- Replace (or create) the file `path` with the bytes `c`. -/
def Disk.put (d : Disk) (path : List Char) (c : List Nat) : Disk :=
  match d with
  | [] => [(path, c)]
  | (p, c0) :: rest => if p = path then (p, c) :: rest else (p, c0) :: Disk.put rest path c

/-- An open stdio stream. -/
structure FILE where
  name : List Char
  pos : Nat
  rd : Bool
  wr : Bool
  app : Bool
  eof : Bool
  err : Bool
  closed : Bool
  deriving DecidableEq, Repr

/-- Why an execution has no result. -/
inductive Fault where
  | undefined
  | fuel
  deriving DecidableEq, Repr

/-- Access flags of a mode string; `excl`: the open fails when the file exists. -/
structure Access where
  rd : Bool
  wr : Bool
  app : Bool
  trunc : Bool
  excl : Bool
  deriving DecidableEq, Repr

/-- Parse an `fopen` mode string: first letter `r`, `w` or `a`, a `+` anywhere after it
adds the other direction, an `x` after `w` or `a` (the modes that create the file) makes
the open exclusive. -/
def parseMode (mode : List Char) : Option Access :=
  match mode with
  | 'r' :: rest => some ⟨true, rest.contains '+', false, false, false⟩
  | 'w' :: rest => some ⟨rest.contains '+', true, false, true, rest.contains 'x'⟩
  | 'a' :: rest => some ⟨rest.contains '+', true, true, false, rest.contains 'x'⟩
  | _ => none

/-- Open `path` with the given access flags; `NULL` (`none`) on failure. -/
def stdio_open (d : Disk) (path : List Char) (acc : Access) (ok : Bool) : Option FILE × Disk :=
  if !ok then (none, d)
  else
    match d.get path with
    | none =>
      if acc.trunc || acc.app then
        (some ⟨path, 0, acc.rd, acc.wr, acc.app, false, false, false⟩, d.put path [])
      else (none, d)
    | some c =>
      if acc.excl then (none, d)
      else if acc.trunc then
        (some ⟨path, 0, acc.rd, acc.wr, acc.app, false, false, false⟩, d.put path [])
      else
        (some ⟨path, if acc.app then c.length else 0, acc.rd, acc.wr, acc.app, false, false, false⟩, d)

/-- The library call `fopen(path, mode)`. -/
def stdio_fopen (d : Disk) (path mode : List Char) (ok : Bool) : Option FILE × Disk :=
  match parseMode mode with
  | none => (none, d)
  | some acc => stdio_open d path acc ok

/-- The library call `ftell(fd)`. -/
def stdio_ftell (f : FILE) : Except Fault Int :=
  if f.closed then .error .undefined else .ok (f.pos : Int)

/-- The library call `fclose(fd)`: the stream object is gone afterwards. -/
def stdio_fclose (f : FILE) : Except Fault Int :=
  if f.closed then .error .undefined else .ok 0

def SEEK_SET : Int := 0

def SEEK_CUR : Int := 1

def SEEK_END : Int := 2

/-- The offset a seek is relative to; `none` for an invalid `whence`. -/
def seekBase (d : Disk) (f : FILE) (whence : Int) : Option Int :=
  if whence = SEEK_SET then some 0
  else if whence = SEEK_CUR then some (f.pos : Int)
  else if whence = SEEK_END then some (((d.get f.name).getD []).length : Int)
  else none

/-- The library call `fseek(fd, off, whence)`. -/
def stdio_fseek (d : Disk) (f : FILE) (off : Int) (whence : Int) : Except Fault (Int × FILE) :=
  if f.closed then .error .undefined
  else
    match seekBase d f whence with
    | none => .ok (-1, f)
    | some b =>
      if b + off < 0 then .ok (-1, f)
      else .ok (0, { f with pos := (b + off).toNat, eof := false })

/-- The library call `fflush(fd)`; writes reach the disk at once in this model. -/
def stdio_fflush (f : FILE) : Except Fault Int :=
  if f.closed then .error .undefined else .ok 0

/-- The library call `ferror(fd)`. -/
def stdio_ferror (f : FILE) : Except Fault Int :=
  if f.closed then .error .undefined else .ok (if f.err then 1 else 0)

/-- The library call `feof(fd)`. -/
def stdio_feof (f : FILE) : Except Fault Int :=
  if f.closed then .error .undefined else .ok (if f.eof then 1 else 0)

/-- The library call `fread(buf, size, n, fd)`: items read, the bytes stored into `buf`,
and the stream afterwards. -/
def stdio_fread (d : Disk) (size n : Nat) (f : FILE) : Except Fault (Nat × List Nat × FILE) :=
  if f.closed then .error .undefined
  else if !f.rd then .ok (0, [], { f with err := true })
  else
    let got := (((d.get f.name).getD []).drop f.pos).take (size * n)
    .ok (if size = 0 then 0 else got.length / size, got,
      { f with pos := f.pos + got.length, eof := decide (got.length < size * n) })

/-- Overwrite `c` from offset `p` with `bytes`, padding a gap with zero bytes. -/
def overwrite (c : List Nat) (p : Nat) (bytes : List Nat) : List Nat :=
  c.take p ++ List.replicate (p - c.length) 0 ++ bytes ++ c.drop (p + bytes.length)

/-- The library call `fwrite(buf, size, n, fd)`: items written, the stream and the disk
afterwards. -/
def stdio_fwrite (d : Disk) (buf : List Nat) (size n : Nat) (f : FILE) :
    Except Fault (Nat × FILE × Disk) :=
  if f.closed then .error .undefined
  else if !f.wr then .ok (0, { f with err := true }, d)
  else
    let bytes := buf.take (size * n)
    let c := (d.get f.name).getD []
    let p := if f.app then c.length else f.pos
    .ok (if size = 0 then 0 else bytes.length / size,
      { f with pos := p + bytes.length }, d.put f.name (overwrite c p bytes))

/-- The library call `freopen(path, mode, fd)`.  The old stream is closed in every case.
A null `path` reopens the stream's own file.  `mode` has to point to a mode string and the
stream has to be a live one: passing a null `mode` or a null stream is undefined. -/
def stdio_freopen (d : Disk) (path mode : Option (List Char)) (fd : Option FILE) (ok : Bool) :
    Except Fault (Option FILE × Disk) :=
  match fd with
  | none => .error .undefined
  | some f =>
    if f.closed then .error .undefined
    else
      match mode with
      | none => .error .undefined
      | some m =>
        match parseMode m with
        | none => .ok (none, d)
        | some acc => .ok (stdio_open d (path.getD f.name) acc ok)

/-- The library call `strncpy(dst, src, n)` into a buffer of `n + 1` bytes whose last
byte is zero: the stored string. -/
def strncpy (src : List Char) (n : Nat) : List Char := src.take n

/-! ## The cache: data model -/

def MAX_PATH : Nat := 512

def MAX_MODESTR : Nat := 8

def MAX_OPEN_FILES : Int := 4

/-- Value of `EINVAL` in `errno.h` (newlib). -/
def EINVAL : Int := 22

/-- The record `fileref_t`. -/
structure fileref_t where
  path : List Char
  mode : List Char
  fd : Option FILE
  fpos : Int
  prev : Option Nat
  next : Option Nat
  deriving DecidableEq, Repr

/-- The static variables of the translation unit, the heap cells holding `fileref_t`
records (`none`: released by `free`), and the disk. -/
structure Cache where
  fcache_numopen : Int
  fcache_numfiles : Int
  fcache : Option Nat
  fcache_end : Option Nat
  mem : List (Option fileref_t)
  disk : Disk
  deriving DecidableEq, Repr

/-- The state at program start: no record, both counters zero, both pointers `NULL`. -/
def Cache.init (d : Disk) : Cache :=
  { fcache_numopen := 0, fcache_numfiles := 0, fcache := none, fcache_end := none,
    mem := [], disk := d }

/-- Read the record at address `a`. -/
def Cache.deref (s : Cache) (a : Nat) : Except Fault fileref_t :=
  match s.mem[a]? with
  | some (some r) => .ok r
  | _ => .error .undefined

/-- Overwrite the cell at address `a` with the record `r`. -/
def Cache.store (s : Cache) (a : Nat) (r : fileref_t) : Cache :=
  { s with mem := s.mem.set a (some r) }

/-- An assignment to fields of the record at `a`: read it, write back `g` of it. -/
def Cache.modify (s : Cache) (a : Nat) (g : fileref_t → fileref_t) : Except Fault Cache :=
  match s.mem[a]? with
  | some (some r) => .ok (s.store a (g r))
  | _ => .error .undefined

/-- The call `calloc(1, sizeof(fileref_t))`: a fresh zeroed record at the next address. -/
def Cache.alloc (s : Cache) : Cache :=
  { s with mem := s.mem ++ [some ⟨[], [], none, 0, none, none⟩] }

/-- The call `free(fr)`. -/
def Cache.release (s : Cache) (a : Nat) : Except Fault Cache :=
  match s.mem[a]? with
  | some (some _) => .ok { s with mem := s.mem.set a none }
  | _ => .error .undefined

def Cache.setHead (s : Cache) (p : Option Nat) : Cache := { s with fcache := p }

def Cache.setEnd (s : Cache) (p : Option Nat) : Cache := { s with fcache_end := p }

def Cache.setNumopen (s : Cache) (n : Int) : Cache := { s with fcache_numopen := n }

def Cache.setDisk (s : Cache) (d : Disk) : Cache := { s with disk := d }

/-! ## The cache: internal functions -/

/-- `fcache_suspend`. -/
def fcache_suspend (fr : Option Nat) (s : Cache) : Except Fault (Int × Cache) :=
  match fr with
  | none => .ok (-1, s)
  | some a => do
    let r ← s.deref a
    match r.fd with
    | none => .ok (-2, s)
    | some f => do
      let pos ← stdio_ftell f
      let s1 ← s.modify a (fun r => { r with fpos := pos })
      let _ ← stdio_fclose f
      let s2 ← s1.modify a (fun r => { r with fd := none })
      .ok (0, s2.setNumopen (s2.fcache_numopen - 1))

/-- The loop of `fcache_ensure_limits`, starting at `fr`; `fuel` bounds the number of
iterations. -/
def ensure_limits_loop (fuel : Nat) (fr : Option Nat) (s : Cache) : Except Fault Cache :=
  match fuel with
  | 0 => .error .fuel
  | fuel + 1 =>
    match fr with
    | none => .ok s
    | some a => do
      let r ← s.deref a
      if r.fd.isSome then
        let (_, s1) ← fcache_suspend (some a) s
        .ok s1
      else ensure_limits_loop fuel r.next s

/-- `fcache_ensure_limits`. -/
def fcache_ensure_limits (s : Cache) : Except Fault Cache :=
  ensure_limits_loop (s.mem.length + 1) s.fcache s

/-- `fcache_resume`; `ok` is the outcome allowed to the underlying `fopen`. -/
def fcache_resume (fr : Option Nat) (ok : Bool) (s : Cache) : Except Fault (Int × Cache) :=
  match fr with
  | none => .ok (-1, s)
  | some a => do
    let r ← s.deref a
    if r.fd.isSome then .ok (-2, s)
    else do
      let s1 ← (if s.fcache_numopen ≥ MAX_OPEN_FILES then fcache_ensure_limits s else pure s)
      let r1 ← s1.deref a
      let (fd, d) := stdio_fopen s1.disk r1.path r1.mode ok
      let s2 ← (s1.setDisk d).modify a (fun r => { r with fd := fd })
      match fd with
      | none => .ok (-3, s2)
      | some f => do
        let r2 ← s2.deref a
        let (_, f1) ← stdio_fseek d f r2.fpos SEEK_SET
        let s3 ← s2.modify a (fun r => { r with fd := some f1 })
        let s4 ← s3.modify a (fun r => { r with fpos := 0 })
        .ok (0, s4.setNumopen (s4.fcache_numopen + 1))

/-- `fcache_link`; `calloc_ok = false` is the out-of-memory case. -/
def fcache_link (path mode : List Char) (calloc_ok ok : Bool) (s : Cache) :
    Except Fault (Option Nat × Cache) :=
  if !calloc_ok then .ok (none, s)
  else do
    let a := s.mem.length
    let s1 ← s.alloc.modify a (fun r => { r with path := strncpy path MAX_PATH })
    let s2 ← s1.modify a (fun r => { r with mode := strncpy mode MAX_MODESTR })
    let s3 ← (match s2.fcache_end with
      | some e => do
        let t1 ← s2.modify e (fun r => { r with next := some a })
        let t2 ← t1.modify a (fun r => { r with prev := s2.fcache_end })
        pure (t2.setEnd (some a))
      | none => pure ((s2.setEnd (some a)).setHead (some a)))
    let (_, s4) ← fcache_resume (some a) ok s3
    .ok (some a, s4)

/-- `fcache_unlink`. -/
def fcache_unlink (fr : Option Nat) (s : Cache) : Except Fault (Int × Cache) :=
  match fr with
  | none => .ok (EINVAL, s)
  | some a => do
    let r ← s.deref a
    let s1 ← (if r.fd.isSome then (fun x => x.2) <$> fcache_suspend (some a) s else pure s)
    let r1 ← s1.deref a
    let s2 := if some a = s1.fcache_end then s1.setEnd r1.prev else s1
    let r2 ← s2.deref a
    let s3 ← (match r2.prev with
      | some p => s2.modify p (fun r => { r with next := r2.next })
      | none => pure s2)
    let r3 ← s3.deref a
    let s4 ← (match r3.next with
      | some n => s3.modify n (fun r => { r with prev := r3.prev })
      | none => pure s3)
    let s5 ← s4.release a
    .ok (0, s5)

/-- `fcache_get`. -/
def fcache_get (fr : Option Nat) (ok : Bool) (s : Cache) : Except Fault (Option FILE × Cache) :=
  match fr with
  | none => .ok (none, s)
  | some a => do
    let r ← s.deref a
    let s1 ← (if r.fd.isNone then (fun x => x.2) <$> fcache_resume (some a) ok s else pure s)
    let r1 ← s1.deref a
    .ok (r1.fd, s1)

/-- The stream object behind the descriptor of the record `fr` after a library call
changed it (position, flags): it is stored by value in the record. -/
def setStream (fr : Option Nat) (f : FILE) (s : Cache) : Except Fault Cache :=
  match fr with
  | none => .error .undefined
  | some a => s.modify a (fun r => { r with fd := some f })

/-! ## The cache: public functions -/

/-- `fcached_fopen`. -/
def fcached_fopen (path mode : List Char) (calloc_ok ok : Bool) (s : Cache) :
    Except Fault (Option Nat × Cache) :=
  fcache_link path mode calloc_ok ok s

/-- `fcached_freopen`; `ok` is the outcome allowed to the underlying `freopen`.  When the
library call fails it has closed the old stream: the record keeps its (now stale)
descriptor. -/
def fcached_freopen (path mode : Option (List Char)) (pfd : Option Nat) (ok : Bool) (s : Cache) :
    Except Fault (Option Nat × Cache) :=
  match pfd with
  | none => .ok (none, s)
  | some a =>
    if path.isNone && mode.isNone then .ok (none, s)
    else do
      let r ← s.deref a
      let (fd, d) ← stdio_freopen s.disk path mode r.fd ok
      match fd with
      | some f => do
        let s1 ← (s.setDisk d).modify a (fun r => { r with fd := some f })
        let pos ← stdio_ftell f
        let s2 ← s1.modify a (fun r => { r with fpos := pos })
        let s3 ← (match path with
          | some p => s2.modify a (fun r => { r with path := strncpy p MAX_PATH })
          | none => pure s2)
        let s4 ← (match mode with
          | some m => s3.modify a (fun r => { r with mode := strncpy m MAX_MODESTR })
          | none => pure s3)
        .ok (some a, s4)
      | none => do
        let s1 ← (s.setDisk d).modify a
          (fun r => { r with fd := r.fd.map (fun f => { f with closed := true }) })
        .ok (some a, s1)

/-- `fcached_fclose`. -/
def fcached_fclose (pfd : Option Nat) (s : Cache) : Except Fault (Int × Cache) :=
  fcache_unlink pfd s

/-- `fcached_ftell`. -/
def fcached_ftell (pfd : Option Nat) (ok : Bool) (s : Cache) : Except Fault (Int × Cache) := do
  let (fd, s1) ← fcache_get pfd ok s
  match fd with
  | some f => do
    let ret ← stdio_ftell f
    .ok (ret, s1)
  | none => .ok (-1, s1)

/-- `fcached_fseek`. -/
def fcached_fseek (pfd : Option Nat) (pos : Int) (mode : Int) (ok : Bool) (s : Cache) :
    Except Fault (Int × Cache) := do
  let (fd, s1) ← fcache_get pfd ok s
  match fd with
  | some f => do
    let (ret, f1) ← stdio_fseek s1.disk f pos mode
    let s2 ← setStream pfd f1 s1
    .ok (ret, s2)
  | none => .ok (-1, s1)

/-- `fcached_ftello`. -/
def fcached_ftello (pfd : Option Nat) (ok : Bool) (s : Cache) : Except Fault (Int × Cache) := do
  let (fd, s1) ← fcache_get pfd ok s
  match fd with
  | some f => do
    let ret ← stdio_ftell f
    .ok (ret, s1)
  | none => .ok (-1, s1)

/-- `fcached_fseeko`. -/
def fcached_fseeko (pfd : Option Nat) (pos : Int) (mode : Int) (ok : Bool) (s : Cache) :
    Except Fault (Int × Cache) := do
  let (fd, s1) ← fcache_get pfd ok s
  match fd with
  | some f => do
    let (ret, f1) ← stdio_fseek s1.disk f pos mode
    let s2 ← setStream pfd f1 s1
    .ok (ret, s2)
  | none => .ok (-1, s1)

/-- `fcached_fflush`. -/
def fcached_fflush (pfd : Option Nat) (ok : Bool) (s : Cache) : Except Fault (Int × Cache) := do
  let (fd, s1) ← fcache_get pfd ok s
  match fd with
  | some f => do
    let ret ← stdio_fflush f
    .ok (ret, s1)
  | none => .ok (-1, s1)

/-- `fcached_fread`: the item count, the bytes delivered into `buf`, the state. -/
def fcached_fread (size n : Nat) (pfd : Option Nat) (ok : Bool) (s : Cache) :
    Except Fault ((Nat × List Nat) × Cache) := do
  let (fd, s1) ← fcache_get pfd ok s
  match fd with
  | some f => do
    let (ret, bytes, f1) ← stdio_fread s1.disk size n f
    let s2 ← setStream pfd f1 s1
    .ok ((ret, bytes), s2)
  | none => .ok ((0, []), s1)

/-- `fcached_fwrite`. -/
def fcached_fwrite (buf : List Nat) (size n : Nat) (pfd : Option Nat) (ok : Bool) (s : Cache) :
    Except Fault (Nat × Cache) := do
  let (fd, s1) ← fcache_get pfd ok s
  match fd with
  | some f => do
    let (ret, f1, d) ← stdio_fwrite s1.disk buf size n f
    let s2 ← setStream pfd f1 (s1.setDisk d)
    .ok (ret, s2)
  | none => .ok (0, s1)

/-- `fcached_ferror`. -/
def fcached_ferror (pfd : Option Nat) (ok : Bool) (s : Cache) : Except Fault (Int × Cache) := do
  let (fd, s1) ← fcache_get pfd ok s
  match fd with
  | some f => do
    let ret ← stdio_ferror f
    .ok (ret, s1)
  | none => .ok (-1, s1)

/-- `fcached_feof`. -/
def fcached_feof (pfd : Option Nat) (ok : Bool) (s : Cache) : Except Fault (Int × Cache) := do
  let (fd, s1) ← fcache_get pfd ok s
  match fd with
  | some f => do
    let ret ← stdio_feof f
    .ok (ret, s1)
  | none => .ok (-1, s1)

/-! ## Call sequences -/

/-- One call of a public function, with the outcome allowed to the library call it may
issue. -/
inductive Op where
  | fopen (path mode : List Char) (calloc_ok ok : Bool)
  | freopen (path mode : Option (List Char)) (pfd : Option Nat) (ok : Bool)
  | fclose (pfd : Option Nat)
  | ftell (pfd : Option Nat) (ok : Bool)
  | fseek (pfd : Option Nat) (pos : Int) (mode : Int) (ok : Bool)
  | ftello (pfd : Option Nat) (ok : Bool)
  | fseeko (pfd : Option Nat) (pos : Int) (mode : Int) (ok : Bool)
  | fflush (pfd : Option Nat) (ok : Bool)
  | fread (size n : Nat) (pfd : Option Nat) (ok : Bool)
  | fwrite (buf : List Nat) (size n : Nat) (pfd : Option Nat) (ok : Bool)
  | ferror (pfd : Option Nat) (ok : Bool)
  | feof (pfd : Option Nat) (ok : Bool)
  deriving DecidableEq, Repr

/-- The state after one call (the return value is dropped). -/
def step (op : Op) (s : Cache) : Except Fault Cache :=
  match op with
  | .fopen path mode calloc_ok ok => (fun x => x.2) <$> fcached_fopen path mode calloc_ok ok s
  | .freopen path mode pfd ok => (fun x => x.2) <$> fcached_freopen path mode pfd ok s
  | .fclose pfd => (fun x => x.2) <$> fcached_fclose pfd s
  | .ftell pfd ok => (fun x => x.2) <$> fcached_ftell pfd ok s
  | .fseek pfd pos mode ok => (fun x => x.2) <$> fcached_fseek pfd pos mode ok s
  | .ftello pfd ok => (fun x => x.2) <$> fcached_ftello pfd ok s
  | .fseeko pfd pos mode ok => (fun x => x.2) <$> fcached_fseeko pfd pos mode ok s
  | .fflush pfd ok => (fun x => x.2) <$> fcached_fflush pfd ok s
  | .fread size n pfd ok => (fun x => x.2) <$> fcached_fread size n pfd ok s
  | .fwrite buf size n pfd ok => (fun x => x.2) <$> fcached_fwrite buf size n pfd ok s
  | .ferror pfd ok => (fun x => x.2) <$> fcached_ferror pfd ok s
  | .feof pfd ok => (fun x => x.2) <$> fcached_feof pfd ok s

/-- The state after a sequence of calls. -/
def run (ops : List Op) (s : Cache) : Except Fault Cache :=
  match ops with
  | [] => .ok s
  | op :: rest =>
    match step op s with
    | .ok s1 => run rest s1
    | .error e => .error e

/-- Whether a heap cell holds a record with a live descriptor. -/
def isResident (c : Option fileref_t) : Bool :=
  match c with
  | some r => r.fd.isSome
  | none => false

/-- Number of registered handles holding a live descriptor. -/
def residentCount (s : Cache) : Nat := s.mem.countP isResident

/-! ## Invariants, closed forms and sample data used by the theorems -/

/-- The state after the record `r` at `a` gave up its descriptor at offset `pos`. -/
def Cache.suspended (s : Cache) (a : Nat) (r : fileref_t) (pos : Int) : Cache :=
  (s.store a { r with fpos := pos, fd := none }).setNumopen (s.fcache_numopen - 1)

/-- The eviction step at the start of `fcache_resume`. -/
def limitStep (s : Cache) : Except Fault Cache :=
  if s.fcache_numopen ≥ MAX_OPEN_FILES then fcache_ensure_limits s else pure s

/-- The stream after `fseek(fd, pos, SEEK_SET)`. -/
def seekSet (f : FILE) (pos : Int) : FILE :=
  if pos < 0 then f else { f with pos := pos.toNat, eof := false }

/-- Return value and state of `fcache_resume` once the eviction step has produced `s2`. -/
def resumeResult (s2 : Cache) (a : Nat) (r : fileref_t) (ok : Bool) : Int × Cache :=
  match stdio_fopen s2.disk r.path r.mode ok with
  | (none, d) => (-3, (s2.setDisk d).store a { r with fd := none })
  | (some f, d) =>
    (0, (((s2.setDisk d).store a { r with fd := some (seekSet f r.fpos), fpos := 0 })).setNumopen
          (s2.fcache_numopen + 1))

/-- Every descriptor held by a registered record is a live (not closed) stream. -/
def StreamsOpen (s : Cache) : Prop :=
  ∀ (a : Nat) (r : fileref_t) (f : FILE), s.mem[a]? = some (some r) → r.fd = some f → f.closed = false

/-- The counter `fcache_numopen` equals the number of registered records holding a
descriptor, and each of these descriptors is live. -/
def Acct (s : Cache) : Prop :=
  s.fcache_numopen = (residentCount s : Int) ∧ StreamsOpen s

/-- Whether the call is `fcached_freopen`. -/
def Op.isReopen (op : Op) : Bool :=
  match op with
  | .freopen _ _ _ _ => true
  | _ => false

/-- The `prev` and `next` pointers of the record at `a`. -/
def linksAt (s : Cache) (a : Nat) : Option (Option Nat × Option Nat) :=
  match s.mem[a]? with
  | some (some r) => some (r.prev, r.next)
  | _ => none

/-- The descriptor of the record at `a` (`none` also when there is no record). -/
def fdAt (s : Cache) (a : Nat) : Option FILE :=
  match s.mem[a]? with
  | some (some r) => r.fd
  | _ => none

/-- Whether the record at `a` holds a descriptor. -/
def residentAt (s : Cache) (a : Nat) : Bool := (fdAt s a).isSome

/-- The records at the addresses `L` are linked in this order: the `next` of each is its
successor (`NULL` for the last), the `prev` of each is its predecessor (`p` for the
first). -/
def Chain (s : Cache) : Option Nat → List Nat → Prop
  | _, [] => True
  | p, a :: rest => linksAt s a = some (p, rest.head?) ∧ Chain s (some a) rest

/-- The registry of `s` is the list `L`, oldest first: `fcache` designates its first
record, `fcache_end` its last, the links follow `L`, and every allocated record is on
it. -/
structure Registry (s : Cache) (L : List Nat) : Prop where
  nodup : L.Nodup
  chain : Chain s none L
  head : s.fcache = L.head?
  tail : s.fcache_end = L.getLast?
  live : ∀ (a : Nat) (r : fileref_t), s.mem[a]? = some (some r) → a ∈ L

/-- The state after the first record of `L` holding a descriptor is suspended. -/
def evictState (s : Cache) (L : List Nat) : Cache :=
  match L.find? (residentAt s) with
  | none => s
  | some a =>
    match s.mem[a]? with
    | some (some r) =>
      match r.fd with
      | some f => s.suspended a r f.pos
      | none => s
    | _ => s

/-- The registry is `L` and the accounting invariant holds. -/
structure WF (s : Cache) (L : List Nat) : Prop where
  reg : Registry s L
  acct : Acct s

/-- Residency of the registry members, oldest first. -/
def resAlong (s : Cache) (L : List Nat) : List Bool := L.map (residentAt s)

/-- Clear the first `true` entry. -/
def evict : List Bool → List Bool
  | [] => []
  | true :: v => false :: v
  | false :: v => false :: evict v

/-- The state after the eviction step of `fcache_resume` on the registry `L`. -/
def limited (s : Cache) (L : List Nat) : Cache :=
  if s.fcache_numopen ≥ MAX_OPEN_FILES then evictState s L else s

/-- The stream a successful underlying `fopen` for the record `r` yields, positioned at
the cached offset. -/
def reopened (d : Disk) (r : fileref_t) (ok : Bool) : Option FILE :=
  (stdio_fopen d r.path r.mode ok).1.map (fun f => seekSet f r.fpos)

/-- The record `fcache_link` sets up before it is linked. -/
def freshRef (path mode : List Char) : fileref_t :=
  ⟨strncpy path MAX_PATH, strncpy mode MAX_MODESTR, none, 0, none, none⟩

/-- The state of `fcache_link` just before its call of `fcache_resume`. -/
def linkedState (s : Cache) (path mode : List Char) : Cache :=
  match s.fcache_end with
  | none =>
    ((s.alloc.store s.mem.length (freshRef path mode)).setEnd (some s.mem.length)).setHead
      (some s.mem.length)
  | some e =>
    match s.mem[e]? with
    | some (some re) =>
      (((s.alloc.store s.mem.length (freshRef path mode)).store e
          { re with next := some s.mem.length }).store s.mem.length
          { freshRef path mode with prev := some e }).setEnd (some s.mem.length)
    | _ => s

/-- The state after `fcached_fopen` on a cache whose registry is `L`. -/
def openedState (s : Cache) (L : List Nat) (path mode : List Char) (ok : Bool) : Cache :=
  (resumeResult (limited (linkedState s path mode) (L ++ [s.mem.length])) s.mem.length
    { freshRef path mode with prev := L.getLast? } ok).2

/-- The arguments of one `fcached_fopen` call and the outcomes allowed to `calloc` and to
the underlying `fopen`. -/
structure OpenCall where
  path : List Char
  mode : List Char
  calloc_ok : Bool
  ok : Bool
  deriving DecidableEq, Repr

/-- The call as an operation. -/
def OpenCall.toOp (c : OpenCall) : Op := .fopen c.path c.mode c.calloc_ok c.ok

/-- Whether an execution produced a result. -/
def isOk {α : Type} (x : Except Fault α) : Bool :=
  match x with
  | .ok _ => true
  | .error _ => false

/-- Open two handles, close the first (the head of the registry). -/
def c3Ops : List Op :=
  [.fopen ['a'] ['w'] true true, .fopen ['b'] ['w'] true true, .fclose (some 0)]

/-- The state after `c3Ops`: the record at address 0 is released, `fcache` still holds 0. -/
def c3After : Cache :=
  { fcache_numopen := 1, fcache_numfiles := 0, fcache := some 0, fcache_end := some 1,
    mem := [none,
      some { path := ['b'], mode := ['w'],
             fd := some ⟨['b'], 0, false, true, false, false, false, false⟩,
             fpos := 0, prev := none, next := none }],
    disk := [(['a'], []), (['b'], [])] }

/-- Handle 0 is opened with mode `w+`, six bytes are written, the position is set back to
0 and two bytes are written; four more opens then evict handle 0. -/
def c2Ops : List Op :=
  [.fopen ['a'] ['w', '+'] true true, .fwrite [1, 2, 3, 4, 5, 6] 1 6 (some 0) true,
   .fseek (some 0) 0 SEEK_SET true, .fwrite [9, 9] 1 2 (some 0) true,
   .fopen ['b'] ['w'] true true, .fopen ['c'] ['w'] true true,
   .fopen ['d'] ['w'] true true, .fopen ['e'] ['w'] true true]

/-- Path, mode, descriptor and cached offset of the record at `a`. -/
def dataAt (s : Cache) (a : Nat) : Option (List Char × List Char × Option FILE × Int) :=
  match s.mem[a]? with
  | some (some r) => some (r.path, r.mode, r.fd, r.fpos)
  | _ => none

/-- What `fcache_unlink` of the record `r` at `h` maintains between its statements: every
other record keeps its data, the record at `h` keeps its links and holds no descriptor. -/
structure Mid (s t : Cache) (h : Nat) (r : fileref_t) : Prop where
  others : ∀ b, b ≠ h → dataAt t b = dataAt s b
  self : ∃ rt, t.mem[h]? = some (some rt) ∧ rt.prev = r.prev ∧ rt.next = r.next ∧ rt.fd = none
  numopen : t.fcache_numopen = s.fcache_numopen - (if r.fd.isSome then 1 else 0)
  disk : t.disk = s.disk

/-- Two handles opened on the empty disk, both resident. -/
def twoOpen : Cache :=
  { fcache_numopen := 2, fcache_numfiles := 0, fcache := some 0, fcache_end := some 1,
    mem := [
      some { path := ['a'], mode := ['w'],
             fd := some ⟨['a'], 0, false, true, false, false, false, false⟩,
             fpos := 0, prev := none, next := some 1 },
      some { path := ['b'], mode := ['w'],
             fd := some ⟨['b'], 0, false, true, false, false, false, false⟩,
             fpos := 0, prev := some 0, next := none }],
    disk := [(['a'], []), (['b'], [])] }

/-- The record after a successful `fcached_freopen`. -/
def reopenedRef (r : fileref_t) (path mode : Option (List Char)) (f1 : FILE) : fileref_t :=
  { path := match path with
      | some p => strncpy p MAX_PATH
      | none => r.path,
    mode := match mode with
      | some m => strncpy m MAX_MODESTR
      | none => r.mode,
    fd := some f1, fpos := (f1.pos : Int), prev := r.prev, next := r.next }

/-- Whether the underlying `fopen(path, mode)` succeeds on the disk `d`, and on every disk
with more files, when nothing external fails: the mode is valid and not exclusive, and
the file exists unless the mode creates it. -/
def canOpen (d : Disk) (path mode : List Char) : Bool :=
  match parseMode mode with
  | none => false
  | some acc => !acc.excl && (acc.trunc || acc.app || (d.get path).isSome)

/-- Every file of `d` exists in `d1`. -/
def DiskLe (d d1 : Disk) : Prop := ∀ p, (d.get p).isSome = true → (d1.get p).isSome = true

/-- The residency vector after the eviction step. -/
def limV (n : Int) (v : List Bool) : List Bool := if n ≥ MAX_OPEN_FILES then evict v else v

/-- The counter after the eviction step (a resident handle exists when it is positive). -/
def limN (n : Int) : Int := if n ≥ MAX_OPEN_FILES then n - 1 else n

/-- Path and mode stored in the record at `a`. -/
def nameAt (s : Cache) (a : Nat) : Option (List Char × List Char) :=
  match s.mem[a]? with
  | some (some r) => some (r.path, r.mode)
  | _ => none

/-- The file `x` exists, and opening it failed for an external reason: handle 0 is
registered and suspended. -/
def oneSuspended : Cache := openedState (Cache.init [(['x'], [7])]) [] ['x'] ['r'] false

/-- Links point forward: every `next` is a larger address, every `prev` a smaller one,
and `fcache_end` is an address below the allocation mark. -/
def LinksUp (s : Cache) : Prop :=
  (∀ (a : Nat) (x : Option Nat × Option Nat), linksAt s a = some x →
      (∀ n, x.2 = some n → a < n) ∧ (∀ p, x.1 = some p → p < a)) ∧
  (∀ e, s.fcache_end = some e → e < s.mem.length)

/-- The execution does not stop for lack of fuel. -/
def NoFuel {α : Type} (x : Except Fault α) : Prop := x ≠ .error .fuel

/-- A call sequence with opens beyond the capacity, writes, reads, seeks and closes. -/
def sampleOps : List Op :=
  [ .fopen ['a'] ['w', '+'] true true, .fopen ['b'] ['w'] true true,
    .fwrite [1, 2, 3] 1 3 (some 0) true, .fopen ['c'] ['r'] true true,
    .fopen ['d'] ['a'] true true, .fopen ['e'] ['w'] true true,
    .fopen ['f'] ['w'] true false, .fseek (some 0) 1 0 true, .fread 1 2 (some 0) true,
    .fclose (some 3), .ftell (some 1) true, .fclose (some 5), .feof (some 4) true,
    .fflush (some 2) true, .ferror (some 2) false ]

/-- Five handles opened for writing on the empty disk: the pool is full, handle 0 is
suspended and handles 1 to 4 are resident. -/
def fullPool : Cache :=
  { fcache_numopen := 4, fcache_numfiles := 0, fcache := some 0, fcache_end := some 4,
    mem := [
      some { path := ['a'], mode := ['w'], fd := none, fpos := 0, prev := none, next := some 1 },
      some { path := ['b'], mode := ['w'],
             fd := some ⟨['b'], 0, false, true, false, false, false, false⟩,
             fpos := 0, prev := some 0, next := some 2 },
      some { path := ['c'], mode := ['w'],
             fd := some ⟨['c'], 0, false, true, false, false, false, false⟩,
             fpos := 0, prev := some 1, next := some 3 },
      some { path := ['d'], mode := ['w'],
             fd := some ⟨['d'], 0, false, true, false, false, false, false⟩,
             fpos := 0, prev := some 2, next := some 4 },
      some { path := ['e'], mode := ['w'],
             fd := some ⟨['e'], 0, false, true, false, false, false, false⟩,
             fpos := 0, prev := some 3, next := none }],
    disk := [(['a'], []), (['b'], []), (['c'], []), (['d'], []), (['e'], [])] }

/-- Handle 0 is opened with mode `w` and three bytes are written. -/
def c14Ops : List Op :=
  [.fopen ['a'] ['w'] true true, .fwrite [1, 2, 3] 1 3 (some 0) true]

/-- Five opens on the empty disk. -/
def fiveOps : List Op :=
  [.fopen ['a'] ['w'] true true, .fopen ['b'] ['w'] true true, .fopen ['c'] ['w'] true true,
   .fopen ['d'] ['w'] true true, .fopen ['e'] ['w'] true true]

/-- The data of a record after it gave up its descriptor: the cached offset is the
position of the stream, path and mode are kept. -/
def evictedData (x : List Char × List Char × Option FILE × Int) :
    List Char × List Char × Option FILE × Int :=
  match x.2.2.1 with
  | some f => (x.1, x.2.1, none, (f.pos : Int))
  | none => x

/-- The state after `fcache_get` on the handle `a` of a cache whose registry is `L`: the
state itself when the record holds a descriptor, the state after `fcache_resume`
otherwise. -/
def acquired (s : Cache) (L : List Nat) (a : Nat) (ok : Bool) : Cache :=
  match s.mem[a]? with
  | some (some r) => if r.fd.isSome then s else (resumeResult (limited s L) a r ok).2
  | _ => s

/-- The handle evicted by the acquisition of `a`: none when `a` holds a descriptor or the
pool is not full, the first resident member of the registry otherwise. -/
def victim (s : Cache) (L : List Nat) (a : Nat) : Option Nat :=
  if residentAt s a = true ∨ s.fcache_numopen < MAX_OPEN_FILES then none
  else L.find? (residentAt s)
/-- The handle of a positioned call (`fread`, `fwrite`, `fseek`, `fseeko`, `ftell`,
`ftello`, `fflush`, `ferror`, `feof`); `none` for the other calls. -/
def Op.target (op : Op) : Option (Option Nat) :=
  match op with
  | .ftell pfd _ => some pfd
  | .fseek pfd _ _ _ => some pfd
  | .ftello pfd _ => some pfd
  | .fseeko pfd _ _ _ => some pfd
  | .fflush pfd _ => some pfd
  | .fread _ _ pfd _ => some pfd
  | .fwrite _ _ _ pfd _ => some pfd
  | .ferror pfd _ => some pfd
  | .feof pfd _ => some pfd
  | _ => none

/-- What a positioned call on the handle `a` does to a well-formed cache `s` with
registry `L`: the result `t` is well formed with the same registry; of the other records
only the evicted one changes, to its suspended form; path and mode of `a` are kept; no
record is allocated or released; no file disappears. -/
structure PosFrame (s t : Cache) (L : List Nat) (a : Nat) : Prop where
  wf : WF t L
  others : ∀ b, b ≠ a →
    dataAt t b = if victim s L a = some b then (dataAt s b).map evictedData else dataAt s b
  name : nameAt t a = nameAt s a
  length : t.mem.length = s.mem.length
  disk : DiskLe s.disk t.disk

/-- The current offset of the handle at `a`: the position of its stream when it holds a
descriptor, its cached offset otherwise. -/
def offsetAt (s : Cache) (a : Nat) : Option Int :=
  (dataAt s a).map (fun x =>
    match x.2.2.1 with
    | some f => (f.pos : Int)
    | none => x.2.2.2)

/-- Whether the call, issued on a cache whose registry is `L`, is an `fcached_fopen` or a
positioned call on a null handle or on a registered handle other than `excl`. -/
def Op.tame (excl : Option Nat) (L : List Nat) (op : Op) : Bool :=
  match op with
  | .fopen _ _ _ _ => true
  | _ =>
    match op.target with
    | some (some a) => L.contains a && (some a != excl)
    | some none => true
    | none => false

/-- The registry after the call: a successful allocation appends the address `k`. -/
def Op.grow (op : Op) (L : List Nat) (k : Nat) : List Nat :=
  match op with
  | .fopen _ _ true _ => L ++ [k]
  | _ => L

/-- The next record address after the call. -/
def Op.next (op : Op) (k : Nat) : Nat :=
  match op with
  | .fopen _ _ true _ => k + 1
  | _ => k

/-- Every call of the sequence is tame on the registry it meets, starting from the
registry `L` and the next record address `k`. -/
def Tame (excl : Option Nat) : List Op → List Nat → Nat → Bool
  | [], _, _ => true
  | op :: rest, L, k => op.tame excl L && Tame excl rest (op.grow L k) (op.next k)
/-- The NUL byte. -/
def NUL : Char := Char.ofNat 0

/-- The string held in a character buffer: the bytes before the first NUL. -/
def cstr (buf : List Char) : List Char := buf.takeWhile (fun c => c != NUL)

/-- The library call `strncpy(dst, src, n)` on the bytes of the buffer `dst` (of at least
`n` bytes), `src` being the bytes of the source string before its NUL: the first `n` bytes
of `dst` become the first `n` bytes of `src`, padded with NUL bytes when `src` is shorter;
the bytes of `dst` from index `n` on are not written. -/
def strncpy_buf (dst src : List Char) (n : Nat) : List Char :=
  src.take n ++ List.replicate (n - src.length) NUL ++ dst.drop n

/-- One handle opened on the file `a` with mode `r+`, its stream at position 3. -/
def oneRead : Cache :=
  { fcache_numopen := 1, fcache_numfiles := 0, fcache := some 0, fcache_end := some 0,
    mem := [
      some { path := ['a'], mode := ['r', '+'],
             fd := some ⟨['a'], 3, true, true, false, false, false, false⟩,
             fpos := 0, prev := none, next := none }],
    disk := [(['a'], [1, 2, 3, 4])] }

/-- Four opens, the last of which evicts handle 0, and a read on handle 1. -/
def c13Ops : List Op :=
  [.fopen ['b'] ['w'] true true, .fopen ['c'] ['w'] true true, .fopen ['d'] ['w'] true true,
   .fopen ['e'] ['w'] true true, .fread 1 2 (some 1) true]

/-- The links of the record at `b` after the record `r` was unlinked: the successor of `r`
gets the predecessor of `r` as `prev`, the predecessor of `r` gets the successor of `r` as
`next`. -/
def bypass (r : fileref_t) (b : Nat) (x : Option Nat × Option Nat) : Option Nat × Option Nat :=
  (if r.next = some b then r.prev else x.1, if r.prev = some b then r.next else x.2)

/-- Four opens, the close of the first handle (the head of the registry), one more open. -/
def c4Ops : List Op :=
  [.fopen ['a'] ['w'] true true, .fopen ['b'] ['w'] true true, .fopen ['c'] ['w'] true true,
   .fopen ['d'] ['w'] true true, .fclose (some 0), .fopen ['e'] ['w'] true true]

end CachedStdio

namespace NxMain

/-! ## `sys/nx/main.cpp`: machine integers -/

/-- The value of a 32-bit pattern read as `int` (two's complement). -/
def toInt32 (u : Nat) : Int :=
  if u % 2 ^ 32 < 2 ^ 31 then ((u % 2 ^ 32 : Nat) : Int) else ((u % 2 ^ 32 : Nat) : Int) - 2 ^ 32

/-- The 32-bit pattern of an `int` value. -/
def toBits32 (x : Int) : Nat := (x % 2 ^ 32).toNat

/-- `Sys_GetSystemRam`.  `rc_failed` is `R_FAILED(rc)` for the result of `svcGetInfo`, and
`avail` the 64-bit value the call stored.  The cast to `int` and the addition wrap at 32
bits; `~15` is the pattern of -16. -/
def Sys_GetSystemRam (rc_failed : Bool) (avail : Nat) : Int :=
  let avail1 : Nat := if rc_failed then 304 * 1024 * 1024 else avail % 2 ^ 64
  let mb : Int := toInt32 (avail1 / (1024 * 1024))
  toInt32 (Nat.land (toBits32 (mb + 8)) (toBits32 (-16)))

/-! ## `sys/nx/main.cpp`: the argument vector of `main` -/

/-- What stops the argument preparation: a store outside `fake_argv`, or the iteration
bound of the model's copy loop. -/
inductive Fault where
  | outOfBounds (i : Nat)
  | fuel
  deriving DecidableEq, Repr

def MAX_FAKEARGS : Nat := 32

/-- The store `fake_argv[i] = v`; the array has `MAX_FAKEARGS + 1` entries. -/
def poke (arr : List (Option (List Char))) (i : Nat) (v : Option (List Char)) :
    Except Fault (List (Option (List Char))) :=
  if i < arr.length then .ok (arr.set i v) else .error (.outOfBounds i)

/-- The loop `for (i = 0; i < argc && i < MAX_FAKEARGS; ++i) fake_argv[i] = argv[i]`,
from the index `i` on. -/
def copy_loop (argv : List (List Char)) (fuel : Nat) (i : Nat)
    (arr : List (Option (List Char))) : Except Fault (List (Option (List Char))) :=
  match fuel with
  | 0 => .error .fuel
  | fuel + 1 =>
    if i < argv.length ∧ i < MAX_FAKEARGS then do
      let arr1 ← poke arr i argv[i]?
      copy_loop argv fuel (i + 1) arr1
    else .ok arr

/-- The block `if (fake_argc + 3 < MAX_FAKEARGS) { fake_argv[fake_argc++] = a; ... }` that
injects three arguments. -/
def inject (a b c : List Char) (fake_argc : Nat) (arr : List (Option (List Char))) :
    Except Fault (Nat × List (Option (List Char))) :=
  if fake_argc + 3 < MAX_FAKEARGS then do
    let arr1 ← poke arr fake_argc (some a)
    let arr2 ← poke arr1 (fake_argc + 1) (some b)
    let arr3 ← poke arr2 (fake_argc + 2) (some c)
    .ok (fake_argc + 3, arr3)
  else .ok (fake_argc, arr)

/-- The argument preparation of `main` for the command line `argv` (`argc` is its
length); `d3xp` and `debug` tell whether `_D3XP` and `DEBUG`/`NXLINK_DEBUG` are defined.
The result is `fake_argc` and the array `fake_argv` as they are when `common->Init` is
called. -/
def main_args (d3xp debug : Bool) (argv : List (List Char)) :
    Except Fault (Nat × List (Option (List Char))) := do
  let arr0 ← copy_loop argv (MAX_FAKEARGS + 1) 0 (List.replicate (MAX_FAKEARGS + 1) none)
  let (n1, arr1) ← (if d3xp then
      inject ['+', 's', 'e', 't'] ['f', 's', '_', 'g', 'a', 'm', 'e'] ['d', '3', 'x', 'p']
        argv.length arr0
    else pure (argv.length, arr0))
  let (n2, arr2) ← (if debug then
      inject ['+', 's', 'e', 't'] ['d', 'e', 'v', 'e', 'l', 'o', 'p', 'e', 'r'] ['1'] n1 arr1
    else pure (n1, arr1))
  let arr3 ← poke arr2 n2 none
  .ok (n2, arr3)

/-- A command line of 33 arguments. -/
def longArgv : List (List Char) := List.replicate 33 ['x']

end NxMain

/-! # Theorems -/

namespace CachedStdio

/-! ## Basic facts -/

@[simp] theorem store_fcache_numopen (s : Cache) (a : Nat) (r : fileref_t) : (s.store a r).fcache_numopen = s.fcache_numopen := rfl

@[simp] theorem store_fcache_numfiles (s : Cache) (a : Nat) (r : fileref_t) : (s.store a r).fcache_numfiles = s.fcache_numfiles := rfl

@[simp] theorem store_fcache (s : Cache) (a : Nat) (r : fileref_t) : (s.store a r).fcache = s.fcache := rfl

@[simp] theorem store_fcache_end (s : Cache) (a : Nat) (r : fileref_t) : (s.store a r).fcache_end = s.fcache_end := rfl

@[simp] theorem store_mem (s : Cache) (a : Nat) (r : fileref_t) : (s.store a r).mem = s.mem.set a (some r) := rfl

@[simp] theorem store_disk (s : Cache) (a : Nat) (r : fileref_t) : (s.store a r).disk = s.disk := rfl

@[simp] theorem alloc_fcache_numopen (s : Cache)  : (s.alloc).fcache_numopen = s.fcache_numopen := rfl

@[simp] theorem alloc_fcache_numfiles (s : Cache)  : (s.alloc).fcache_numfiles = s.fcache_numfiles := rfl

@[simp] theorem alloc_fcache (s : Cache)  : (s.alloc).fcache = s.fcache := rfl

@[simp] theorem alloc_fcache_end (s : Cache)  : (s.alloc).fcache_end = s.fcache_end := rfl

@[simp] theorem alloc_mem (s : Cache)  : (s.alloc).mem = s.mem ++ [some ⟨[], [], none, 0, none, none⟩] := rfl

@[simp] theorem alloc_disk (s : Cache)  : (s.alloc).disk = s.disk := rfl

@[simp] theorem setHead_fcache_numopen (s : Cache) (p : Option Nat) : (s.setHead p).fcache_numopen = s.fcache_numopen := rfl

@[simp] theorem setHead_fcache_numfiles (s : Cache) (p : Option Nat) : (s.setHead p).fcache_numfiles = s.fcache_numfiles := rfl

@[simp] theorem setHead_fcache (s : Cache) (p : Option Nat) : (s.setHead p).fcache = p := rfl

@[simp] theorem setHead_fcache_end (s : Cache) (p : Option Nat) : (s.setHead p).fcache_end = s.fcache_end := rfl

@[simp] theorem setHead_mem (s : Cache) (p : Option Nat) : (s.setHead p).mem = s.mem := rfl

@[simp] theorem setHead_disk (s : Cache) (p : Option Nat) : (s.setHead p).disk = s.disk := rfl

@[simp] theorem setEnd_fcache_numopen (s : Cache) (p : Option Nat) : (s.setEnd p).fcache_numopen = s.fcache_numopen := rfl

@[simp] theorem setEnd_fcache_numfiles (s : Cache) (p : Option Nat) : (s.setEnd p).fcache_numfiles = s.fcache_numfiles := rfl

@[simp] theorem setEnd_fcache (s : Cache) (p : Option Nat) : (s.setEnd p).fcache = s.fcache := rfl

@[simp] theorem setEnd_fcache_end (s : Cache) (p : Option Nat) : (s.setEnd p).fcache_end = p := rfl

@[simp] theorem setEnd_mem (s : Cache) (p : Option Nat) : (s.setEnd p).mem = s.mem := rfl

@[simp] theorem setEnd_disk (s : Cache) (p : Option Nat) : (s.setEnd p).disk = s.disk := rfl

@[simp] theorem setNumopen_fcache_numopen (s : Cache) (n : Int) : (s.setNumopen n).fcache_numopen = n := rfl

@[simp] theorem setNumopen_fcache_numfiles (s : Cache) (n : Int) : (s.setNumopen n).fcache_numfiles = s.fcache_numfiles := rfl

@[simp] theorem setNumopen_fcache (s : Cache) (n : Int) : (s.setNumopen n).fcache = s.fcache := rfl

@[simp] theorem setNumopen_fcache_end (s : Cache) (n : Int) : (s.setNumopen n).fcache_end = s.fcache_end := rfl

@[simp] theorem setNumopen_mem (s : Cache) (n : Int) : (s.setNumopen n).mem = s.mem := rfl

@[simp] theorem setNumopen_disk (s : Cache) (n : Int) : (s.setNumopen n).disk = s.disk := rfl

@[simp] theorem setDisk_fcache_numopen (s : Cache) (d : Disk) : (s.setDisk d).fcache_numopen = s.fcache_numopen := rfl

@[simp] theorem setDisk_fcache_numfiles (s : Cache) (d : Disk) : (s.setDisk d).fcache_numfiles = s.fcache_numfiles := rfl

@[simp] theorem setDisk_fcache (s : Cache) (d : Disk) : (s.setDisk d).fcache = s.fcache := rfl

@[simp] theorem setDisk_fcache_end (s : Cache) (d : Disk) : (s.setDisk d).fcache_end = s.fcache_end := rfl

@[simp] theorem setDisk_mem (s : Cache) (d : Disk) : (s.setDisk d).mem = s.mem := rfl

@[simp] theorem setDisk_disk (s : Cache) (d : Disk) : (s.setDisk d).disk = d := rfl

theorem Cache.eq_of_fields (s t : Cache) (h1 : s.fcache_numopen = t.fcache_numopen)
    (h2 : s.fcache_numfiles = t.fcache_numfiles) (h3 : s.fcache = t.fcache)
    (h4 : s.fcache_end = t.fcache_end) (h5 : s.mem = t.mem) (h6 : s.disk = t.disk) : s = t := by
  cases s; cases t; simp at *; exact ⟨h1, h2, h3, h4, h5, h6⟩

theorem bind_ok {ε α β : Type} (x : Except ε α) (f : α → Except ε β) (b : β) :
    (x >>= f) = .ok b ↔ ∃ a, x = .ok a ∧ f a = .ok b := by
  cases x <;> simp [bind, Except.bind]

theorem map_ok {ε α β : Type} (x : Except ε α) (f : α → β) (b : β) :
    (f <$> x) = .ok b ↔ ∃ a, x = .ok a ∧ f a = b := by
  cases x <;> simp [Functor.map, Except.map]

theorem pure_ok {ε α : Type} (a b : α) :
    (pure a : Except ε α) = .ok b ↔ a = b := by
  simp [pure, Except.pure]

theorem deref_ok (s : Cache) (a : Nat) (r : fileref_t) :
    s.deref a = .ok r ↔ s.mem[a]? = some (some r) := by
  unfold Cache.deref
  split
  · rename_i r0 h; simp [h]
  · rename_i h
    constructor
    · intro h1; cases h1
    · intro h1; exact absurd h1 (h r)

theorem deref_of (s : Cache) (a : Nat) (r : fileref_t) (h : s.mem[a]? = some (some r)) :
    s.deref a = .ok r := (deref_ok s a r).2 h

theorem modify_of (s : Cache) (a : Nat) (r : fileref_t) (g : fileref_t → fileref_t)
    (h : s.mem[a]? = some (some r)) : s.modify a g = .ok (s.store a (g r)) := by
  simp [Cache.modify, h]

theorem modify_ok (s s1 : Cache) (a : Nat) (g : fileref_t → fileref_t) :
    s.modify a g = .ok s1 ↔ ∃ r, s.mem[a]? = some (some r) ∧ s1 = s.store a (g r) := by
  unfold Cache.modify
  split
  · rename_i r0 h
    simp [h]
    constructor <;> intro e <;> exact e.symm
  · rename_i h
    constructor
    · intro h1; cases h1
    · rintro ⟨r, hr, _⟩; exact absurd hr (h r)

theorem release_ok (s s1 : Cache) (a : Nat) :
    s.release a = .ok s1 ↔ (∃ r, s.mem[a]? = some (some r)) ∧ s1 = { s with mem := s.mem.set a none } := by
  unfold Cache.release
  split
  · rename_i r0 h
    simp [h]
    constructor <;> intro e <;> exact e.symm
  · rename_i h
    constructor
    · intro h1; cases h1
    · rintro ⟨⟨r, hr⟩, _⟩; exact absurd hr (h r)

theorem lt_of_mem (s : Cache) (a : Nat) (c : Option fileref_t) (h : s.mem[a]? = some c) :
    a < s.mem.length := by
  by_contra hn
  rw [List.getElem?_eq_none (by omega)] at h
  cases h

theorem store_same (s : Cache) (a : Nat) (r : fileref_t) (h : a < s.mem.length) :
    (s.store a r).mem[a]? = some (some r) := by
  simp [List.getElem?_set, h]

theorem store_other (s : Cache) (a b : Nat) (r : fileref_t) (h : a ≠ b) :
    (s.store a r).mem[b]? = s.mem[b]? := by
  simp [List.getElem?_set_ne h]

theorem store_store (s : Cache) (a : Nat) (r r1 : fileref_t) :
    (s.store a r).store a r1 = s.store a r1 := by
  apply Cache.eq_of_fields <;> simp

theorem countP_set_resident (l : List (Option fileref_t)) (a : Nat) (c c0 : Option fileref_t)
    (h : l[a]? = some c0) :
    (l.set a c).countP isResident + (if isResident c0 then 1 else 0)
      = l.countP isResident + (if isResident c then 1 else 0) := by
  induction l generalizing a with
  | nil => simp at h
  | cons x xs ih =>
    cases a with
    | zero =>
      simp at h; subst h
      simp [List.countP_cons]; omega
    | succ n =>
      simp at h
      have := ih n h
      simp [List.countP_cons] at *; omega

/-! ## Closed forms of the internal functions -/

theorem suspend_resident (s : Cache) (a : Nat) (r : fileref_t) (f : FILE)
    (hr : s.mem[a]? = some (some r)) (hf : r.fd = some f) (hc : f.closed = false) :
    fcache_suspend (some a) s = .ok (0, s.suspended a r f.pos) := by
  have h1 := modify_of s a r (fun r => { r with fpos := (f.pos : Int) }) hr
  have h2 := modify_of (s.store a { r with fpos := (f.pos : Int) }) a { r with fpos := (f.pos : Int) }
    (fun r => { r with fd := none }) (store_same s a _ (lt_of_mem s a _ hr))
  simp only [store_store] at h2
  simp only [fcache_suspend, deref_of s a r hr, hf, stdio_ftell, stdio_fclose, hc, bind,
    Except.bind, Cache.suspended]
  simp only [Bool.false_eq_true, if_false]
  rw [h1]
  simp only [h2]
  simp

theorem suspend_absent (s : Cache) (a : Nat) (r : fileref_t)
    (hr : s.mem[a]? = some (some r)) (hf : r.fd = none) :
    fcache_suspend (some a) s = .ok (-2, s) := by
  simp [fcache_suspend, deref_of s a r hr, hf, bind, Except.bind]

theorem suspend_inv (s s1 : Cache) (a : Nat) (ret : Int)
    (h : fcache_suspend (some a) s = .ok (ret, s1)) :
    ∃ r, s.mem[a]? = some (some r) ∧
      ((r.fd = none ∧ ret = -2 ∧ s1 = s) ∨
       (∃ f, r.fd = some f ∧ f.closed = false ∧ ret = 0 ∧ s1 = s.suspended a r f.pos)) := by
  cases hd : s.deref a with
  | error e => simp [fcache_suspend, hd, bind, Except.bind] at h
  | ok r =>
    rw [deref_ok] at hd
    refine ⟨r, hd, ?_⟩
    cases hf : r.fd with
    | none =>
      rw [suspend_absent s a r hd hf] at h
      simp at h
      exact Or.inl ⟨rfl, h.1.symm, h.2.symm⟩
    | some f =>
      cases hc : f.closed with
      | true =>
        simp [fcache_suspend, deref_of s a r hd, hf, stdio_ftell, hc, bind, Except.bind] at h
      | false =>
        rw [suspend_resident s a r f hd hf hc] at h
        simp at h
        exact Or.inr ⟨f, rfl, hc, h.1.symm, h.2.symm⟩

theorem ensure_loop_inv (fuel : Nat) (fr : Option Nat) (s s1 : Cache)
    (h : ensure_limits_loop fuel fr s = .ok s1) :
    s1 = s ∨ ∃ a r f, s.mem[a]? = some (some r) ∧ r.fd = some f ∧ f.closed = false ∧
      s1 = s.suspended a r f.pos := by
  induction fuel generalizing fr with
  | zero => simp [ensure_limits_loop] at h
  | succ n ih =>
    unfold ensure_limits_loop at h
    cases fr with
    | none => simp at h; exact Or.inl h.symm
    | some a =>
      simp only [bind_ok] at h
      obtain ⟨r, hr, h⟩ := h
      split at h
      · rename_i hres
        simp only [bind_ok] at h
        obtain ⟨⟨ret, s2⟩, h2, h⟩ := h
        simp at h
        subst h
        obtain ⟨r0, hr0, hcase⟩ := suspend_inv _ _ _ _ h2
        rcases hcase with ⟨_, _, h3⟩ | ⟨f, hf, hc, _, h3⟩
        · exact Or.inl h3
        · exact Or.inr ⟨a, r0, f, hr0, hf, hc, h3⟩
      · exact ih _ h

theorem suspended_other (s : Cache) (a b : Nat) (r : fileref_t) (pos : Int) (h : a ≠ b) :
    (s.suspended a r pos).mem[b]? = s.mem[b]? := by
  simp [Cache.suspended, List.getElem?_set_ne h]

theorem ensure_loop_keeps (fuel : Nat) (fr : Option Nat) (s s1 : Cache)
    (h : ensure_limits_loop fuel fr s = .ok s1) (b : Nat) (rb : fileref_t)
    (hb : s.mem[b]? = some (some rb)) (hfd : rb.fd = none) :
    s1.mem[b]? = some (some rb) := by
  rcases ensure_loop_inv _ _ _ _ h with h1 | ⟨a, r, f, hr, hf, _, h1⟩
  · rw [h1]; exact hb
  · rw [h1]
    have hne : a ≠ b := by
      intro e; subst e
      rw [hr] at hb
      simp at hb
      subst hb
      rw [hf] at hfd
      cases hfd
    rw [suspended_other s a b r _ hne]; exact hb

theorem stdio_open_open (d d1 : Disk) (path : List Char) (acc : Access) (ok : Bool) (f : FILE)
    (h : stdio_open d path acc ok = (some f, d1)) : f.closed = false := by
  unfold stdio_open at h
  split at h
  · simp at h
  · split at h
    · split at h
      · simp at h; rw [← h.1]
      · simp at h
    · split at h
      · simp at h
      · split at h
        · simp at h; rw [← h.1]
        · simp at h; rw [← h.1]

theorem stdio_fopen_open (d d1 : Disk) (path mode : List Char) (ok : Bool) (f : FILE)
    (h : stdio_fopen d path mode ok = (some f, d1)) : f.closed = false := by
  unfold stdio_fopen at h
  split at h
  · simp at h
  · exact stdio_open_open _ _ _ _ _ _ h

theorem stdio_fseek_set (d : Disk) (f : FILE) (pos : Int) (hc : f.closed = false) :
    stdio_fseek d f pos SEEK_SET = .ok (if pos < 0 then -1 else 0, seekSet f pos) := by
  unfold stdio_fseek seekSet seekBase
  by_cases hp : pos < 0 <;> simp [hc, hp, SEEK_SET]

theorem limitStep_keeps (s s1 : Cache) (h : limitStep s = .ok s1) (b : Nat) (rb : fileref_t)
    (hb : s.mem[b]? = some (some rb)) (hfd : rb.fd = none) :
    s1.mem[b]? = some (some rb) := by
  unfold limitStep at h
  split at h
  · exact ensure_loop_keeps _ _ _ _ h b rb hb hfd
  · rw [pure_ok] at h; rw [← h]; exact hb

theorem resume_tail (s2 : Cache) (a : Nat) (r : fileref_t) (ok : Bool)
    (h2 : s2.mem[a]? = some (some r)) :
    (do
      let r1 ← s2.deref a
      let (fd, d) := stdio_fopen s2.disk r1.path r1.mode ok
      let s2 ← (s2.setDisk d).modify a (fun r => { r with fd := fd })
      match fd with
      | none => .ok (-3, s2)
      | some f => do
        let r2 ← s2.deref a
        let (_, f1) ← stdio_fseek d f r2.fpos SEEK_SET
        let s3 ← s2.modify a (fun r => { r with fd := some f1 })
        let s4 ← s3.modify a (fun r => { r with fpos := 0 })
        .ok (0, s4.setNumopen (s4.fcache_numopen + 1)) : Except Fault (Int × Cache))
      = .ok (resumeResult s2 a r ok) := by
  have hlt := lt_of_mem s2 a _ h2
  simp only [bind, Except.bind, deref_of s2 a r h2, resumeResult]
  rcases hfo : stdio_fopen s2.disk r.path r.mode ok with ⟨_ | f, d⟩
  · have m1 := modify_of (s2.setDisk d) a r (fun r => { r with fd := none }) h2
    simp only [m1]
  · have hc := stdio_fopen_open _ _ _ _ _ _ hfo
    have m1 := modify_of (s2.setDisk d) a r (fun r => { r with fd := some f }) h2
    have g1 := store_same (s2.setDisk d) a { r with fd := some f } hlt
    have m3 := fun f1 => modify_of _ a _ (fun r => { r with fd := some f1 }) g1
    have g3 := fun f1 => store_same (s2.setDisk d) a { r with fd := some f1 } hlt
    have m4 := fun f1 => modify_of _ a _ (fun r => { r with fpos := 0 }) (g3 f1)
    simp only [m1, deref_of _ a _ g1, stdio_fseek_set d f r.fpos hc, m3, store_store, m4]
    simp

theorem resume_eq (s : Cache) (a : Nat) (r : fileref_t) (ok : Bool)
    (hr : s.mem[a]? = some (some r)) (hf : r.fd = none) :
    fcache_resume (some a) ok s = (limitStep s >>= fun s2 => .ok (resumeResult s2 a r ok)) := by
  cases hl : limitStep s with
  | error e =>
    unfold limitStep at hl
    unfold fcache_resume
    simp [deref_of s a r hr, hf, bind, Except.bind, hl]
  | ok s2 =>
    have h2 := limitStep_keeps s s2 hl a r hr hf
    have ht := resume_tail s2 a r ok h2
    unfold limitStep at hl
    unfold fcache_resume
    simp only [deref_of s a r hr, hf, bind, Except.bind, hl] at ht ⊢
    simpa using ht

theorem resume_resident (s : Cache) (a : Nat) (r : fileref_t) (ok : Bool)
    (hr : s.mem[a]? = some (some r)) (hf : r.fd.isSome = true) :
    fcache_resume (some a) ok s = .ok (-2, s) := by
  simp [fcache_resume, deref_of s a r hr, hf, bind, Except.bind]

/-! ## Accounting invariant: `fcache_numopen` counts the live descriptors -/

theorem residentCount_store (s : Cache) (a : Nat) (r r1 : fileref_t)
    (h : s.mem[a]? = some (some r)) :
    residentCount (s.store a r1) + (if r.fd.isSome then 1 else 0)
      = residentCount s + (if r1.fd.isSome then 1 else 0) := by
  have := countP_set_resident s.mem a (some r1) (some r) h
  simpa [residentCount, isResident] using this

theorem Acct_congr (s s1 : Cache) (hm : s1.mem = s.mem)
    (hn : s1.fcache_numopen = s.fcache_numopen) (hi : Acct s) : Acct s1 := by
  unfold Acct StreamsOpen residentCount at *
  rw [hm, hn]; exact hi

theorem Acct_store (s : Cache) (a : Nat) (r r1 : fileref_t) (k : Int)
    (h : s.mem[a]? = some (some r))
    (hk : k + (if r.fd.isSome then 1 else 0) = s.fcache_numopen + (if r1.fd.isSome then 1 else 0))
    (hcl : ∀ f, r1.fd = some f → f.closed = false) (hi : Acct s) :
    Acct ((s.store a r1).setNumopen k) := by
  obtain ⟨hc, ho⟩ := hi
  constructor
  · have e := residentCount_store s a r r1 h
    simp only [residentCount, store_mem, setNumopen_mem, setNumopen_fcache_numopen] at e hc ⊢
    split at e <;> split at e <;> simp_all; all_goals omega
  · intro b rb f hb hf
    simp only [setNumopen_mem] at hb
    by_cases e : a = b
    · subst e
      rw [store_same s a r1 (lt_of_mem s a _ h)] at hb
      simp at hb; subst hb
      exact hcl f hf
    · rw [store_other s a b r1 e] at hb
      exact ho b rb f hb hf

theorem Acct_store_same (s : Cache) (a : Nat) (r r1 : fileref_t)
    (h : s.mem[a]? = some (some r)) (hfd : r1.fd = r.fd) (hi : Acct s) :
    Acct (s.store a r1) := by
  have := Acct_store s a r r1 s.fcache_numopen h (by rw [hfd])
    (fun f hf => hi.2 a r f h (by rw [← hfd]; exact hf)) hi
  exact Acct_congr _ (s.store a r1) rfl rfl this

theorem Acct_modify (s s1 : Cache) (a : Nat) (g : fileref_t → fileref_t)
    (h : s.modify a g = .ok s1) (hg : ∀ r, (g r).fd = r.fd) (hi : Acct s) : Acct s1 := by
  rw [modify_ok] at h
  obtain ⟨r, hr, e⟩ := h
  rw [e]
  exact Acct_store_same s a r (g r) hr (hg r) hi

theorem Acct_alloc (s : Cache) (hi : Acct s) : Acct s.alloc := by
  obtain ⟨hc, ho⟩ := hi
  constructor
  · simp [residentCount, isResident] at hc ⊢
    exact hc
  · intro b rb f hb hf
    simp only [alloc_mem] at hb
    by_cases hlt : b < s.mem.length
    · rw [List.getElem?_append_left hlt] at hb
      exact ho b rb f hb hf
    · rw [List.getElem?_append_right (by omega)] at hb
      by_cases h0 : b - s.mem.length = 0
      · rw [h0] at hb; simp at hb; subst hb; simp at hf
      · have : (b - s.mem.length) = (b - s.mem.length - 1) + 1 := by omega
        rw [this] at hb; simp at hb

theorem Acct_suspended (s : Cache) (a : Nat) (r : fileref_t) (f : FILE) (pos : Int)
    (hr : s.mem[a]? = some (some r)) (hf : r.fd = some f) (hi : Acct s) :
    Acct (s.suspended a r pos) := by
  unfold Cache.suspended
  refine Acct_store s a r _ _ hr ?_ ?_ hi
  · simp [hf]
  · intro f1 h1; simp at h1

theorem Acct_resumeResult (s2 : Cache) (a : Nat) (r : fileref_t) (ok : Bool)
    (hr : s2.mem[a]? = some (some r)) (hf : r.fd = none) (hi : Acct s2) :
    Acct (resumeResult s2 a r ok).2 := by
  unfold resumeResult
  have hi1 : ∀ d, Acct (s2.setDisk d) := fun d => Acct_congr s2 (s2.setDisk d) rfl rfl hi
  rcases hfo : stdio_fopen s2.disk r.path r.mode ok with ⟨_ | f, d⟩
  · exact Acct_store_same (s2.setDisk d) a r _ hr (by simp [hf]) (hi1 d)
  · refine Acct_store (s2.setDisk d) a r _ _ hr ?_ ?_ (hi1 d)
    · simp [hf]
    · intro f1 h1
      simp at h1
      rw [← h1]
      have := stdio_fopen_open _ _ _ _ _ _ hfo
      unfold seekSet
      split <;> simp [this]

theorem Acct_ensure_loop (fuel : Nat) (fr : Option Nat) (s s1 : Cache)
    (h : ensure_limits_loop fuel fr s = .ok s1) (hi : Acct s) : Acct s1 := by
  rcases ensure_loop_inv _ _ _ _ h with h1 | ⟨a, r, f, hr, hf, _, h1⟩
  · rw [h1]; exact hi
  · rw [h1]; exact Acct_suspended s a r f _ hr hf hi

theorem Acct_limitStep (s s1 : Cache) (h : limitStep s = .ok s1) (hi : Acct s) : Acct s1 := by
  unfold limitStep at h
  split at h
  · exact Acct_ensure_loop _ _ _ _ h hi
  · rw [pure_ok] at h; rw [← h]; exact hi

theorem Acct_suspend (fr : Option Nat) (s s1 : Cache) (ret : Int)
    (h : fcache_suspend fr s = .ok (ret, s1)) (hi : Acct s) : Acct s1 := by
  cases fr with
  | none => simp [fcache_suspend] at h; rw [← h.2]; exact hi
  | some a =>
    obtain ⟨r, hr, hcase⟩ := suspend_inv _ _ _ _ h
    rcases hcase with ⟨_, _, h3⟩ | ⟨f, hf, _, _, h3⟩
    · rw [h3]; exact hi
    · rw [h3]; exact Acct_suspended s a r f _ hr hf hi

theorem Acct_resume (fr : Option Nat) (ok : Bool) (s s1 : Cache) (ret : Int)
    (h : fcache_resume fr ok s = .ok (ret, s1)) (hi : Acct s) : Acct s1 := by
  cases fr with
  | none => simp [fcache_resume] at h; rw [← h.2]; exact hi
  | some a =>
    cases hd : s.deref a with
    | error e => simp [fcache_resume, hd, bind, Except.bind] at h
    | ok r =>
      rw [deref_ok] at hd
      cases hf : r.fd with
      | some f =>
        rw [resume_resident s a r ok hd (by simp [hf])] at h
        simp at h; rw [← h.2]; exact hi
      | none =>
        rw [resume_eq s a r ok hd hf, bind_ok] at h
        obtain ⟨s2, hl, h⟩ := h
        simp at h
        have := Acct_resumeResult s2 a r ok (limitStep_keeps s s2 hl a r hd hf) hf
          (Acct_limitStep s s2 hl hi)
        rw [h] at this
        exact this

theorem Acct_link (path mode : List Char) (calloc_ok ok : Bool) (s s1 : Cache)
    (ret : Option Nat) (h : fcache_link path mode calloc_ok ok s = .ok (ret, s1))
    (hi : Acct s) : Acct s1 := by
  unfold fcache_link at h
  split at h
  · simp at h; rw [← h.2]; exact hi
  · simp only [bind_ok] at h
    obtain ⟨t1, h1, t2, h2, t3, h3, ⟨ret4, t4⟩, h4, h⟩ := h
    simp at h
    rw [← h.2]
    refine Acct_resume _ _ _ _ _ h4 ?_
    have a1 := Acct_modify _ _ _ _ h1 (fun _ => rfl) (Acct_alloc s hi)
    have a2 := Acct_modify _ _ _ _ h2 (fun _ => rfl) a1
    split at h3
    · simp only [bind_ok] at h3
      obtain ⟨u1, g1, u2, g2, h3⟩ := h3
      rw [pure_ok] at h3
      rw [← h3]
      have b1 := Acct_modify _ _ _ _ g1 (fun _ => rfl) a2
      have b2 := Acct_modify _ _ _ _ g2 (fun _ => rfl) b1
      exact Acct_congr u2 _ rfl rfl b2
    · rw [pure_ok] at h3
      rw [← h3]
      exact Acct_congr t2 _ rfl rfl a2

theorem Acct_release (s s1 : Cache) (a : Nat) (h : s.release a = .ok s1)
    (hfd : ∀ r, s.mem[a]? = some (some r) → r.fd = none) (hi : Acct s) : Acct s1 := by
  rw [release_ok] at h
  obtain ⟨⟨r, hr⟩, e⟩ := h
  obtain ⟨hc, ho⟩ := hi
  rw [e]
  constructor
  · have c := countP_set_resident s.mem a none (some r) hr
    simp [isResident, hfd r hr] at c
    simp only [residentCount] at hc ⊢
    rw [c]; exact hc
  · intro b rb f hb hf
    by_cases e1 : a = b
    · subst e1
      simp [List.getElem?_set, lt_of_mem s a _ hr] at hb
    · simp only [List.getElem?_set_ne e1] at hb
      exact ho b rb f hb hf

theorem modify_fd (s s1 : Cache) (a b : Nat) (g : fileref_t → fileref_t)
    (h : s.modify a g = .ok s1) (hg : ∀ r, (g r).fd = r.fd) (rb : fileref_t)
    (hb : s1.mem[b]? = some (some rb)) : ∃ r0, s.mem[b]? = some (some r0) ∧ r0.fd = rb.fd := by
  rw [modify_ok] at h
  obtain ⟨r, hr, e⟩ := h
  rw [e] at hb
  by_cases e1 : a = b
  · subst e1
    rw [store_same s a _ (lt_of_mem s a _ hr)] at hb
    simp at hb
    exact ⟨r, hr, by rw [← hb, hg]⟩
  · rw [store_other s a b _ e1] at hb
    exact ⟨rb, hb, rfl⟩

theorem Acct_unlink (fr : Option Nat) (s s1 : Cache) (ret : Int)
    (h : fcache_unlink fr s = .ok (ret, s1)) (hi : Acct s) : Acct s1 := by
  unfold fcache_unlink at h
  cases fr with
  | none => simp at h; rw [← h.2]; exact hi
  | some a =>
    simp only [bind_ok] at h
    obtain ⟨r, hr, t1, h1, r1, hr1, r2, hr2, t3, h3, r3, hr3, t4, h4, t5, h5, h⟩ := h
    simp at h
    rw [← h.2]
    rw [deref_ok] at hr hr1 hr2 hr3
    -- after the conditional suspend the record holds no descriptor
    have a1 : Acct t1 ∧ r1.fd = none := by
      split at h1
      · rw [map_ok] at h1
        obtain ⟨⟨ret0, t0⟩, g0, e0⟩ := h1
        simp at e0; subst e0
        refine ⟨Acct_suspend _ _ _ _ g0 hi, ?_⟩
        obtain ⟨r0, hr0, hcase⟩ := suspend_inv _ _ _ _ g0
        rcases hcase with ⟨hn, _, e⟩ | ⟨f, _, _, _, e⟩
        · rw [e, hr0] at hr1; simp at hr1; rw [← hr1]; exact hn
        · rw [e] at hr1
          simp only [Cache.suspended, setNumopen_mem] at hr1
          rw [store_same s a _ (lt_of_mem s a _ hr0)] at hr1
          simp at hr1; rw [← hr1]
      · rename_i hn
        rw [pure_ok] at h1; subst h1
        rw [hr] at hr1; simp at hr1; subst hr1
        refine ⟨hi, ?_⟩
        cases hfd : r.fd with
        | none => rfl
        | some f => simp [hfd] at hn
    have a2 : Acct (if some a = t1.fcache_end then t1.setEnd r1.prev else t1) := by
      split
      · exact Acct_congr t1 _ rfl rfl a1.1
      · exact a1.1
    have e2 : r2.fd = none := by
      have : (if some a = t1.fcache_end then t1.setEnd r1.prev else t1).mem = t1.mem := by
        split <;> rfl
      rw [this, hr1] at hr2
      simp at hr2; rw [← hr2]; exact a1.2
    have a3 : Acct t3 ∧ r3.fd = none := by
      split at h3
      · refine ⟨Acct_modify _ _ _ _ h3 (fun _ => rfl) a2, ?_⟩
        obtain ⟨r0, hr0, e0⟩ := modify_fd _ _ _ a _ h3 (fun _ => rfl) r3 hr3
        rw [hr2] at hr0; simp at hr0; rw [← e0, ← hr0]; exact e2
      · rw [pure_ok] at h3; subst h3
        rw [hr2] at hr3; simp at hr3; rw [← hr3]
        exact ⟨a2, e2⟩
    have a4 : Acct t4 ∧ ∀ r, t4.mem[a]? = some (some r) → r.fd = none := by
      split at h4
      · refine ⟨Acct_modify _ _ _ _ h4 (fun _ => rfl) a3.1, ?_⟩
        intro r4 hr4
        obtain ⟨r0, hr0, e0⟩ := modify_fd _ _ _ a _ h4 (fun _ => rfl) r4 hr4
        rw [hr3] at hr0; simp at hr0; rw [← e0, ← hr0]; exact a3.2
      · rw [pure_ok] at h4; subst h4
        refine ⟨a3.1, ?_⟩
        intro r4 hr4
        rw [hr3] at hr4; simp at hr4; rw [← hr4]; exact a3.2
    exact Acct_release _ _ _ h5 a4.2 a4.1

theorem Acct_get (fr : Option Nat) (ok : Bool) (s s1 : Cache) (fd : Option FILE)
    (h : fcache_get fr ok s = .ok (fd, s1)) (hi : Acct s) :
    Acct s1 ∧ ∀ f, fd = some f → f.closed = false ∧
      ∃ a r, fr = some a ∧ s1.mem[a]? = some (some r) ∧ r.fd = some f := by
  unfold fcache_get at h
  cases fr with
  | none => simp at h; rw [← h.2, ← h.1]; exact ⟨hi, by simp⟩
  | some a =>
    simp only [bind_ok] at h
    obtain ⟨r, hr, t1, h1, r1, hr1, h⟩ := h
    simp at h
    obtain ⟨e1, e2⟩ := h
    subst e2
    rw [deref_ok] at hr1
    have a1 : Acct t1 := by
      split at h1
      · rw [map_ok] at h1
        obtain ⟨⟨ret0, t0⟩, g0, e0⟩ := h1
        simp at e0; subst e0
        exact Acct_resume _ _ _ _ _ g0 hi
      · rw [pure_ok] at h1; subst h1; exact hi
    refine ⟨a1, ?_⟩
    intro f hf
    rw [← e1] at hf
    exact ⟨a1.2 a r1 f hr1 hf, a, r1, rfl, hr1, hf⟩

theorem Acct_setStream (fr : Option Nat) (f f1 : FILE) (s s1 : Cache)
    (h : setStream fr f1 s = .ok s1)
    (hfr : ∃ a r, fr = some a ∧ s.mem[a]? = some (some r) ∧ r.fd = some f)
    (hc : f1.closed = false) (hi : Acct s) : Acct s1 := by
  obtain ⟨a, r, e, hr, hf⟩ := hfr
  subst e
  simp only [setStream] at h
  rw [modify_of s a r _ hr] at h
  simp at h
  rw [← h]
  have := Acct_store s a r { r with fd := some f1 } s.fcache_numopen hr (by simp [hf])
    (by intro f2 h2; simp at h2; rw [← h2]; exact hc) hi
  exact Acct_congr _ (s.store a { r with fd := some f1 }) rfl rfl this

theorem stdio_fseek_open (d : Disk) (f f1 : FILE) (off whence ret : Int)
    (h : stdio_fseek d f off whence = .ok (ret, f1)) : f1.closed = false := by
  unfold stdio_fseek at h
  cases hc : f.closed
  · rw [hc] at h
    simp only [Bool.false_eq_true, if_false] at h
    cases hb : seekBase d f whence with
    | none => rw [hb] at h; simp at h; obtain ⟨-, rfl⟩ := h; exact hc
    | some b =>
      rw [hb] at h
      by_cases hlt : b + off < 0
      · simp [hlt] at h; obtain ⟨-, rfl⟩ := h; exact hc
      · simp [hlt] at h; obtain ⟨-, rfl⟩ := h; rfl
  · rw [hc] at h; simp at h

theorem stdio_fread_open (d : Disk) (f f1 : FILE) (size n ret : Nat) (bytes : List Nat)
    (h : stdio_fread d size n f = .ok (ret, bytes, f1)) : f1.closed = false := by
  unfold stdio_fread at h
  cases hc : f.closed
  · rw [hc] at h
    simp only [Bool.false_eq_true, if_false] at h
    cases hr : f.rd
    · simp [hr] at h; obtain ⟨-, -, rfl⟩ := h; rfl
    · simp [hr] at h; obtain ⟨-, -, rfl⟩ := h; rfl
  · rw [hc] at h; simp at h

theorem stdio_fwrite_open (d d1 : Disk) (buf : List Nat) (f f1 : FILE) (size n ret : Nat)
    (h : stdio_fwrite d buf size n f = .ok (ret, f1, d1)) : f1.closed = false := by
  unfold stdio_fwrite at h
  cases hc : f.closed
  · rw [hc] at h
    simp only [Bool.false_eq_true, if_false] at h
    cases hr : f.wr
    · simp [hr] at h; obtain ⟨-, rfl, -⟩ := h; rfl
    · simp [hr] at h; obtain ⟨-, rfl, -⟩ := h; rfl
  · rw [hc] at h; simp at h

theorem Acct_ftell (pfd : Option Nat) (ok : Bool) (s s1 : Cache) (ret : Int)
    (h : fcached_ftell pfd ok s = .ok (ret, s1)) (hi : Acct s) : Acct s1 := by
  unfold fcached_ftell at h
  simp only [bind_ok] at h
  obtain ⟨⟨fd, t1⟩, h1, h⟩ := h
  have a1 := (Acct_get _ _ _ _ _ h1 hi).1
  split at h
  · simp only [bind_ok] at h
    obtain ⟨_, _, h⟩ := h
    simp at h; rw [← h.2]; exact a1
  · simp at h; rw [← h.2]; exact a1

theorem Acct_ftello (pfd : Option Nat) (ok : Bool) (s s1 : Cache) (ret : Int)
    (h : fcached_ftello pfd ok s = .ok (ret, s1)) (hi : Acct s) : Acct s1 := by
  unfold fcached_ftello at h
  simp only [bind_ok] at h
  obtain ⟨⟨fd, t1⟩, h1, h⟩ := h
  have a1 := (Acct_get _ _ _ _ _ h1 hi).1
  split at h
  · simp only [bind_ok] at h
    obtain ⟨_, _, h⟩ := h
    simp at h; rw [← h.2]; exact a1
  · simp at h; rw [← h.2]; exact a1

theorem Acct_fflush (pfd : Option Nat) (ok : Bool) (s s1 : Cache) (ret : Int)
    (h : fcached_fflush pfd ok s = .ok (ret, s1)) (hi : Acct s) : Acct s1 := by
  unfold fcached_fflush at h
  simp only [bind_ok] at h
  obtain ⟨⟨fd, t1⟩, h1, h⟩ := h
  have a1 := (Acct_get _ _ _ _ _ h1 hi).1
  split at h
  · simp only [bind_ok] at h
    obtain ⟨_, _, h⟩ := h
    simp at h; rw [← h.2]; exact a1
  · simp at h; rw [← h.2]; exact a1

theorem Acct_ferror (pfd : Option Nat) (ok : Bool) (s s1 : Cache) (ret : Int)
    (h : fcached_ferror pfd ok s = .ok (ret, s1)) (hi : Acct s) : Acct s1 := by
  unfold fcached_ferror at h
  simp only [bind_ok] at h
  obtain ⟨⟨fd, t1⟩, h1, h⟩ := h
  have a1 := (Acct_get _ _ _ _ _ h1 hi).1
  split at h
  · simp only [bind_ok] at h
    obtain ⟨_, _, h⟩ := h
    simp at h; rw [← h.2]; exact a1
  · simp at h; rw [← h.2]; exact a1

theorem Acct_feof (pfd : Option Nat) (ok : Bool) (s s1 : Cache) (ret : Int)
    (h : fcached_feof pfd ok s = .ok (ret, s1)) (hi : Acct s) : Acct s1 := by
  unfold fcached_feof at h
  simp only [bind_ok] at h
  obtain ⟨⟨fd, t1⟩, h1, h⟩ := h
  have a1 := (Acct_get _ _ _ _ _ h1 hi).1
  split at h
  · simp only [bind_ok] at h
    obtain ⟨_, _, h⟩ := h
    simp at h; rw [← h.2]; exact a1
  · simp at h; rw [← h.2]; exact a1

theorem Acct_fseek (pfd : Option Nat) (pos mode : Int) (ok : Bool) (s s1 : Cache) (ret : Int)
    (h : fcached_fseek pfd pos mode ok s = .ok (ret, s1)) (hi : Acct s) : Acct s1 := by
  unfold fcached_fseek at h
  simp only [bind_ok] at h
  obtain ⟨⟨fd, t1⟩, h1, h⟩ := h
  obtain ⟨a1, hfd⟩ := Acct_get _ _ _ _ _ h1 hi
  split at h
  · rename_i f hfeq
    simp only [bind_ok] at h
    obtain ⟨⟨r0, f1⟩, h2, t2, h3, h⟩ := h
    simp at h; rw [← h.2]
    exact Acct_setStream pfd f f1 t1 t2 h3 (hfd f hfeq).2 (stdio_fseek_open _ _ _ _ _ _ h2) a1
  · simp at h; rw [← h.2]; exact a1

theorem Acct_fseeko (pfd : Option Nat) (pos mode : Int) (ok : Bool) (s s1 : Cache) (ret : Int)
    (h : fcached_fseeko pfd pos mode ok s = .ok (ret, s1)) (hi : Acct s) : Acct s1 := by
  unfold fcached_fseeko at h
  simp only [bind_ok] at h
  obtain ⟨⟨fd, t1⟩, h1, h⟩ := h
  obtain ⟨a1, hfd⟩ := Acct_get _ _ _ _ _ h1 hi
  split at h
  · rename_i f hfeq
    simp only [bind_ok] at h
    obtain ⟨⟨r0, f1⟩, h2, t2, h3, h⟩ := h
    simp at h; rw [← h.2]
    exact Acct_setStream pfd f f1 t1 t2 h3 (hfd f hfeq).2 (stdio_fseek_open _ _ _ _ _ _ h2) a1
  · simp at h; rw [← h.2]; exact a1

theorem Acct_fread (size n : Nat) (pfd : Option Nat) (ok : Bool) (s s1 : Cache)
    (ret : Nat × List Nat)
    (h : fcached_fread size n pfd ok s = .ok (ret, s1)) (hi : Acct s) : Acct s1 := by
  unfold fcached_fread at h
  simp only [bind_ok] at h
  obtain ⟨⟨fd, t1⟩, h1, h⟩ := h
  obtain ⟨a1, hfd⟩ := Acct_get _ _ _ _ _ h1 hi
  split at h
  · rename_i f hfeq
    simp only [bind_ok] at h
    obtain ⟨⟨r0, bytes, f1⟩, h2, t2, h3, h⟩ := h
    simp at h; rw [← h.2]
    exact Acct_setStream pfd f f1 t1 t2 h3 (hfd f hfeq).2 (stdio_fread_open _ _ _ _ _ _ _ h2) a1
  · simp at h; rw [← h.2]; exact a1

theorem Acct_fwrite (buf : List Nat) (size n : Nat) (pfd : Option Nat) (ok : Bool)
    (s s1 : Cache) (ret : Nat)
    (h : fcached_fwrite buf size n pfd ok s = .ok (ret, s1)) (hi : Acct s) : Acct s1 := by
  unfold fcached_fwrite at h
  simp only [bind_ok] at h
  obtain ⟨⟨fd, t1⟩, h1, h⟩ := h
  obtain ⟨a1, hfd⟩ := Acct_get _ _ _ _ _ h1 hi
  split at h
  · rename_i f hfeq
    simp only [bind_ok] at h
    obtain ⟨⟨r0, f1, d⟩, h2, t2, h3, h⟩ := h
    simp at h; rw [← h.2]
    exact Acct_setStream pfd f f1 (t1.setDisk d) t2 h3 (hfd f hfeq).2
      (stdio_fwrite_open _ _ _ _ _ _ _ _ h2) (Acct_congr t1 _ rfl rfl a1)
  · simp at h; rw [← h.2]; exact a1

theorem Acct_step (op : Op) (s s1 : Cache) (hop : op.isReopen = false)
    (h : step op s = .ok s1) (hi : Acct s) : Acct s1 := by
  cases op <;> simp only [step, map_ok] at h <;> obtain ⟨⟨ret, t⟩, h, e⟩ := h <;>
    simp at e <;> subst e
  · exact Acct_link _ _ _ _ _ _ _ h hi
  · simp [Op.isReopen] at hop
  · exact Acct_unlink _ _ _ _ h hi
  · exact Acct_ftell _ _ _ _ _ h hi
  · exact Acct_fseek _ _ _ _ _ _ _ h hi
  · exact Acct_ftello _ _ _ _ _ h hi
  · exact Acct_fseeko _ _ _ _ _ _ _ h hi
  · exact Acct_fflush _ _ _ _ _ h hi
  · exact Acct_fread _ _ _ _ _ _ _ h hi
  · exact Acct_fwrite _ _ _ _ _ _ _ _ h hi
  · exact Acct_ferror _ _ _ _ _ h hi
  · exact Acct_feof _ _ _ _ _ h hi

theorem Acct_run (ops : List Op) (s s1 : Cache) (hops : ∀ op ∈ ops, op.isReopen = false)
    (h : run ops s = .ok s1) (hi : Acct s) : Acct s1 := by
  induction ops generalizing s with
  | nil => simp [run] at h; rw [← h]; exact hi
  | cons op rest ih =>
    unfold run at h
    split at h
    · rename_i t ht
      exact ih t (fun o ho => hops o (List.mem_cons_of_mem _ ho)) h
        (Acct_step op s t (hops op (List.mem_cons_self _ _)) ht hi)
    · cases h

theorem Acct_init (d : Disk) : Acct (Cache.init d) := by
  constructor
  · simp [Cache.init, residentCount]
  · intro a r f h; simp [Cache.init] at h

/-! ## The registry as a doubly linked list -/

theorem linksAt_some (s : Cache) (a : Nat) (x : Option Nat × Option Nat)
    (h : linksAt s a = some x) : ∃ r, s.mem[a]? = some (some r) ∧ r.prev = x.1 ∧ r.next = x.2 := by
  unfold linksAt at h
  split at h
  · rename_i r hr
    simp at h
    exact ⟨r, hr, by rw [← h], by rw [← h]⟩
  · cases h

theorem Chain_congr (s s1 : Cache) (p : Option Nat) (L : List Nat)
    (h : ∀ a ∈ L, linksAt s1 a = linksAt s a) (hc : Chain s p L) : Chain s1 p L := by
  induction L generalizing p with
  | nil => trivial
  | cons a rest ih =>
    obtain ⟨h1, h2⟩ := hc
    refine ⟨by rw [h a (List.mem_cons_self _ _)]; exact h1, ?_⟩
    exact ih (some a) (fun b hb => h b (List.mem_cons_of_mem _ hb)) h2

theorem Chain_mem (s : Cache) (p : Option Nat) (L : List Nat) (hc : Chain s p L) (a : Nat)
    (ha : a ∈ L) : ∃ r, s.mem[a]? = some (some r) := by
  induction L generalizing p with
  | nil => cases ha
  | cons b rest ih =>
    obtain ⟨h1, h2⟩ := hc
    rcases List.mem_cons.1 ha with e | e
    · subst e
      obtain ⟨r, hr, _⟩ := linksAt_some _ _ _ h1
      exact ⟨r, hr⟩
    · exact ih (some b) h2 e

theorem Registry.length_le (s : Cache) (L : List Nat) (h : Registry s L) :
    L.length ≤ s.mem.length := by
  have hsub : L ⊆ List.range s.mem.length := by
    intro a ha
    obtain ⟨r, hr⟩ := Chain_mem s none L h.chain a ha
    exact List.mem_range.2 (lt_of_mem s a _ hr)
  have := (h.nodup.subperm hsub).length_le
  simpa using this

theorem ensure_loop_chain (s : Cache) (p : Option Nat) (L : List Nat) (fuel : Nat)
    (hc : Chain s p L) (hfuel : L.length < fuel) (ho : StreamsOpen s) :
    ensure_limits_loop fuel L.head? s = .ok (evictState s L) := by
  induction L generalizing p fuel with
  | nil =>
    cases fuel with
    | zero => omega
    | succ k => simp [ensure_limits_loop, evictState]
  | cons a rest ih =>
    cases fuel with
    | zero => omega
    | succ k =>
      obtain ⟨h1, h2⟩ := hc
      obtain ⟨r, hr, -, hn⟩ := linksAt_some _ _ _ h1
      simp only [List.head?_cons, ensure_limits_loop, deref_of s a r hr, bind, Except.bind]
      cases hf : r.fd with
      | some f =>
        have hres : residentAt s a = true := by simp [residentAt, fdAt, hr, hf]
        simp only [Option.isSome_some, if_true,
          suspend_resident s a r f hr hf (ho a r f hr hf), evictState, List.find?_cons, hres, hr, hf]
      | none =>
        have hres : residentAt s a = false := by simp [residentAt, fdAt, hr, hf]
        simp only [Option.isSome_none, Bool.false_eq_true, if_false, hn]
        rw [ih (some a) k h2 (by simp at hfuel; omega)]
        simp [evictState, List.find?_cons, hres]

theorem ensure_limits_registry (s : Cache) (L : List Nat) (h : Registry s L)
    (ho : StreamsOpen s) : fcache_ensure_limits s = .ok (evictState s L) := by
  unfold fcache_ensure_limits
  rw [h.head]
  exact ensure_loop_chain s none L _ h.chain (by have := h.length_le; omega) ho

theorem linksAt_eq_none (s : Cache) (a : Nat) :
    linksAt s a = none ↔ ∀ r, s.mem[a]? ≠ some (some r) := by
  unfold linksAt
  split
  · rename_i r hr
    simp [hr]
  · rename_i h
    simp
    intro r hr
    exact h r hr

theorem Registry_of_links (s s1 : Cache) (L : List Nat) (h : Registry s L)
    (hl : ∀ a, linksAt s1 a = linksAt s a) (hh : s1.fcache = s.fcache)
    (he : s1.fcache_end = s.fcache_end) : Registry s1 L := by
  refine ⟨h.nodup, Chain_congr s s1 none L (fun a _ => hl a) h.chain, by rw [hh, h.head],
    by rw [he, h.tail], ?_⟩
  intro a r hr
  have : linksAt s a ≠ none := by
    rw [← hl a]
    intro hn
    exact (linksAt_eq_none s1 a).1 hn r hr
  cases hx : linksAt s a with
  | none => exact absurd hx this
  | some x =>
    obtain ⟨r0, hr0, _⟩ := linksAt_some s a x hx
    exact h.live a r0 hr0

theorem linksAt_store (s : Cache) (a b : Nat) (r r1 : fileref_t)
    (h : s.mem[a]? = some (some r)) :
    linksAt (s.store a r1) b = if a = b then some (r1.prev, r1.next) else linksAt s b := by
  by_cases e : a = b
  · subst e
    have e1 := store_same s a r1 (lt_of_mem s a _ h)
    simp only [linksAt, e1, if_true]
  · have e1 := store_other s a b r1 e
    simp only [linksAt, e1, e, if_false]

theorem fdAt_store (s : Cache) (a b : Nat) (r r1 : fileref_t)
    (h : s.mem[a]? = some (some r)) :
    fdAt (s.store a r1) b = if a = b then r1.fd else fdAt s b := by
  by_cases e : a = b
  · subst e
    have e1 := store_same s a r1 (lt_of_mem s a _ h)
    simp only [fdAt, e1, if_true]
  · have e1 := store_other s a b r1 e
    simp only [fdAt, e1, e, if_false]

theorem linksAt_store_same (s : Cache) (a b : Nat) (r r1 : fileref_t)
    (h : s.mem[a]? = some (some r)) (hp : r1.prev = r.prev) (hn : r1.next = r.next) :
    linksAt (s.store a r1) b = linksAt s b := by
  rw [linksAt_store s a b r r1 h]
  split
  · rename_i e; subst e
    simp [linksAt, h, hp, hn]
  · rfl

theorem linksAt_suspended (s : Cache) (a b : Nat) (r : fileref_t) (pos : Int)
    (h : s.mem[a]? = some (some r)) : linksAt (s.suspended a r pos) b = linksAt s b := by
  have := linksAt_store_same s a b r { r with fpos := pos, fd := none } h rfl rfl
  simpa [Cache.suspended, linksAt] using this

theorem fdAt_suspended (s : Cache) (a b : Nat) (r : fileref_t) (pos : Int)
    (h : s.mem[a]? = some (some r)) :
    fdAt (s.suspended a r pos) b = if a = b then none else fdAt s b := by
  have := fdAt_store s a b r { r with fpos := pos, fd := none } h
  simpa [Cache.suspended, fdAt] using this

theorem residentAt_true (s : Cache) (a : Nat) (h : residentAt s a = true) :
    ∃ r f, s.mem[a]? = some (some r) ∧ r.fd = some f := by
  unfold residentAt fdAt at h
  split at h
  · rename_i r hr
    cases hf : r.fd with
    | none => simp [hf] at h
    | some f => exact ⟨r, f, hr, hf⟩
  · simp at h

theorem evictState_cases (s : Cache) (L : List Nat) :
    (L.find? (residentAt s) = none ∧ evictState s L = s) ∨
    (∃ a r f, L.find? (residentAt s) = some a ∧ s.mem[a]? = some (some r) ∧ r.fd = some f ∧
      evictState s L = s.suspended a r f.pos) := by
  cases hfind : L.find? (residentAt s) with
  | none => exact Or.inl ⟨rfl, by simp [evictState, hfind]⟩
  | some a =>
    have hres := List.find?_some hfind
    obtain ⟨r, f, hr, hf⟩ := residentAt_true s a hres
    exact Or.inr ⟨a, r, f, rfl, hr, hf, by simp [evictState, hfind, hr, hf]⟩

theorem linksAt_evictState (s : Cache) (L : List Nat) (b : Nat) :
    linksAt (evictState s L) b = linksAt s b := by
  rcases evictState_cases s L with ⟨_, e⟩ | ⟨a, r, f, _, hr, _, e⟩
  · rw [e]
  · rw [e]; exact linksAt_suspended s a b r _ hr

theorem fdAt_evictState (s : Cache) (L : List Nat) (b : Nat) :
    fdAt (evictState s L) b = if L.find? (residentAt s) = some b then none else fdAt s b := by
  rcases evictState_cases s L with ⟨hf, e⟩ | ⟨a, r, f, hfind, hr, _, e⟩
  · rw [e, hf]; simp
  · rw [e, hfind, fdAt_suspended s a b r _ hr]
    simp

theorem map_find_evict (p : Nat → Bool) (L : List Nat) (hnd : L.Nodup) :
    L.map (fun b => if L.find? p = some b then false else p b) = evict (L.map p) := by
  induction L with
  | nil => rfl
  | cons a rest ih =>
    have hnd' := List.nodup_cons.1 hnd
    cases hp : p a with
    | true =>
      simp only [List.map_cons, List.find?_cons, hp, evict]
      simp only [Option.some.injEq, if_true]
      congr 1
      apply List.map_congr_left
      intro b hb
      have : a ≠ b := fun e => hnd'.1 (e ▸ hb)
      simp [this]
    | false =>
      simp only [List.map_cons, List.find?_cons, hp, evict]
      rw [← ih hnd'.2]
      simp

theorem resAlong_evictState (s : Cache) (L : List Nat) (hnd : L.Nodup) :
    resAlong (evictState s L) L = evict (resAlong s L) := by
  unfold resAlong
  rw [← map_find_evict (residentAt s) L hnd]
  apply List.map_congr_left
  intro b _
  show (fdAt (evictState s L) b).isSome = _
  rw [fdAt_evictState]
  by_cases hc : L.find? (residentAt s) = some b
  · rw [if_pos hc, if_pos hc]; rfl
  · rw [if_neg hc, if_neg hc]; rfl

theorem Acct_evictState (s : Cache) (L : List Nat) (hi : Acct s) : Acct (evictState s L) := by
  rcases evictState_cases s L with ⟨_, e⟩ | ⟨a, r, f, _, hr, hf, e⟩
  · rw [e]; exact hi
  · rw [e]; exact Acct_suspended s a r f _ hr hf hi

theorem WF_evictState (s : Cache) (L : List Nat) (h : WF s L) : WF (evictState s L) L := by
  refine ⟨Registry_of_links s _ L h.reg (linksAt_evictState s L) ?_ ?_, Acct_evictState s L h.acct⟩
  · rcases evictState_cases s L with ⟨_, e⟩ | ⟨a, r, f, _, _, _, e⟩ <;> rw [e]
    rfl
  · rcases evictState_cases s L with ⟨_, e⟩ | ⟨a, r, f, _, _, _, e⟩ <;> rw [e]
    rfl

theorem limitStep_registry (s : Cache) (L : List Nat) (h : WF s L) :
    limitStep s = .ok (limited s L) := by
  unfold limitStep limited
  split
  · exact ensure_limits_registry s L h.reg h.acct.2
  · rfl

theorem WF_limited (s : Cache) (L : List Nat) (h : WF s L) : WF (limited s L) L := by
  unfold limited
  split
  · exact WF_evictState s L h
  · exact h

theorem limited_disk (s : Cache) (L : List Nat) : (limited s L).disk = s.disk := by
  unfold limited
  split
  · rcases evictState_cases s L with ⟨_, e⟩ | ⟨a, r, f, _, _, _, e⟩ <;> rw [e]
    rfl
  · rfl

theorem limited_keeps (s : Cache) (L : List Nat) (h : WF s L) (b : Nat) (rb : fileref_t)
    (hb : s.mem[b]? = some (some rb)) (hfd : rb.fd = none) :
    (limited s L).mem[b]? = some (some rb) :=
  limitStep_keeps s _ (limitStep_registry s L h) b rb hb hfd

theorem resumeResult_links (s2 : Cache) (a b : Nat) (r : fileref_t) (ok : Bool)
    (hr : s2.mem[a]? = some (some r)) :
    linksAt (resumeResult s2 a r ok).2 b = linksAt s2 b := by
  unfold resumeResult
  rcases stdio_fopen s2.disk r.path r.mode ok with ⟨_ | f, d⟩
  · have := linksAt_store_same (s2.setDisk d) a b r { r with fd := none } hr rfl rfl
    simpa [linksAt] using this
  · have := linksAt_store_same (s2.setDisk d) a b r
      { r with fd := some (seekSet f r.fpos), fpos := 0 } hr rfl rfl
    simpa [linksAt] using this

theorem resumeResult_fd (s2 : Cache) (a b : Nat) (r : fileref_t) (ok : Bool)
    (hr : s2.mem[a]? = some (some r)) :
    fdAt (resumeResult s2 a r ok).2 b = if a = b then reopened s2.disk r ok else fdAt s2 b := by
  unfold resumeResult reopened
  rcases stdio_fopen s2.disk r.path r.mode ok with ⟨_ | f, d⟩
  · have := fdAt_store (s2.setDisk d) a b r { r with fd := none } hr
    simpa [fdAt] using this
  · have := fdAt_store (s2.setDisk d) a b r
      { r with fd := some (seekSet f r.fpos), fpos := 0 } hr
    simpa [fdAt] using this

theorem resumeResult_numopen (s2 : Cache) (a : Nat) (r : fileref_t) (ok : Bool) :
    (resumeResult s2 a r ok).2.fcache_numopen
      = s2.fcache_numopen + (if (reopened s2.disk r ok).isSome then 1 else 0) := by
  unfold resumeResult reopened
  rcases stdio_fopen s2.disk r.path r.mode ok with ⟨_ | f, d⟩ <;> simp

theorem resumeResult_ret (s2 : Cache) (a : Nat) (r : fileref_t) (ok : Bool) :
    (resumeResult s2 a r ok).1 = (if (reopened s2.disk r ok).isSome then 0 else -3) := by
  unfold resumeResult reopened
  rcases stdio_fopen s2.disk r.path r.mode ok with ⟨_ | f, d⟩ <;> simp

theorem resumeResult_head (s2 : Cache) (a : Nat) (r : fileref_t) (ok : Bool) :
    (resumeResult s2 a r ok).2.fcache = s2.fcache ∧
    (resumeResult s2 a r ok).2.fcache_end = s2.fcache_end := by
  unfold resumeResult
  rcases stdio_fopen s2.disk r.path r.mode ok with ⟨_ | f, d⟩ <;> simp

theorem resumeResult_disk (s2 : Cache) (a : Nat) (r : fileref_t) (ok : Bool) :
    (resumeResult s2 a r ok).2.disk = (stdio_fopen s2.disk r.path r.mode ok).2 := by
  unfold resumeResult
  rcases stdio_fopen s2.disk r.path r.mode ok with ⟨_ | f, d⟩ <;> simp

theorem WF_resumeResult (s2 : Cache) (L : List Nat) (a : Nat) (r : fileref_t) (ok : Bool)
    (h : WF s2 L) (hr : s2.mem[a]? = some (some r)) (hf : r.fd = none) :
    WF (resumeResult s2 a r ok).2 L :=
  ⟨Registry_of_links s2 _ L h.reg (fun b => resumeResult_links s2 a b r ok hr)
      (resumeResult_head s2 a r ok).1 (resumeResult_head s2 a r ok).2,
    Acct_resumeResult s2 a r ok hr hf h.acct⟩

/-- Closed form of `fcache_resume` on a suspended registered record. -/
theorem resume_WF (s : Cache) (L : List Nat) (a : Nat) (r : fileref_t) (ok : Bool)
    (h : WF s L) (hr : s.mem[a]? = some (some r)) (hf : r.fd = none) :
    fcache_resume (some a) ok s = .ok (resumeResult (limited s L) a r ok) := by
  rw [resume_eq s a r ok hr hf, limitStep_registry s L h]
  rfl

theorem alloc_old (s : Cache) (b : Nat) (h : b < s.mem.length) : s.alloc.mem[b]? = s.mem[b]? := by
  simp [List.getElem?_append_left h]

theorem alloc_new (s : Cache) : s.alloc.mem[s.mem.length]? = some (some ⟨[], [], none, 0, none, none⟩) := by
  simp

theorem link_eq (s : Cache) (path mode : List Char) (ok : Bool)
    (hend : s.fcache_end = none ∨ ∃ e re, s.fcache_end = some e ∧ s.mem[e]? = some (some re)) :
    fcache_link path mode true ok s
      = (fcache_resume (some s.mem.length) ok (linkedState s path mode) >>=
          fun x => .ok (some s.mem.length, x.2)) := by
  have hlt : s.mem.length < s.alloc.mem.length := by simp
  have m1 := modify_of s.alloc s.mem.length _ (fun r => { r with path := strncpy path MAX_PATH })
    (alloc_new s)
  have g1 := store_same s.alloc s.mem.length
    { (⟨[], [], none, 0, none, none⟩ : fileref_t) with path := strncpy path MAX_PATH } hlt
  have m2 := modify_of _ s.mem.length _ (fun r => { r with mode := strncpy mode MAX_MODESTR }) g1
  simp only [store_store] at m2
  have g2 := store_same s.alloc s.mem.length (freshRef path mode) hlt
  unfold fcache_link
  simp only [Bool.not_true, Bool.false_eq_true, if_false, bind, Except.bind, m1, m2]
  rcases hend with hn | ⟨e, re, he, hre⟩
  · have : (s.alloc.store s.mem.length
        { path := strncpy path MAX_PATH, mode := strncpy mode MAX_MODESTR, fd := none, fpos := 0,
          prev := none, next := none }).fcache_end = none := hn
    simp only [this, linkedState, hn, freshRef]
    rfl
  · have hne : s.mem.length ≠ e := by
      have := lt_of_mem s e _ hre
      omega
    have g3 : (s.alloc.store s.mem.length (freshRef path mode)).mem[e]? = some (some re) := by
      rw [store_other _ _ _ _ hne, alloc_old s e (lt_of_mem s e _ hre)]; exact hre
    have m3 := modify_of _ e re (fun r => { r with next := some s.mem.length }) g3
    have g4 : ((s.alloc.store s.mem.length (freshRef path mode)).store e
        { re with next := some s.mem.length }).mem[s.mem.length]?
          = some (some (freshRef path mode)) := by
      rw [store_other _ _ _ _ (Ne.symm hne)]; exact g2
    have m4 := modify_of _ s.mem.length _ (fun r => { r with prev := some e }) g4
    have : (s.alloc.store s.mem.length
        { path := strncpy path MAX_PATH, mode := strncpy mode MAX_MODESTR, fd := none, fpos := 0,
          prev := none, next := none }).fcache_end = some e := he
    simp only [freshRef] at m3 m4
    simp only [this, linkedState, he, hre, freshRef, m3, m4]
    rfl

theorem Chain_snoc (s s1 : Cache) (a : Nat) (p : Option Nat) (L : List Nat)
    (hnd : L.Nodup) (hc : Chain s p L)
    (hold : ∀ b ∈ L, some b ≠ L.getLast? → linksAt s1 b = linksAt s b)
    (hlast : ∀ e, L.getLast? = some e → ∀ x, linksAt s e = some x →
      linksAt s1 e = some (x.1, some a))
    (hnew : linksAt s1 a = some ((match L.getLast? with | some e => some e | none => p), none)) :
    Chain s1 p (L ++ [a]) := by
  induction L generalizing p with
  | nil => exact ⟨by simpa using hnew, trivial⟩
  | cons b rest ih =>
    cases rest with
    | nil =>
      obtain ⟨h1, -⟩ := hc
      refine ⟨?_, ?_, trivial⟩
      · have := hlast b rfl _ h1
        simpa using this
      · simpa using hnew
    | cons c rest1 =>
      obtain ⟨h1, h2⟩ := hc
      have hnd1 := List.nodup_cons.1 hnd
      have hlast_eq : (b :: c :: rest1).getLast? = (c :: rest1).getLast? := List.getLast?_cons_cons
      refine ⟨?_, ?_⟩
      · have hb : some b ≠ (b :: c :: rest1).getLast? := by
          rw [hlast_eq]
          intro e
          have := List.mem_of_getLast?_eq_some e.symm
          exact hnd1.1 this
        rw [hold b (List.mem_cons_self _ _) hb]
        simpa using h1
      · refine ih (some b) hnd1.2 h2 ?_ ?_ ?_
        · intro x hx hne
          exact hold x (List.mem_cons_of_mem _ hx) (by rw [hlast_eq]; exact hne)
        · intro e he x hx
          exact hlast e (by rw [hlast_eq]; exact he) x hx
        · rw [hlast_eq] at hnew
          cases hl : (c :: rest1).getLast? with
          | none => simp at hl
          | some e => rw [hl] at hnew; simpa using hnew

theorem Registry.end_live (s : Cache) (L : List Nat) (h : Registry s L) :
    s.fcache_end = none ∨ ∃ e re, s.fcache_end = some e ∧ s.mem[e]? = some (some re) := by
  cases he : s.fcache_end with
  | none => exact Or.inl rfl
  | some e =>
    right
    have : L.getLast? = some e := by rw [← h.tail, he]
    obtain ⟨re, hre⟩ := Chain_mem s none L h.chain e (List.mem_of_getLast?_eq_some this)
    exact ⟨e, re, rfl, hre⟩

theorem Registry.fresh_not_mem (s : Cache) (L : List Nat) (h : Registry s L) :
    s.mem.length ∉ L := by
  intro hm
  obtain ⟨r, hr⟩ := Chain_mem s none L h.chain _ hm
  have := lt_of_mem s _ _ hr
  omega

theorem linksAt_alloc_store (s : Cache) (r : fileref_t) (b : Nat) :
    linksAt (s.alloc.store s.mem.length r) b
      = if s.mem.length = b then some (r.prev, r.next) else linksAt s b := by
  rw [linksAt_store s.alloc s.mem.length b _ r (alloc_new s)]
  split
  · rfl
  · rename_i hne
    by_cases hlt : b < s.mem.length
    · simp only [linksAt, alloc_old s b hlt]
    · have h1 : s.alloc.mem[b]? = none := by
        simp only [alloc_mem]
        apply List.getElem?_eq_none
        simp; omega
      have h2 : s.mem[b]? = none := List.getElem?_eq_none (by omega)
      simp only [linksAt, h1, h2]

theorem fdAt_alloc_store (s : Cache) (r : fileref_t) (b : Nat) (hr : r.fd = none) :
    fdAt (s.alloc.store s.mem.length r) b = fdAt s b := by
  rw [fdAt_store s.alloc s.mem.length b _ r (alloc_new s)]
  split
  · rename_i e
    subst e
    have h2 : s.mem[s.mem.length]? = none := List.getElem?_eq_none (by omega)
    simp only [fdAt, h2, hr]
  · rename_i hne
    by_cases hlt : b < s.mem.length
    · simp only [fdAt, alloc_old s b hlt]
    · have h1 : s.alloc.mem[b]? = none := by
        simp only [alloc_mem]
        apply List.getElem?_eq_none
        simp; omega
      have h2 : s.mem[b]? = none := List.getElem?_eq_none (by omega)
      simp only [fdAt, h1, h2]

theorem linkedState_cases (s : Cache) (L : List Nat) (path mode : List Char)
    (h : Registry s L) :
    (L = [] ∧ s.fcache_end = none ∧ linkedState s path mode
        = ((s.alloc.store s.mem.length (freshRef path mode)).setEnd (some s.mem.length)).setHead
            (some s.mem.length)) ∨
    (∃ e re, L.getLast? = some e ∧ s.fcache_end = some e ∧ s.mem[e]? = some (some re) ∧
      e ≠ s.mem.length ∧
      linkedState s path mode
        = (((s.alloc.store s.mem.length (freshRef path mode)).store e
            { re with next := some s.mem.length }).store s.mem.length
            { freshRef path mode with prev := some e }).setEnd (some s.mem.length)) := by
  rcases h.end_live with hn | ⟨e, re, he, hre⟩
  · left
    refine ⟨?_, hn, by simp [linkedState, hn]⟩
    have := h.tail
    rw [hn] at this
    exact List.getLast?_eq_none_iff.1 this.symm
  · right
    refine ⟨e, re, by rw [← h.tail, he], he, hre, ?_, by simp [linkedState, he, hre]⟩
    have := lt_of_mem s e _ hre
    omega

theorem linkedState_links (s : Cache) (L : List Nat) (path mode : List Char)
    (h : Registry s L) (b : Nat) :
    linksAt (linkedState s path mode) b
      = if s.mem.length = b then some (L.getLast?, none)
        else if some b = L.getLast? then (linksAt s b).map (fun x => (x.1, some s.mem.length))
        else linksAt s b := by
  rcases linkedState_cases s L path mode h with ⟨hL, _, e⟩ | ⟨e, re, hlast, _, hre, hne, e1⟩
  · rw [e]
    have := linksAt_alloc_store s (freshRef path mode) b
    simp only [linksAt, setHead_mem, setEnd_mem] at this ⊢
    rw [this, hL]
    simp [freshRef]
  · rw [e1]
    have hlen : s.mem.length < s.alloc.mem.length := by simp
    have g0 : (s.alloc.store s.mem.length (freshRef path mode)).mem[e]? = some (some re) := by
      rw [store_other _ _ _ _ (Ne.symm hne), alloc_old s e (lt_of_mem s e _ hre)]; exact hre
    have g1 : ((s.alloc.store s.mem.length (freshRef path mode)).store e
        { re with next := some s.mem.length }).mem[s.mem.length]?
          = some (some (freshRef path mode)) := by
      rw [store_other _ _ _ _ hne]
      exact store_same s.alloc s.mem.length (freshRef path mode) hlen
    have l1 := linksAt_store _ s.mem.length b _ { freshRef path mode with prev := some e } g1
    have l2 := linksAt_store _ e b _ { re with next := some s.mem.length } g0
    have l3 := linksAt_alloc_store s (freshRef path mode) b
    simp only [linksAt, setEnd_mem] at l1 l2 l3 ⊢
    rw [l1, l2, l3, hlast]
    by_cases c1 : s.mem.length = b
    · simp [c1, freshRef]
    · by_cases c2 : e = b
      · subst c2
        simp [c1, hre]
      · have : ¬ (some b = some e) := by
          intro x; exact c2 (Option.some.inj x).symm
        simp only [c1, c2, this, if_false]

theorem linkedState_fd (s : Cache) (L : List Nat) (path mode : List Char)
    (h : Registry s L) (b : Nat) : fdAt (linkedState s path mode) b = fdAt s b := by
  rcases linkedState_cases s L path mode h with ⟨hL, _, e⟩ | ⟨e, re, hlast, _, hre, hne, e1⟩
  · rw [e]
    have := fdAt_alloc_store s (freshRef path mode) b rfl
    simpa [fdAt] using this
  · rw [e1]
    have hlen : s.mem.length < s.alloc.mem.length := by simp
    have g0 : (s.alloc.store s.mem.length (freshRef path mode)).mem[e]? = some (some re) := by
      rw [store_other _ _ _ _ (Ne.symm hne), alloc_old s e (lt_of_mem s e _ hre)]; exact hre
    have g1 : ((s.alloc.store s.mem.length (freshRef path mode)).store e
        { re with next := some s.mem.length }).mem[s.mem.length]?
          = some (some (freshRef path mode)) := by
      rw [store_other _ _ _ _ hne]
      exact store_same s.alloc s.mem.length (freshRef path mode) hlen
    have l1 := fdAt_store _ s.mem.length b _ { freshRef path mode with prev := some e } g1
    have l2 := fdAt_store _ e b _ { re with next := some s.mem.length } g0
    have l3 := fdAt_alloc_store s (freshRef path mode) b rfl
    simp only [fdAt, setEnd_mem] at l1 l2 l3 ⊢
    rw [l1, l2, l3]
    by_cases c1 : s.mem.length = b
    · subst c1
      have h2 : s.mem[s.mem.length]? = none := List.getElem?_eq_none (by omega)
      simp [freshRef, h2]
    · by_cases c2 : e = b
      · subst c2
        simp [c1, hre]
      · simp only [c1, c2, if_false]

theorem linkedState_new (s : Cache) (L : List Nat) (path mode : List Char)
    (h : Registry s L) :
    (linkedState s path mode).mem[s.mem.length]?
      = some (some { freshRef path mode with prev := L.getLast? }) := by
  rcases linkedState_cases s L path mode h with ⟨hL, _, e⟩ | ⟨e, re, hlast, _, hre, hne, e1⟩
  · rw [e, hL]
    simp [freshRef]
  · rw [e1, hlast]
    simp

theorem linkedState_fields (s : Cache) (path mode : List Char) :
    (linkedState s path mode).fcache_numopen = s.fcache_numopen ∧
    (linkedState s path mode).disk = s.disk ∧
    (linkedState s path mode).fcache_numfiles = s.fcache_numfiles := by
  unfold linkedState
  split
  · simp
  · split <;> simp

theorem live_iff_links (s : Cache) (a : Nat) :
    (∃ r, s.mem[a]? = some (some r)) ↔ linksAt s a ≠ none := by
  constructor
  · rintro ⟨r, hr⟩ hn
    exact (linksAt_eq_none s a).1 hn r hr
  · intro hne
    cases hx : linksAt s a with
    | none => exact absurd hx hne
    | some x =>
      obtain ⟨r, hr, _⟩ := linksAt_some s a x hx
      exact ⟨r, hr⟩

theorem Acct_linkedState (s : Cache) (L : List Nat) (path mode : List Char)
    (h : WF s L) : Acct (linkedState s path mode) := by
  have hlen : s.mem.length < s.alloc.mem.length := by simp
  have a0 : Acct (s.alloc.store s.mem.length (freshRef path mode)) :=
    Acct_store_same s.alloc s.mem.length _ (freshRef path mode) (alloc_new s) rfl
      (Acct_alloc s h.acct)
  rcases linkedState_cases s L path mode h.reg with ⟨_, _, e⟩ | ⟨e, re, _, _, hre, hne, e1⟩
  · rw [e]
    exact Acct_congr _ _ rfl rfl a0
  · rw [e1]
    have g0 : (s.alloc.store s.mem.length (freshRef path mode)).mem[e]? = some (some re) := by
      rw [store_other _ _ _ _ (Ne.symm hne), alloc_old s e (lt_of_mem s e _ hre)]; exact hre
    have g1 : ((s.alloc.store s.mem.length (freshRef path mode)).store e
        { re with next := some s.mem.length }).mem[s.mem.length]?
          = some (some (freshRef path mode)) := by
      rw [store_other _ _ _ _ hne]
      exact store_same s.alloc s.mem.length (freshRef path mode) hlen
    have a1 := Acct_store_same _ e re { re with next := some s.mem.length } g0 rfl a0
    have a2 := Acct_store_same _ s.mem.length _ { freshRef path mode with prev := some e } g1 rfl a1
    exact Acct_congr _ _ rfl rfl a2

theorem Registry_linkedState (s : Cache) (L : List Nat) (path mode : List Char)
    (h : Registry s L) : Registry (linkedState s path mode) (L ++ [s.mem.length]) := by
  have hfresh := h.fresh_not_mem
  have hl := linkedState_links s L path mode h
  refine ⟨?_, ?_, ?_, ?_, ?_⟩
  · exact List.Nodup.append h.nodup (List.nodup_singleton _) (by simpa using hfresh)
  · refine Chain_snoc s _ s.mem.length none L h.nodup h.chain ?_ ?_ ?_
    · intro b hb hne
      have c1 : s.mem.length ≠ b := fun e => hfresh (e ▸ hb)
      rw [hl b]
      simp only [c1, hne, if_false]
    · intro e he x hx
      have c1 : s.mem.length ≠ e := fun e1 => hfresh (e1 ▸ List.mem_of_getLast?_eq_some he)
      rw [hl e]
      simp only [c1, he, if_false, if_true, hx, Option.map_some']
    · rw [hl]
      simp only [if_true]
      cases L.getLast? <;> rfl
  · rcases linkedState_cases s L path mode h with ⟨hL, _, e⟩ | ⟨e, re, hlast, _, _, _, e1⟩
    · rw [e, hL]; rfl
    · rw [e1]
      have hne : L ≠ [] := by
        intro e0; rw [e0] at hlast; simp at hlast
      have : (L ++ [s.mem.length]).head? = L.head? := by
        cases L with
        | nil => exact absurd rfl hne
        | cons x xs => rfl
      rw [this, ← h.head]
      rfl
  · rcases linkedState_cases s L path mode h with ⟨_, _, e⟩ | ⟨e, re, _, _, _, _, e1⟩
    · rw [e]; simp
    · rw [e1]; simp
  · intro b rb hb
    have hlive : linksAt (linkedState s path mode) b ≠ none :=
      (live_iff_links _ b).1 ⟨rb, hb⟩
    rw [hl b] at hlive
    by_cases c1 : s.mem.length = b
    · simp [← c1]
    · simp only [c1, if_false] at hlive
      have : linksAt s b ≠ none := by
        intro hn
        rw [hn] at hlive
        simp at hlive
      obtain ⟨r0, hr0⟩ := (live_iff_links s b).2 this
      exact List.mem_append_left _ (h.live b r0 hr0)

theorem WF_linkedState (s : Cache) (L : List Nat) (path mode : List Char) (h : WF s L) :
    WF (linkedState s path mode) (L ++ [s.mem.length]) :=
  ⟨Registry_linkedState s L path mode h.reg, Acct_linkedState s L path mode h⟩

/-- Closed form of `fcached_fopen` (allocation succeeding) on a well-formed cache: the new
handle is the next address, and the state stays well-formed with the handle appended to
the registry. -/
theorem fopen_WF (s : Cache) (L : List Nat) (path mode : List Char) (ok : Bool) (h : WF s L) :
    fcached_fopen path mode true ok s = .ok (some s.mem.length, openedState s L path mode ok) ∧
    WF (openedState s L path mode ok) (L ++ [s.mem.length]) := by
  have hw := WF_linkedState s L path mode h
  have hnew := linkedState_new s L path mode h.reg
  constructor
  · unfold fcached_fopen
    rw [link_eq s path mode ok h.reg.end_live, resume_WF _ _ _ _ ok hw hnew rfl]
    rfl
  · exact WF_resumeResult _ _ _ _ ok (WF_limited _ _ hw) (limited_keeps _ _ hw _ _ hnew rfl) rfl

/-! ## Capacity -/

theorem exists_resident (s : Cache) (L : List Nat) (h : WF s L) (hpos : 0 < s.fcache_numopen) :
    ∃ a, a ∈ L ∧ residentAt s a = true := by
  have hc : 0 < s.mem.countP isResident := by
    have := h.acct.1
    unfold residentCount at this
    omega
  obtain ⟨c, hc1, hc2⟩ := List.countP_pos_iff.1 hc
  obtain ⟨a, ha⟩ := List.mem_iff_getElem?.1 hc1
  cases c with
  | none => simp [isResident] at hc2
  | some r =>
    refine ⟨a, h.reg.live a r ha, ?_⟩
    simp only [isResident] at hc2
    simp [residentAt, fdAt, ha, hc2]

theorem evictState_numopen (s : Cache) (L : List Nat) (h : WF s L)
    (hpos : 0 < s.fcache_numopen) :
    (evictState s L).fcache_numopen = s.fcache_numopen - 1 := by
  rcases evictState_cases s L with ⟨hf, _⟩ | ⟨a, r, f, _, _, _, e⟩
  · obtain ⟨a, ha, hres⟩ := exists_resident s L h hpos
    have := List.find?_eq_none.1 hf a ha
    exact absurd hres this
  · rw [e]; rfl

theorem limited_numopen (s : Cache) (L : List Nat) (h : WF s L)
    (hcap : s.fcache_numopen ≤ MAX_OPEN_FILES) :
    (limited s L).fcache_numopen < MAX_OPEN_FILES := by
  unfold limited
  split
  · rename_i hge
    rw [evictState_numopen s L h (by unfold MAX_OPEN_FILES at hge; omega)]
    omega
  · omega

theorem openedState_cap (s : Cache) (L : List Nat) (path mode : List Char) (ok : Bool)
    (h : WF s L) (hcap : s.fcache_numopen ≤ MAX_OPEN_FILES) :
    (openedState s L path mode ok).fcache_numopen ≤ MAX_OPEN_FILES := by
  unfold openedState
  rw [resumeResult_numopen]
  have hw := WF_linkedState s L path mode h
  have := limited_numopen _ _ hw (by rw [(linkedState_fields s path mode).1]; exact hcap)
  split <;> omega

theorem WF_init (d : Disk) : WF (Cache.init d) [] :=
  ⟨⟨List.nodup_nil, trivial, rfl, rfl, by intro a r h; simp [Cache.init] at h⟩, Acct_init d⟩

theorem run_opens_WF (calls : List OpenCall) (s : Cache) (L : List Nat) (h : WF s L)
    (hcap : s.fcache_numopen ≤ MAX_OPEN_FILES) :
    ∃ s1 L1, run (calls.map OpenCall.toOp) s = .ok s1 ∧ WF s1 L1 ∧
      s1.fcache_numopen ≤ MAX_OPEN_FILES := by
  induction calls generalizing s L with
  | nil => exact ⟨s, L, rfl, h, hcap⟩
  | cons c rest ih =>
    cases hc : c.calloc_ok with
    | false =>
      have hstep : step c.toOp s = .ok s := by
        simp [OpenCall.toOp, step, fcached_fopen, fcache_link, hc]
      obtain ⟨s1, L1, h1, h2, h3⟩ := ih s L h hcap
      exact ⟨s1, L1, by simp only [List.map_cons, run, hstep]; exact h1, h2, h3⟩
    | true =>
      obtain ⟨e, hw⟩ := fopen_WF s L c.path c.mode c.ok h
      have hstep : step c.toOp s = .ok (openedState s L c.path c.mode c.ok) := by
        simp only [OpenCall.toOp, step, hc, e]; rfl
      obtain ⟨s1, L1, h1, h2, h3⟩ := ih _ _ hw (openedState_cap s L c.path c.mode c.ok h hcap)
      exact ⟨s1, L1, by simp only [List.map_cons, run, hstep]; exact h1, h2, h3⟩

theorem isOk_exists {α : Type} (x : Except Fault α) (h : isOk x = true) : ∃ a, x = .ok a := by
  cases x with
  | ok a => exact ⟨a, rfl⟩
  | error e => simp [isOk] at h

/-! ### Failed open -/

theorem limited_numopen_le (s : Cache) (L : List Nat) :
    (limited s L).fcache_numopen ≤ s.fcache_numopen := by
  unfold limited
  split
  · rcases evictState_cases s L with ⟨_, e⟩ | ⟨a, r, f, _, _, _, e⟩ <;> rw [e]
    simp [Cache.suspended]
  · exact le_refl _

theorem resumeResult_at (s2 : Cache) (a : Nat) (r : fileref_t) (ok : Bool)
    (hr : s2.mem[a]? = some (some r)) :
    ∃ r1, (resumeResult s2 a r ok).2.mem[a]? = some (some r1) ∧
      r1.fd = reopened s2.disk r ok ∧ r1.path = r.path ∧ r1.mode = r.mode ∧
      r1.prev = r.prev ∧ r1.next = r.next ∧
      r1.fpos = (if (reopened s2.disk r ok).isSome then 0 else r.fpos) := by
  have hlt := lt_of_mem s2 a _ hr
  unfold resumeResult reopened
  rcases stdio_fopen s2.disk r.path r.mode ok with ⟨_ | f, d⟩
  · exact ⟨_, store_same (s2.setDisk d) a _ hlt, rfl, rfl, rfl, rfl, rfl, rfl⟩
  · exact ⟨_, store_same (s2.setDisk d) a _ hlt, rfl, rfl, rfl, rfl, rfl, rfl⟩

/-! ### Close -/

theorem dataAt_store (s : Cache) (a b : Nat) (r r1 : fileref_t)
    (h : s.mem[a]? = some (some r)) :
    dataAt (s.store a r1) b
      = if a = b then some (r1.path, r1.mode, r1.fd, r1.fpos) else dataAt s b := by
  by_cases e : a = b
  · subst e
    have e1 := store_same s a r1 (lt_of_mem s a _ h)
    simp only [dataAt, e1, if_true]
  · have e1 := store_other s a b r1 e
    simp only [dataAt, e1, e, if_false]

theorem dataAt_live (s : Cache) (a : Nat) :
    (∃ r, s.mem[a]? = some (some r)) ↔ dataAt s a ≠ none := by
  unfold dataAt
  constructor
  · rintro ⟨r, hr⟩; simp [hr]
  · intro h
    split at h
    · rename_i r hr; exact ⟨r, hr⟩
    · exact absurd rfl h

theorem Mid_live (s t : Cache) (h : Nat) (r : fileref_t) (m : Mid s t h r) (b : Nat)
    (hb : ∃ rb, s.mem[b]? = some (some rb)) : ∃ rb, t.mem[b]? = some (some rb) := by
  by_cases e : b = h
  · subst e
    obtain ⟨rt, hrt, _⟩ := m.self
    exact ⟨rt, hrt⟩
  · rw [dataAt_live] at hb ⊢
    rw [m.others b e]; exact hb

theorem Mid_store (s t : Cache) (h : Nat) (r : fileref_t) (m : Mid s t h r) (p : Nat)
    (rp rp1 : fileref_t) (hp : t.mem[p]? = some (some rp))
    (hd : rp1.path = rp.path ∧ rp1.mode = rp.mode ∧ rp1.fd = rp.fd ∧ rp1.fpos = rp.fpos)
    (hl : p = h → rp1.prev = r.prev ∧ rp1.next = r.next) :
    Mid s (t.store p rp1) h r := by
  refine ⟨?_, ?_, m.numopen, m.disk⟩
  · intro b hb
    rw [dataAt_store t p b rp rp1 hp, ← m.others b hb]
    split
    · rename_i e; subst e
      simp [dataAt, hp, hd.1, hd.2.1, hd.2.2.1, hd.2.2.2]
    · rfl
  · obtain ⟨rt, hrt, h1, h2, h3⟩ := m.self
    by_cases e : p = h
    · subst e
      rw [hp] at hrt
      simp at hrt; subst hrt
      exact ⟨rp1, store_same t p rp1 (lt_of_mem t p _ hp), (hl rfl).1, (hl rfl).2, by rw [hd.2.2.1, h3]⟩
    · exact ⟨rt, by rw [store_other t p h rp1 e]; exact hrt, h1, h2, h3⟩

theorem unlink_total (s : Cache) (h : Nat) (r : fileref_t)
    (hr : s.mem[h]? = some (some r))
    (hc : ∀ f, r.fd = some f → f.closed = false)
    (hp : ∀ p, r.prev = some p → ∃ rp, s.mem[p]? = some (some rp))
    (hn : ∀ n, r.next = some n → ∃ rn, s.mem[n]? = some (some rn)) :
    ∃ t, fcache_unlink (some h) s = .ok (0, { t with mem := t.mem.set h none }) ∧ Mid s t h r := by
  -- the conditional suspend
  have step1 : ∃ s1, (if r.fd.isSome then (fun x => x.2) <$> fcache_suspend (some h) s
      else pure s) = .ok s1 ∧ Mid s s1 h r := by
    by_cases hf : r.fd = none
    · refine ⟨s, by simp [hf, pure, Except.pure], fun _ _ => rfl, ⟨r, hr, rfl, rfl, hf⟩,
        by simp [hf], rfl⟩
    · obtain ⟨f, hf1⟩ := Option.ne_none_iff_exists'.1 hf
      refine ⟨s.suspended h r f.pos, ?_, ?_, ?_, by simp [Cache.suspended, hf1], rfl⟩
      · simp [hf1, suspend_resident s h r f hr hf1 (hc f hf1), Functor.map, Except.map]
      · intro b hb
        have := dataAt_store s h b r { r with fpos := (f.pos : Int), fd := none } hr
        simp only [dataAt, Cache.suspended, setNumopen_mem] at this ⊢
        rw [this]
        simp [Ne.symm hb]
      · refine ⟨{ r with fpos := (f.pos : Int), fd := none }, ?_, rfl, rfl, rfl⟩
        have := store_same s h { r with fpos := (f.pos : Int), fd := none } (lt_of_mem s h _ hr)
        simpa [Cache.suspended] using this
  obtain ⟨s1, e1, m1⟩ := step1
  obtain ⟨r1, hr1, q1, q2, q3⟩ := m1.self
  -- the tail pointer
  have m2 : Mid s (if some h = s1.fcache_end then s1.setEnd r1.prev else s1) h r := by
    split
    · exact ⟨m1.others, m1.self, m1.numopen, m1.disk⟩
    · exact m1
  have hr2 : (if some h = s1.fcache_end then s1.setEnd r1.prev else s1).mem[h]?
      = some (some r1) := by
    split
    · exact hr1
    · exact hr1
  obtain ⟨s2, hs2⟩ : ∃ s2, s2 = (if some h = s1.fcache_end then s1.setEnd r1.prev else s1) :=
    ⟨_, rfl⟩
  rw [← hs2] at m2 hr2
  -- the predecessor
  have step3 : ∃ s3, (match r1.prev with
      | some p => s2.modify p (fun x => { x with next := r1.next })
      | none => pure s2) = .ok s3 ∧ Mid s s3 h r := by
    cases hprev : r1.prev with
    | none => exact ⟨s2, rfl, m2⟩
    | some p =>
      obtain ⟨rp, hrp⟩ := Mid_live s s2 h r m2 p (hp p (by rw [← q1, hprev]))
      refine ⟨_, modify_of s2 p rp _ hrp, Mid_store s s2 h r m2 p rp _ hrp ⟨rfl, rfl, rfl, rfl⟩ ?_⟩
      intro e
      subst e
      rw [hr2] at hrp
      simp at hrp; subst hrp
      exact ⟨q1, q2⟩
  obtain ⟨s3, e3, m3⟩ := step3
  obtain ⟨r3, hr3, u1, u2, u3⟩ := m3.self
  -- the successor
  have step4 : ∃ s4, (match r3.next with
      | some n => s3.modify n (fun x => { x with prev := r3.prev })
      | none => pure s3) = .ok s4 ∧ Mid s s4 h r := by
    cases hnext : r3.next with
    | none => exact ⟨s3, rfl, m3⟩
    | some n =>
      obtain ⟨rn, hrn⟩ := Mid_live s s3 h r m3 n (hn n (by rw [← u2, hnext]))
      refine ⟨_, modify_of s3 n rn _ hrn, Mid_store s s3 h r m3 n rn _ hrn ⟨rfl, rfl, rfl, rfl⟩ ?_⟩
      intro e
      subst e
      rw [hr3] at hrn
      simp at hrn; subst hrn
      exact ⟨u1, u2⟩
  obtain ⟨s4, e4, m4⟩ := step4
  obtain ⟨r4, hr4, -⟩ := m4.self
  refine ⟨s4, ?_, m4⟩
  have e5 : s4.release h = .ok { s4 with mem := s4.mem.set h none } := by
    simp [Cache.release, hr4]
  unfold fcache_unlink
  simp only [deref_of s h r hr, bind, Except.bind, e1, deref_of s1 h r1 hr1, ← hs2,
    deref_of s2 h r1 hr2, e3, deref_of s3 h r3 hr3, e4, e5]

theorem twoOpen_reached :
    run [.fopen ['a'] ['w'] true true, .fopen ['b'] ['w'] true true] (Cache.init [])
      = .ok twoOpen := rfl

/-! ### Reopen -/

theorem stdio_freopen_open (d d1 : Disk) (path mode : Option (List Char)) (fd : Option FILE)
    (ok : Bool) (f1 : FILE) (h : stdio_freopen d path mode fd ok = .ok (some f1, d1)) :
    f1.closed = false := by
  unfold stdio_freopen at h
  cases fd with
  | none => simp at h
  | some f =>
    simp only at h
    split at h
    · cases h
    · cases mode with
      | none => simp at h
      | some m =>
        simp only at h
        cases hm : parseMode m with
        | none => rw [hm] at h; simp at h
        | some acc =>
          rw [hm] at h
          simp at h
          exact stdio_open_open _ _ _ _ _ _ h

theorem freopen_success (s : Cache) (a : Nat) (r : fileref_t) (path mode : Option (List Char))
    (ok : Bool) (f1 : FILE) (d1 : Disk)
    (hr : s.mem[a]? = some (some r))
    (hnn : (path.isNone && mode.isNone) = false)
    (hre : stdio_freopen s.disk path mode r.fd ok = .ok (some f1, d1)) :
    fcached_freopen path mode (some a) ok s
      = .ok (some a, (s.setDisk d1).store a (reopenedRef r path mode f1)) := by
  have hlt := lt_of_mem s a _ hr
  have hc := stdio_freopen_open _ _ _ _ _ _ _ hre
  have m1 := modify_of (s.setDisk d1) a r (fun x => { x with fd := some f1 }) hr
  have g1 := store_same (s.setDisk d1) a { r with fd := some f1 } hlt
  have m2 := modify_of _ a _ (fun x => { x with fpos := (f1.pos : Int) }) g1
  simp only [store_store] at m2
  have g2 := store_same (s.setDisk d1) a { r with fd := some f1, fpos := (f1.pos : Int) } hlt
  unfold fcached_freopen
  simp only [hnn, Bool.false_eq_true, if_false, deref_of s a r hr, bind, Except.bind, hre, m1,
    stdio_ftell, hc, m2]
  cases path with
  | none =>
    cases mode with
    | none => simp at hnn
    | some m =>
      have m4 := modify_of _ a _ (fun x => { x with mode := strncpy m MAX_MODESTR }) g2
      simp only [store_store] at m4
      simp only [pure, Except.pure, m4, reopenedRef]
  | some p =>
    have m3 := modify_of _ a _ (fun x => { x with path := strncpy p MAX_PATH }) g2
    simp only [store_store] at m3
    cases mode with
    | none => simp only [pure, Except.pure, m3, reopenedRef]
    | some m =>
      have g3 := store_same (s.setDisk d1) a
        { r with fd := some f1, fpos := (f1.pos : Int), path := strncpy p MAX_PATH } hlt
      have m4 := modify_of _ a _ (fun x => { x with mode := strncpy m MAX_MODESTR }) g3
      simp only [store_store] at m4
      simp only [pure, Except.pure, m3, m4, reopenedRef]

theorem freopen_failure (s : Cache) (a : Nat) (r : fileref_t) (path mode : Option (List Char))
    (ok : Bool) (d1 : Disk)
    (hr : s.mem[a]? = some (some r))
    (hnn : (path.isNone && mode.isNone) = false)
    (hre : stdio_freopen s.disk path mode r.fd ok = .ok (none, d1)) :
    fcached_freopen path mode (some a) ok s
      = .ok (some a, (s.setDisk d1).store a
          { r with fd := r.fd.map (fun f => { f with closed := true }) }) := by
  have m1 := modify_of (s.setDisk d1) a r
    (fun x => { x with fd := x.fd.map (fun f => { f with closed := true }) }) hr
  unfold fcached_freopen
  simp only [hnn, Bool.false_eq_true, if_false, deref_of s a r hr, bind, Except.bind, hre, m1]

theorem get_resident (s : Cache) (a : Nat) (r : fileref_t) (f : FILE) (ok : Bool)
    (hr : s.mem[a]? = some (some r)) (hf : r.fd = some f) :
    fcache_get (some a) ok s = .ok (some f, s) := by
  simp only [fcache_get, deref_of s a r hr, bind, Except.bind, hf, Option.isNone_some,
    Bool.false_eq_true, if_false, pure, Except.pure]

theorem ftell_resident (s : Cache) (a : Nat) (r : fileref_t) (f : FILE) (ok : Bool)
    (hr : s.mem[a]? = some (some r)) (hf : r.fd = some f) (hc : f.closed = false) :
    fcached_ftell (some a) ok s = .ok ((f.pos : Int), s) := by
  simp only [fcached_ftell, get_resident s a r f ok hr hf, bind, Except.bind, stdio_ftell, hc,
    Bool.false_eq_true, if_false]

/-! ### Eviction order -/

theorem Disk.get_put (d : Disk) (p q : List Char) (c : List Nat) :
    (d.put p c).get q = if p = q then some c else d.get q := by
  induction d with
  | nil => simp [Disk.put, Disk.get]
  | cons x rest ih =>
    obtain ⟨p0, c0⟩ := x
    by_cases e : p0 = p
    · subst e
      by_cases e1 : p0 = q <;> simp [Disk.put, Disk.get, e1]
    · by_cases e1 : p0 = q
      · subst e1
        have : ¬ (p = p0) := fun x => e x.symm
        simp [Disk.put, Disk.get, e, this]
      · simp [Disk.put, Disk.get, e, e1, ih]

theorem DiskLe_put (d : Disk) (p : List Char) (c : List Nat) : DiskLe d (d.put p c) := by
  intro q hq
  rw [Disk.get_put]
  split
  · rfl
  · exact hq

theorem stdio_open_disk (d : Disk) (path : List Char) (acc : Access) (ok : Bool) :
    DiskLe d (stdio_open d path acc ok).2 := by
  unfold stdio_open
  split
  · exact fun _ h => h
  · split
    · split
      · exact DiskLe_put d path []
      · exact fun _ h => h
    · split
      · exact fun _ h => h
      · split
        · exact DiskLe_put d path []
        · exact fun _ h => h

theorem stdio_fopen_disk (d : Disk) (path mode : List Char) (ok : Bool) :
    DiskLe d (stdio_fopen d path mode ok).2 := by
  unfold stdio_fopen
  split
  · exact fun _ h => h
  · exact stdio_open_disk d path _ ok

theorem stdio_fopen_canOpen (d : Disk) (path mode : List Char)
    (h : canOpen d path mode = true) : ((stdio_fopen d path mode true).1).isSome = true := by
  unfold canOpen at h
  unfold stdio_fopen
  cases hm : parseMode mode with
  | none => simp [hm] at h
  | some acc =>
    simp only [hm, Bool.and_eq_true, Bool.not_eq_true'] at h ⊢
    obtain ⟨hx, h⟩ := h
    unfold stdio_open
    cases hg : d.get path with
    | none =>
      simp only [hg, Option.isSome_none, Bool.or_false] at h
      simp [h]
    | some c =>
      by_cases ht : acc.trunc = true <;> simp [ht, hx]

theorem canOpen_mono (d d1 : Disk) (path mode : List Char) (hle : DiskLe d d1)
    (h : canOpen d path mode = true) : canOpen d1 path mode = true := by
  unfold canOpen at h ⊢
  cases hm : parseMode mode with
  | none => simp [hm] at h
  | some acc =>
    simp only [hm, Bool.and_eq_true, Bool.or_eq_true] at h ⊢
    obtain ⟨hx, h⟩ := h
    refine ⟨hx, ?_⟩
    rcases h with (h | h) | h
    · exact Or.inl (Or.inl h)
    · exact Or.inl (Or.inr h)
    · exact Or.inr (hle path h)

theorem evict_length (v : List Bool) : (evict v).length = v.length := by
  induction v with
  | nil => rfl
  | cons b rest ih => cases b <;> simp [evict, ih]

theorem limited_res (s : Cache) (L : List Nat) (h : WF s L) :
    resAlong (limited s L) L = limV s.fcache_numopen (resAlong s L) ∧
    (limited s L).fcache_numopen = limN s.fcache_numopen := by
  unfold limited limV limN
  split
  · rename_i hge
    exact ⟨resAlong_evictState s L h.reg.nodup,
      evictState_numopen s L h (by unfold MAX_OPEN_FILES at hge; omega)⟩
  · exact ⟨rfl, rfl⟩

theorem limited_length (s : Cache) (L : List Nat) : (limited s L).mem.length = s.mem.length := by
  unfold limited
  split
  · rcases evictState_cases s L with ⟨_, e⟩ | ⟨a, r, f, _, _, _, e⟩ <;> rw [e]
    simp [Cache.suspended]
  · rfl

theorem resumeResult_length (s2 : Cache) (a : Nat) (r : fileref_t) (ok : Bool) :
    (resumeResult s2 a r ok).2.mem.length = s2.mem.length := by
  unfold resumeResult
  rcases stdio_fopen s2.disk r.path r.mode ok with ⟨_ | f, d⟩ <;> simp

theorem linkedState_length (s : Cache) (L : List Nat) (path mode : List Char)
    (h : Registry s L) : (linkedState s path mode).mem.length = s.mem.length + 1 := by
  rcases linkedState_cases s L path mode h with ⟨_, _, e⟩ | ⟨e, re, _, _, _, _, e1⟩
  · rw [e]; simp
  · rw [e1]; simp

theorem resAlong_congr (s t : Cache) (L : List Nat) (h : ∀ b ∈ L, fdAt t b = fdAt s b) :
    resAlong t L = resAlong s L := by
  unfold resAlong
  apply List.map_congr_left
  intro b hb
  unfold residentAt
  rw [h b hb]

theorem fdAt_fresh (s : Cache) : fdAt s s.mem.length = none := by
  have h2 : s.mem[s.mem.length]? = none := List.getElem?_eq_none (by omega)
  simp only [fdAt, h2]

/-- One successful `fcached_fopen` on a well-formed cache, on the residency vector. -/
theorem open_step (s : Cache) (L : List Nat) (path mode : List Char) (h : WF s L)
    (hcan : canOpen s.disk (strncpy path MAX_PATH) (strncpy mode MAX_MODESTR) = true) :
    ∃ s1, fcached_fopen path mode true true s = .ok (some s.mem.length, s1) ∧
      WF s1 (L ++ [s.mem.length]) ∧ s1.mem.length = s.mem.length + 1 ∧
      resAlong s1 (L ++ [s.mem.length]) = limV s.fcache_numopen (resAlong s L) ++ [true] ∧
      s1.fcache_numopen = limN s.fcache_numopen + 1 ∧ DiskLe s.disk s1.disk := by
  obtain ⟨e, hw⟩ := fopen_WF s L path mode true h
  have hw0 := WF_linkedState s L path mode h
  have hnew := linkedState_new s L path mode h.reg
  have hkeep := limited_keeps _ _ hw0 _ _ hnew rfl
  have hfield := linkedState_fields s path mode
  have hfresh := h.reg.fresh_not_mem
  -- the underlying fopen succeeds
  have hdisk : (limited (linkedState s path mode) (L ++ [s.mem.length])).disk = s.disk := by
    rw [limited_disk, hfield.2.1]
  have hopen : (reopened (limited (linkedState s path mode) (L ++ [s.mem.length])).disk
      { freshRef path mode with prev := L.getLast? } true).isSome = true := by
    unfold reopened
    rw [hdisk, Option.isSome_map']
    exact stdio_fopen_canOpen s.disk _ _ hcan
  -- residency after the eviction step
  have hres0 : resAlong (linkedState s path mode) (L ++ [s.mem.length])
      = resAlong s L ++ [false] := by
    have e1 : resAlong (linkedState s path mode) (L ++ [s.mem.length])
        = resAlong s (L ++ [s.mem.length]) :=
      resAlong_congr s _ _ (fun b _ => linkedState_fd s L path mode h.reg b)
    rw [e1]
    simp [resAlong, residentAt, fdAt_fresh]
  have hev : ∀ v : List Bool, evict (v ++ [false]) = evict v ++ [false] := by
    intro v
    induction v with
    | nil => rfl
    | cons b rest ih => cases b <;> simp [evict, ih]
  obtain ⟨hl1, hl2⟩ := limited_res _ _ hw0
  rw [hres0, hfield.1] at hl1
  rw [hfield.1] at hl2
  have hl3 : resAlong (limited (linkedState s path mode) (L ++ [s.mem.length])) L
      = limV s.fcache_numopen (resAlong s L) := by
    have : limV s.fcache_numopen (resAlong s L ++ [false])
        = limV s.fcache_numopen (resAlong s L) ++ [false] := by
      unfold limV; split
      · exact hev _
      · rfl
    rw [this] at hl1
    simp only [resAlong, List.map_append, List.map_cons, List.map_nil] at hl1 ⊢
    exact List.append_inj_left' hl1 (by simp)
  refine ⟨_, e, hw, ?_, ?_, ?_, ?_⟩
  · unfold openedState
    rw [resumeResult_length, limited_length, linkedState_length s L path mode h.reg]
  · have part1 : resAlong (openedState s L path mode true) L
        = limV s.fcache_numopen (resAlong s L) := by
      rw [← hl3]
      unfold openedState resAlong
      apply List.map_congr_left
      intro b hb
      have hne : s.mem.length ≠ b := fun x => hfresh (x ▸ hb)
      simp only [residentAt, resumeResult_fd _ _ b _ true hkeep, hne, if_false]
    have part2 : residentAt (openedState s L path mode true) s.mem.length = true := by
      unfold openedState
      simp only [residentAt, resumeResult_fd _ _ _ _ true hkeep, if_true, hopen]
    rw [← part1]
    simp only [resAlong, List.map_append, List.map_cons, List.map_nil, part2]
  · unfold openedState
    rw [resumeResult_numopen, hopen, hl2]
    simp
  · unfold openedState
    rw [resumeResult_disk, hdisk]
    exact stdio_fopen_disk s.disk _ _ true

theorem get_suspended (s : Cache) (L : List Nat) (a : Nat) (r : fileref_t) (ok : Bool)
    (h : WF s L) (hr : s.mem[a]? = some (some r)) (hf : r.fd = none) :
    fcache_get (some a) ok s
      = .ok (reopened (limited s L).disk r ok, (resumeResult (limited s L) a r ok).2) := by
  obtain ⟨r1, h1, h2, -⟩ := resumeResult_at (limited s L) a r ok (limited_keeps s L h a r hr hf)
  simp only [fcache_get, deref_of s a r hr, bind, Except.bind, hf, Option.isNone_none, if_true,
    resume_WF s L a r ok h hr hf, Functor.map, Except.map, deref_of _ a r1 h1, h2]

theorem stdio_fread_total (d : Disk) (size n : Nat) (f : FILE) (hc : f.closed = false) :
    ∃ ret bytes f2, stdio_fread d size n f = .ok (ret, bytes, f2) ∧ f2.closed = false := by
  unfold stdio_fread
  simp only [hc, Bool.false_eq_true, if_false]
  split
  · exact ⟨_, _, _, rfl, rfl⟩
  · exact ⟨_, _, _, rfl, rfl⟩

theorem reopened_open (d : Disk) (r : fileref_t) (ok : Bool) (f : FILE)
    (h : reopened d r ok = some f) : f.closed = false := by
  unfold reopened at h
  rcases hfo : stdio_fopen d r.path r.mode ok with ⟨_ | f0, d1⟩
  · rw [hfo] at h; simp at h
  · rw [hfo] at h
    simp at h
    rw [← h]
    have := stdio_fopen_open _ _ _ _ _ _ hfo
    unfold seekSet
    split <;> simp [this]

/-- A read on a suspended registered handle of a well-formed cache whose file can be
opened: the handle is resident afterwards, the eviction step ran before, and the
registry is the same list. -/
theorem fread_step (s : Cache) (L : List Nat) (a : Nat) (r : fileref_t) (size n : Nat)
    (h : WF s L) (hr : s.mem[a]? = some (some r)) (hf : r.fd = none)
    (hcan : canOpen s.disk r.path r.mode = true) :
    ∃ ret s1, fcached_fread size n (some a) true s = .ok (ret, s1) ∧ WF s1 L ∧
      (∀ b, residentAt s1 b = if a = b then true else residentAt (limited s L) b) ∧
      s1.fcache_numopen = limN s.fcache_numopen + 1 := by
  have hk := limited_keeps s L h a r hr hf
  have hwl := WF_limited s L h
  have hw1 := WF_resumeResult (limited s L) L a r true hwl hk hf
  obtain ⟨r1, h1, h2, -⟩ := resumeResult_at (limited s L) a r true hk
  have hopen : (reopened (limited s L).disk r true).isSome = true := by
    unfold reopened
    rw [limited_disk, Option.isSome_map']
    exact stdio_fopen_canOpen s.disk _ _ hcan
  obtain ⟨f1, hf1⟩ := Option.isSome_iff_exists.1 hopen
  have hc1 := reopened_open _ _ _ _ hf1
  obtain ⟨ret, bytes, f2, hrd, hc2⟩ :=
    stdio_fread_total (resumeResult (limited s L) a r true).2.disk size n f1 hc1
  have hm := modify_of _ a r1 (fun x => { x with fd := some f2 }) h1
  refine ⟨(ret, bytes), (resumeResult (limited s L) a r true).2.store a { r1 with fd := some f2 },
    ?_, ?_, ?_, ?_⟩
  · simp only [fcached_fread, get_suspended s L a r true h hr hf, bind, Except.bind, hf1, hrd,
      setStream, hm]
  · refine ⟨Registry_of_links _ _ L hw1.reg ?_ rfl rfl, ?_⟩
    · intro b
      exact linksAt_store_same _ a b r1 _ h1 rfl rfl
    · have := Acct_store _ a r1 { r1 with fd := some f2 }
        (resumeResult (limited s L) a r true).2.fcache_numopen h1 (by simp [h2, hf1])
        (by intro f3 h3; simp at h3; rw [← h3]; exact hc2) hw1.acct
      exact Acct_congr _ _ rfl rfl this
  · intro b
    unfold residentAt
    rw [fdAt_store _ a b r1 _ h1]
    by_cases e : a = b
    · simp [e]
    · simp only [e, if_false]
      rw [resumeResult_fd _ a b r true hk]
      simp only [e, if_false]
  · show (resumeResult (limited s L) a r true).2.fcache_numopen = _
    rw [resumeResult_numopen, hopen, (limited_res s L h).2]
    simp

theorem nameAt_store (s : Cache) (a b : Nat) (r r1 : fileref_t)
    (h : s.mem[a]? = some (some r)) :
    nameAt (s.store a r1) b = if a = b then some (r1.path, r1.mode) else nameAt s b := by
  by_cases e : a = b
  · subst e
    have e1 := store_same s a r1 (lt_of_mem s a _ h)
    simp only [nameAt, e1, if_true]
  · have e1 := store_other s a b r1 e
    simp only [nameAt, e1, e, if_false]

theorem nameAt_store_same (s : Cache) (a b : Nat) (r r1 : fileref_t)
    (h : s.mem[a]? = some (some r)) (hp : r1.path = r.path) (hm : r1.mode = r.mode) :
    nameAt (s.store a r1) b = nameAt s b := by
  rw [nameAt_store s a b r r1 h]
  split
  · rename_i e; subst e
    simp [nameAt, h, hp, hm]
  · rfl

theorem nameAt_evictState (s : Cache) (L : List Nat) (b : Nat) :
    nameAt (evictState s L) b = nameAt s b := by
  rcases evictState_cases s L with ⟨_, e⟩ | ⟨a, r, f, _, hr, _, e⟩
  · rw [e]
  · rw [e]
    have := nameAt_store_same s a b r { r with fpos := (f.pos : Int), fd := none } hr rfl rfl
    simpa [Cache.suspended, nameAt] using this

theorem nameAt_limited (s : Cache) (L : List Nat) (b : Nat) :
    nameAt (limited s L) b = nameAt s b := by
  unfold limited
  split
  · exact nameAt_evictState s L b
  · rfl

theorem nameAt_resumeResult (s2 : Cache) (a b : Nat) (r : fileref_t) (ok : Bool)
    (hr : s2.mem[a]? = some (some r)) :
    nameAt (resumeResult s2 a r ok).2 b = nameAt s2 b := by
  unfold resumeResult
  rcases stdio_fopen s2.disk r.path r.mode ok with ⟨_ | f, d⟩
  · have := nameAt_store_same (s2.setDisk d) a b r { r with fd := none } hr rfl rfl
    simpa [nameAt] using this
  · have := nameAt_store_same (s2.setDisk d) a b r
      { r with fd := some (seekSet f r.fpos), fpos := 0 } hr rfl rfl
    simpa [nameAt] using this

theorem nameAt_alloc_store (s : Cache) (r : fileref_t) (b : Nat) :
    nameAt (s.alloc.store s.mem.length r) b
      = if s.mem.length = b then some (r.path, r.mode) else nameAt s b := by
  rw [nameAt_store s.alloc s.mem.length b _ r (alloc_new s)]
  split
  · rfl
  · rename_i hne
    by_cases hlt : b < s.mem.length
    · simp only [nameAt, alloc_old s b hlt]
    · have h1 : s.alloc.mem[b]? = none := by
        simp only [alloc_mem]
        apply List.getElem?_eq_none
        simp; omega
      have h2 : s.mem[b]? = none := List.getElem?_eq_none (by omega)
      simp only [nameAt, h1, h2]

theorem nameAt_linkedState (s : Cache) (L : List Nat) (path mode : List Char)
    (h : Registry s L) (b : Nat) :
    nameAt (linkedState s path mode) b
      = if s.mem.length = b then some (strncpy path MAX_PATH, strncpy mode MAX_MODESTR)
        else nameAt s b := by
  rcases linkedState_cases s L path mode h with ⟨hL, _, e⟩ | ⟨e, re, hlast, _, hre, hne, e1⟩
  · rw [e]
    have := nameAt_alloc_store s (freshRef path mode) b
    simpa [nameAt, freshRef] using this
  · rw [e1]
    have hlen : s.mem.length < s.alloc.mem.length := by simp
    have g0 : (s.alloc.store s.mem.length (freshRef path mode)).mem[e]? = some (some re) := by
      rw [store_other _ _ _ _ (Ne.symm hne), alloc_old s e (lt_of_mem s e _ hre)]; exact hre
    have g1 : ((s.alloc.store s.mem.length (freshRef path mode)).store e
        { re with next := some s.mem.length }).mem[s.mem.length]?
          = some (some (freshRef path mode)) := by
      rw [store_other _ _ _ _ hne]
      exact store_same s.alloc s.mem.length (freshRef path mode) hlen
    have l1 := nameAt_store_same _ s.mem.length b _ { freshRef path mode with prev := some e } g1
      rfl rfl
    have l2 := nameAt_store_same _ e b _ { re with next := some s.mem.length } g0 rfl rfl
    have l3 := nameAt_alloc_store s (freshRef path mode) b
    simp only [nameAt, setEnd_mem] at l1 l2 l3 ⊢
    rw [l1, l2, l3]
    simp [freshRef]

theorem nameAt_openedState (s : Cache) (L : List Nat) (path mode : List Char) (ok : Bool)
    (h : WF s L) (b : Nat) :
    nameAt (openedState s L path mode ok) b
      = if s.mem.length = b then some (strncpy path MAX_PATH, strncpy mode MAX_MODESTR)
        else nameAt s b := by
  have hw0 := WF_linkedState s L path mode h
  have hnew := linkedState_new s L path mode h.reg
  have hkeep := limited_keeps _ _ hw0 _ _ hnew rfl
  unfold openedState
  rw [nameAt_resumeResult _ _ b _ ok hkeep, nameAt_limited, nameAt_linkedState s L path mode h.reg]

/-- One successful `fcached_fopen` with the bookkeeping spelled out: `k` is the next
address, `n` the counter, `v` the residency vector before the call. -/
theorem open_step_at (s : Cache) (L : List Nat) (path mode : List Char) (k : Nat) (n : Int)
    (v : List Bool) (h : WF s L) (hk : s.mem.length = k) (hn : s.fcache_numopen = n)
    (hv : resAlong s L = v)
    (hcan : canOpen s.disk (strncpy path MAX_PATH) (strncpy mode MAX_MODESTR) = true) :
    ∃ s1, fcached_fopen path mode true true s = .ok (some k, s1) ∧
      WF s1 (L ++ [k]) ∧ s1.mem.length = k + 1 ∧
      resAlong s1 (L ++ [k]) = limV n v ++ [true] ∧
      s1.fcache_numopen = limN n + 1 ∧ DiskLe s.disk s1.disk ∧
      (∀ b, nameAt s1 b = if k = b then some (strncpy path MAX_PATH, strncpy mode MAX_MODESTR)
        else nameAt s b) := by
  subst hk hn hv
  obtain ⟨s1, e, hw, hl, hr, hnum, hd⟩ := open_step s L path mode h hcan
  have e0 := (fopen_WF s L path mode true h).1
  rw [e0] at e
  simp at e
  subst e
  exact ⟨_, e0, hw, hl, hr, hnum, hd, nameAt_openedState s L path mode true h⟩

theorem DiskLe_trans (d d1 d2 : Disk) (h1 : DiskLe d d1) (h2 : DiskLe d1 d2) : DiskLe d d2 :=
  fun p hp => h2 p (h1 p hp)

theorem nameAt_some (s : Cache) (a : Nat) (x : List Char × List Char)
    (h : nameAt s a = some x) : ∃ r, s.mem[a]? = some (some r) ∧ r.path = x.1 ∧ r.mode = x.2 := by
  unfold nameAt at h
  split at h
  · rename_i r hr
    simp at h
    exact ⟨r, hr, by rw [← h], by rw [← h]⟩
  · cases h

/-- The scenario of C8 on the code's capacity 4: five opens whose underlying `fopen`
succeed, then a read on the first handle. -/
theorem five_opens_then_read (d : Disk) (p0 p1 p2 p3 p4 m0 m1 m2 m3 m4 : List Char)
    (size n : Nat)
    (h0 : canOpen d (strncpy p0 MAX_PATH) (strncpy m0 MAX_MODESTR) = true)
    (h1 : canOpen d (strncpy p1 MAX_PATH) (strncpy m1 MAX_MODESTR) = true)
    (h2 : canOpen d (strncpy p2 MAX_PATH) (strncpy m2 MAX_MODESTR) = true)
    (h3 : canOpen d (strncpy p3 MAX_PATH) (strncpy m3 MAX_MODESTR) = true)
    (h4 : canOpen d (strncpy p4 MAX_PATH) (strncpy m4 MAX_MODESTR) = true) :
    ∃ s5 ret s6,
      run [.fopen p0 m0 true true, .fopen p1 m1 true true, .fopen p2 m2 true true,
        .fopen p3 m3 true true, .fopen p4 m4 true true] (Cache.init d) = .ok s5 ∧
      Registry s5 [0, 1, 2, 3, 4] ∧
      resAlong s5 [0, 1, 2, 3, 4] = [false, true, true, true, true] ∧
      s5.fcache_numopen = 4 ∧
      fcached_fread size n (some 0) true s5 = .ok (ret, s6) ∧
      Registry s6 [0, 1, 2, 3, 4] ∧
      resAlong s6 [0, 1, 2, 3, 4] = [true, false, true, true, true] ∧
      s6.fcache_numopen = 4 := by
  obtain ⟨s1, e1, w1, l1, v1, n1, d1, nm1⟩ :=
    open_step_at (Cache.init d) [] p0 m0 0 0 [] (WF_init d) rfl rfl rfl h0
  have v1a : resAlong s1 [0] = [true] := by simpa [limV, MAX_OPEN_FILES] using v1
  have n1a : s1.fcache_numopen = 1 := by simpa [limN, MAX_OPEN_FILES] using n1
  obtain ⟨s2, e2, w2, l2, v2, n2, d2, nm2⟩ :=
    open_step_at s1 [0] p1 m1 1 1 [true] w1 l1 n1a v1a (canOpen_mono d _ _ _ d1 h1)
  have v2a : resAlong s2 [0, 1] = [true, true] := by simpa [limV, MAX_OPEN_FILES] using v2
  have n2a : s2.fcache_numopen = 2 := by simpa [limN, MAX_OPEN_FILES] using n2
  have d2a := DiskLe_trans _ _ _ d1 d2
  obtain ⟨s3, e3, w3, l3, v3, n3, d3, nm3⟩ :=
    open_step_at s2 [0, 1] p2 m2 2 2 [true, true] w2 l2 n2a v2a (canOpen_mono d _ _ _ d2a h2)
  have v3a : resAlong s3 [0, 1, 2] = [true, true, true] := by
    simpa [limV, MAX_OPEN_FILES] using v3
  have n3a : s3.fcache_numopen = 3 := by simpa [limN, MAX_OPEN_FILES] using n3
  have d3a := DiskLe_trans _ _ _ d2a d3
  obtain ⟨s4, e4, w4, l4, v4, n4, d4, nm4⟩ :=
    open_step_at s3 [0, 1, 2] p3 m3 3 3 [true, true, true] w3 l3 n3a v3a
      (canOpen_mono d _ _ _ d3a h3)
  have v4a : resAlong s4 [0, 1, 2, 3] = [true, true, true, true] := by
    simpa [limV, MAX_OPEN_FILES] using v4
  have n4a : s4.fcache_numopen = 4 := by simpa [limN, MAX_OPEN_FILES] using n4
  have d4a := DiskLe_trans _ _ _ d3a d4
  obtain ⟨s5, e5, w5, l5, v5, n5, d5, nm5⟩ :=
    open_step_at s4 [0, 1, 2, 3] p4 m4 4 4 [true, true, true, true] w4 l4 n4a v4a
      (canOpen_mono d _ _ _ d4a h4)
  have v5a : resAlong s5 [0, 1, 2, 3, 4] = [false, true, true, true, true] := by
    simpa [limV, MAX_OPEN_FILES, evict] using v5
  have n5a : s5.fcache_numopen = 4 := by simpa [limN, MAX_OPEN_FILES] using n5
  have d5a := DiskLe_trans _ _ _ d4a d5
  have w5a : WF s5 [0, 1, 2, 3, 4] := w5
  -- the record of the first handle
  have hname : nameAt s5 0 = some (strncpy p0 MAX_PATH, strncpy m0 MAX_MODESTR) := by
    rw [nm5 0, nm4 0, nm3 0, nm2 0, nm1 0]
    simp
  obtain ⟨r0, hr0, hp0, hm0⟩ := nameAt_some s5 0 _ hname
  have hfd0 : r0.fd = none := by
    have : residentAt s5 0 = false := by
      have := v5a
      simp [resAlong] at this
      exact this.1
    cases hx : r0.fd with
    | none => rfl
    | some f => simp [residentAt, fdAt, hr0, hx] at this
  have hcan0 : canOpen s5.disk r0.path r0.mode = true := by
    rw [hp0, hm0]
    exact canOpen_mono d _ _ _ d5a h0
  obtain ⟨ret, s6, e6, w6, v6, n6⟩ := fread_step s5 [0, 1, 2, 3, 4] 0 r0 size n w5a hr0 hfd0 hcan0
  have hlim := (limited_res s5 [0, 1, 2, 3, 4] w5a).1
  rw [v5a, n5a] at hlim
  simp [resAlong, limV, MAX_OPEN_FILES, evict] at hlim
  refine ⟨s5, ret, s6, ?_, w5a.reg, v5a, n5a, e6, w6.reg, ?_, ?_⟩
  · simp only [run, step, fcached_fopen] at *
    simp only [e1, e2, e3, e4, e5, Functor.map, Except.map]
  · simp [resAlong, v6, hlim]
  · rw [n6, n5a]; simp [limN, MAX_OPEN_FILES]

/-! ### The iteration bound of the eviction scan is never reached -/

theorem NoFuel_ok {α : Type} (a : α) : NoFuel (.ok a : Except Fault α) := by
  intro h; cases h

theorem NoFuel_undefined {α : Type} : NoFuel (.error .undefined : Except Fault α) := by
  intro h; cases h

theorem NoFuel_cast {α β : Type} (e : Fault) (h : NoFuel (.error e : Except Fault α)) :
    NoFuel (.error e : Except Fault β) := by
  intro hh
  apply h
  cases hh
  rfl

theorem NoFuel_bind {α β : Type} (x : Except Fault α) (f : α → Except Fault β)
    (hx : NoFuel x) (hf : ∀ a, x = .ok a → NoFuel (f a)) : NoFuel (x >>= f) := by
  cases x with
  | error e =>
    cases e with
    | undefined => exact NoFuel_undefined
    | fuel => exact absurd rfl hx
  | ok a => exact hf a rfl

theorem NoFuel_map {α β : Type} (x : Except Fault α) (f : α → β) (hx : NoFuel x) :
    NoFuel (f <$> x) := by
  cases x with
  | error e =>
    cases e with
    | undefined => exact NoFuel_undefined
    | fuel => exact absurd rfl hx
  | ok a => exact NoFuel_ok _

theorem NoFuel_deref (s : Cache) (a : Nat) : NoFuel (s.deref a) := by
  unfold Cache.deref
  split
  · exact NoFuel_ok _
  · exact NoFuel_undefined

theorem NoFuel_modify (s : Cache) (a : Nat) (g : fileref_t → fileref_t) :
    NoFuel (s.modify a g) := by
  unfold Cache.modify
  split
  · exact NoFuel_ok _
  · exact NoFuel_undefined

theorem NoFuel_release (s : Cache) (a : Nat) : NoFuel (s.release a) := by
  unfold Cache.release
  split
  · exact NoFuel_ok _
  · exact NoFuel_undefined

theorem NoFuel_suspend (fr : Option Nat) (s : Cache) : NoFuel (fcache_suspend fr s) := by
  cases fr with
  | none => exact NoFuel_ok _
  | some a =>
    cases hd : s.deref a with
    | error e =>
      have := NoFuel_deref s a
      rw [hd] at this
      simp only [fcache_suspend, hd, bind, Except.bind]
      exact NoFuel_cast _ this
    | ok r =>
      rw [deref_ok] at hd
      cases hf : r.fd with
      | none => rw [suspend_absent s a r hd hf]; exact NoFuel_ok _
      | some f =>
        cases hc : f.closed with
        | true =>
          simp only [fcache_suspend, deref_of s a r hd, hf, stdio_ftell, hc, bind, Except.bind,
            if_true]
          exact NoFuel_undefined
        | false => rw [suspend_resident s a r f hd hf hc]; exact NoFuel_ok _

theorem NoFuel_loop (fuel : Nat) (fr : Option Nat) (s : Cache) (hl : LinksUp s)
    (h1 : 1 ≤ fuel) (h2 : ∀ a, fr = some a → s.mem.length < fuel + a) :
    NoFuel (ensure_limits_loop fuel fr s) := by
  induction fuel generalizing fr with
  | zero => omega
  | succ k ih =>
    unfold ensure_limits_loop
    cases fr with
    | none => exact NoFuel_ok _
    | some a =>
      refine NoFuel_bind _ _ (NoFuel_deref s a) ?_
      intro r hr
      rw [deref_ok] at hr
      split
      · refine NoFuel_bind _ _ (NoFuel_suspend _ _) ?_
        intro x _
        exact NoFuel_ok _
      · have hlt := lt_of_mem s a _ hr
        have hb := h2 a rfl
        have hlink : linksAt s a = some (r.prev, r.next) := by simp [linksAt, hr]
        refine ih r.next (by omega) ?_
        intro n hn
        have := (hl.1 a _ hlink).1 n hn
        omega

theorem NoFuel_ensure_limits (s : Cache) (hl : LinksUp s) : NoFuel (fcache_ensure_limits s) :=
  NoFuel_loop _ _ s hl (by omega) (by intro a _; omega)

theorem LinksUp_of_links (s s1 : Cache) (h : LinksUp s)
    (hlinks : ∀ b, linksAt s1 b = linksAt s b) (he : s1.fcache_end = s.fcache_end)
    (hm : s1.mem.length = s.mem.length) : LinksUp s1 := by
  refine ⟨?_, ?_⟩
  · intro a x hx
    rw [hlinks a] at hx
    exact h.1 a x hx
  · intro e hee
    rw [he] at hee
    rw [hm]
    exact h.2 e hee

theorem LinksUp_store_same (s : Cache) (a : Nat) (r r1 : fileref_t) (h : LinksUp s)
    (hr : s.mem[a]? = some (some r)) (hp : r1.prev = r.prev) (hn : r1.next = r.next) :
    LinksUp (s.store a r1) :=
  LinksUp_of_links s _ h (fun b => linksAt_store_same s a b r r1 hr hp hn) rfl (by simp)

theorem LinksUp_modify (s s1 : Cache) (a : Nat) (g : fileref_t → fileref_t) (h : LinksUp s)
    (e : s.modify a g = .ok s1) (hg : ∀ r, (g r).prev = r.prev ∧ (g r).next = r.next) :
    LinksUp s1 := by
  rw [modify_ok] at e
  obtain ⟨r, hr, e1⟩ := e
  rw [e1]
  exact LinksUp_store_same s a r (g r) h hr (hg r).1 (hg r).2

theorem LinksUp_suspend (fr : Option Nat) (s s1 : Cache) (ret : Int) (h : LinksUp s)
    (e : fcache_suspend fr s = .ok (ret, s1)) : LinksUp s1 := by
  cases fr with
  | none => simp [fcache_suspend] at e; rw [← e.2]; exact h
  | some a =>
    obtain ⟨r, hr, hcase⟩ := suspend_inv _ _ _ _ e
    rcases hcase with ⟨_, _, h3⟩ | ⟨f, _, _, _, h3⟩
    · rw [h3]; exact h
    · rw [h3]
      exact LinksUp_of_links s _ h (fun b => linksAt_suspended s a b r _ hr) rfl
        (by simp [Cache.suspended])

theorem LinksUp_limitStep (s s1 : Cache) (h : LinksUp s) (e : limitStep s = .ok s1) :
    LinksUp s1 := by
  unfold limitStep at e
  split at e
  · rcases ensure_loop_inv _ _ _ _ e with h1 | ⟨a, r, f, hr, _, _, h1⟩
    · rw [h1]; exact h
    · rw [h1]
      exact LinksUp_of_links s _ h (fun b => linksAt_suspended s a b r _ hr) rfl
        (by simp [Cache.suspended])
  · rw [pure_ok] at e; rw [← e]; exact h

theorem LinksUp_resume (fr : Option Nat) (ok : Bool) (s s1 : Cache) (ret : Int)
    (h : LinksUp s) (e : fcache_resume fr ok s = .ok (ret, s1)) : LinksUp s1 := by
  cases fr with
  | none => simp [fcache_resume] at e; rw [← e.2]; exact h
  | some a =>
    cases hd : s.deref a with
    | error x => simp [fcache_resume, hd, bind, Except.bind] at e
    | ok r =>
      rw [deref_ok] at hd
      cases hf : r.fd with
      | some f =>
        rw [resume_resident s a r ok hd (by simp [hf])] at e
        simp at e; rw [← e.2]; exact h
      | none =>
        rw [resume_eq s a r ok hd hf, bind_ok] at e
        obtain ⟨s2, hl, e⟩ := e
        simp at e
        have h2 := LinksUp_limitStep s s2 h hl
        have hk := limitStep_keeps s s2 hl a r hd hf
        have e1 : s1 = (resumeResult s2 a r ok).2 := by rw [e]
        rw [e1]
        exact LinksUp_of_links s2 _ h2 (fun b => resumeResult_links s2 a b r ok hk)
          (resumeResult_head s2 a r ok).2 (resumeResult_length s2 a r ok)

theorem NoFuel_resume (fr : Option Nat) (ok : Bool) (s : Cache) (h : LinksUp s) :
    NoFuel (fcache_resume fr ok s) := by
  cases fr with
  | none => exact NoFuel_ok _
  | some a =>
    cases hd : s.deref a with
    | error x =>
      have := NoFuel_deref s a
      rw [hd] at this
      simp only [fcache_resume, hd, bind, Except.bind]
      exact NoFuel_cast _ this
    | ok r =>
      rw [deref_ok] at hd
      cases hf : r.fd with
      | some f =>
        rw [resume_resident s a r ok hd (by simp [hf])]
        exact NoFuel_ok _
      | none =>
        rw [resume_eq s a r ok hd hf]
        refine NoFuel_bind _ _ ?_ (fun _ _ => NoFuel_ok _)
        unfold limitStep
        split
        · exact NoFuel_ensure_limits s h
        · exact NoFuel_ok _

theorem LinksUp_at (s : Cache) (a : Nat) (r : fileref_t) (h : LinksUp s)
    (hr : s.mem[a]? = some (some r)) :
    (∀ n, r.next = some n → a < n) ∧ (∀ p, r.prev = some p → p < a) :=
  h.1 a (r.prev, r.next) (by simp [linksAt, hr])

theorem LinksUp_store (s : Cache) (a : Nat) (r r1 : fileref_t) (h : LinksUp s)
    (hr : s.mem[a]? = some (some r)) (hn : ∀ n, r1.next = some n → a < n)
    (hp : ∀ p, r1.prev = some p → p < a) : LinksUp (s.store a r1) := by
  refine ⟨?_, ?_⟩
  · intro b x hx
    rw [linksAt_store s a b r r1 hr] at hx
    split at hx
    · rename_i e
      subst e
      simp at hx
      rw [← hx]
      exact ⟨hn, hp⟩
    · exact h.1 b x hx
  · intro e he
    simp only [store_mem, List.length_set]
    exact h.2 e he

theorem LinksUp_release (s s1 : Cache) (a : Nat) (h : LinksUp s) (e : s.release a = .ok s1) :
    LinksUp s1 := by
  rw [release_ok] at e
  obtain ⟨⟨r, hr⟩, e1⟩ := e
  rw [e1]
  refine ⟨?_, ?_⟩
  · intro b x hx
    by_cases e2 : a = b
    · subst e2
      simp [linksAt, List.getElem?_set, lt_of_mem s a _ hr] at hx
    · have : linksAt { s with mem := s.mem.set a none } b = linksAt s b := by
        simp only [linksAt, List.getElem?_set_ne e2]
      rw [this] at hx
      exact h.1 b x hx
  · intro e he
    simp only [List.length_set]
    exact h.2 e he

theorem LinksUp_alloc (s : Cache) (h : LinksUp s) : LinksUp s.alloc := by
  refine ⟨?_, ?_⟩
  · intro b x hx
    by_cases hlt : b < s.mem.length
    · have : linksAt s.alloc b = linksAt s b := by simp only [linksAt, alloc_old s b hlt]
      rw [this] at hx
      exact h.1 b x hx
    · by_cases e : b = s.mem.length
      · subst e
        simp [linksAt] at hx
        rw [← hx]
        simp
      · have h1 : s.alloc.mem[b]? = none := by
          simp only [alloc_mem]
          apply List.getElem?_eq_none
          simp; omega
        simp only [linksAt, h1] at hx
        cases hx
  · intro e he
    have := h.2 e he
    simp only [alloc_mem, List.length_append, List.length_singleton]
    omega

theorem LinksUp_linkPart (s t1 t2 s3 : Cache) (path mode : List Char) (h : LinksUp s)
    (h1 : s.alloc.modify s.mem.length (fun r => { r with path := strncpy path MAX_PATH })
      = .ok t1)
    (h2 : t1.modify s.mem.length (fun r => { r with mode := strncpy mode MAX_MODESTR }) = .ok t2)
    (h3 : (match t2.fcache_end with
      | some e => do
        let u1 ← t2.modify e (fun r => { r with next := some s.mem.length })
        let u2 ← u1.modify s.mem.length (fun r => { r with prev := t2.fcache_end })
        pure (u2.setEnd (some s.mem.length))
      | none => pure ((t2.setEnd (some s.mem.length)).setHead (some s.mem.length)))
      = .ok s3) : LinksUp s3 := by
  have a1 := LinksUp_modify _ _ _ _ (LinksUp_alloc s h) h1 (fun _ => ⟨rfl, rfl⟩)
  have a2 := LinksUp_modify _ _ _ _ a1 h2 (fun _ => ⟨rfl, rfl⟩)
  have hlen : t2.mem.length = s.mem.length + 1 := by
    rw [modify_ok] at h1 h2
    obtain ⟨_, _, e1⟩ := h1
    obtain ⟨_, _, e2⟩ := h2
    rw [e2, e1]; simp
  have hend : t2.fcache_end = s.fcache_end := by
    rw [modify_ok] at h1 h2
    obtain ⟨_, _, e1⟩ := h1
    obtain ⟨_, _, e2⟩ := h2
    rw [e2, e1]; rfl
  cases he : t2.fcache_end with
  | none =>
    rw [he] at h3
    simp only [pure_ok] at h3
    rw [← h3]
    refine ⟨a2.1, ?_⟩
    intro e hee
    simp at hee
    rw [← hee]
    simp only [setHead_mem, setEnd_mem, hlen]
    omega
  | some e =>
    rw [he] at h3
    simp only [bind_ok] at h3
    obtain ⟨u1, g1, u2, g2, h3⟩ := h3
    rw [pure_ok] at h3
    have helt : e < s.mem.length := h.2 e (by rw [← hend, he])
    rw [modify_ok] at g1 g2
    obtain ⟨re, hre, e1⟩ := g1
    obtain ⟨ra, hra, e2⟩ := g2
    have b1 : LinksUp u1 := by
      rw [e1]
      refine LinksUp_store t2 e re _ a2 hre ?_ (LinksUp_at t2 e re a2 hre).2
      intro n hn
      simp at hn
      omega
    have b2 : LinksUp u2 := by
      rw [e2]
      refine LinksUp_store u1 _ ra _ b1 hra (LinksUp_at u1 _ ra b1 hra).1 ?_
      intro p hp
      simp at hp
      omega
    rw [← h3]
    refine ⟨b2.1, ?_⟩
    intro x hx
    simp at hx
    rw [← hx]
    simp only [setEnd_mem, e2, e1, store_mem, List.length_set, hlen]
    omega

theorem LinksUp_link (path mode : List Char) (calloc_ok ok : Bool) (s s1 : Cache)
    (ret : Option Nat) (h : LinksUp s)
    (e : fcache_link path mode calloc_ok ok s = .ok (ret, s1)) : LinksUp s1 := by
  unfold fcache_link at e
  split at e
  · simp at e; rw [← e.2]; exact h
  · simp only [bind_ok] at e
    obtain ⟨t1, h1, t2, h2, t3, h3, ⟨ret4, t4⟩, h4, e⟩ := e
    simp at e
    rw [← e.2]
    exact LinksUp_resume _ _ _ _ _ (LinksUp_linkPart s t1 t2 t3 path mode h h1 h2 h3) h4

theorem NoFuel_link (path mode : List Char) (calloc_ok ok : Bool) (s : Cache)
    (h : LinksUp s) : NoFuel (fcache_link path mode calloc_ok ok s) := by
  unfold fcache_link
  split
  · exact NoFuel_ok _
  · refine NoFuel_bind _ _ (NoFuel_modify _ _ _) ?_
    intro t1 h1
    refine NoFuel_bind _ _ (NoFuel_modify _ _ _) ?_
    intro t2 h2
    refine NoFuel_bind _ _ ?_ ?_
    · split
      · refine NoFuel_bind _ _ (NoFuel_modify _ _ _) ?_
        intro u1 _
        refine NoFuel_bind _ _ (NoFuel_modify _ _ _) ?_
        intro u2 _
        exact NoFuel_ok _
      · exact NoFuel_ok _
    · intro s3 h3
      refine NoFuel_bind _ _
        (NoFuel_resume _ _ s3 (LinksUp_linkPart s t1 t2 s3 path mode h h1 h2 h3)) ?_
      intro x _
      exact NoFuel_ok _

theorem LinksUp_unlink (fr : Option Nat) (s s1 : Cache) (ret : Int) (h : LinksUp s)
    (e : fcache_unlink fr s = .ok (ret, s1)) : LinksUp s1 := by
  unfold fcache_unlink at e
  cases fr with
  | none => simp at e; rw [← e.2]; exact h
  | some a =>
    simp only [bind_ok] at e
    obtain ⟨r, hr, t1, h1, r1, hr1, r2, hr2, t3, h3, r3, hr3, t4, h4, t5, h5, e⟩ := e
    simp at e
    rw [← e.2]
    rw [deref_ok] at hr hr1 hr2 hr3
    have a1 : LinksUp t1 := by
      split at h1
      · rw [map_ok] at h1
        obtain ⟨⟨ret0, t0⟩, g0, e0⟩ := h1
        simp at e0; subst e0
        exact LinksUp_suspend _ _ _ _ h g0
      · rw [pure_ok] at h1; subst h1; exact h
    have a2 : LinksUp (if some a = t1.fcache_end then t1.setEnd r1.prev else t1) := by
      split
      · refine ⟨a1.1, ?_⟩
        intro e1 he1
        simp at he1
        have := (LinksUp_at t1 a r1 a1 hr1).2 e1 he1
        have := lt_of_mem t1 a _ hr1
        simp only [setEnd_mem]
        omega
      · exact a1
    have l2 := LinksUp_at _ a r2 a2 hr2
    have a3 : LinksUp t3 := by
      split at h3
      · rename_i p hp
        rw [modify_ok] at h3
        obtain ⟨rp, hrp, e3⟩ := h3
        rw [e3]
        refine LinksUp_store _ p rp _ a2 hrp ?_ (LinksUp_at _ p rp a2 hrp).2
        intro n hn
        have := l2.1 n hn
        have := l2.2 p hp
        omega
      · rw [pure_ok] at h3; subst h3; exact a2
    have l3 := LinksUp_at _ a r3 a3 hr3
    have a4 : LinksUp t4 := by
      split at h4
      · rename_i n hn
        rw [modify_ok] at h4
        obtain ⟨rn, hrn, e4⟩ := h4
        rw [e4]
        refine LinksUp_store _ n rn _ a3 hrn (LinksUp_at _ n rn a3 hrn).1 ?_
        intro p hp
        have := l3.1 n hn
        have := l3.2 p hp
        omega
      · rw [pure_ok] at h4; subst h4; exact a3
    exact LinksUp_release t4 t5 a a4 h5

theorem NoFuel_unlink (fr : Option Nat) (s : Cache) : NoFuel (fcache_unlink fr s) := by
  unfold fcache_unlink
  cases fr with
  | none => exact NoFuel_ok _
  | some a =>
    refine NoFuel_bind _ _ (NoFuel_deref _ _) ?_
    intro r _
    refine NoFuel_bind _ _ ?_ ?_
    · split
      · exact NoFuel_map _ _ (NoFuel_suspend _ _)
      · exact NoFuel_ok _
    · intro t1 _
      refine NoFuel_bind _ _ (NoFuel_deref _ _) ?_
      intro r1 _
      refine NoFuel_bind _ _ (NoFuel_deref _ _) ?_
      intro r2 _
      refine NoFuel_bind _ _ ?_ ?_
      · split
        · exact NoFuel_modify _ _ _
        · exact NoFuel_ok _
      · intro t3 _
        refine NoFuel_bind _ _ (NoFuel_deref _ _) ?_
        intro r3 _
        refine NoFuel_bind _ _ ?_ ?_
        · split
          · exact NoFuel_modify _ _ _
          · exact NoFuel_ok _
        · intro t4 _
          refine NoFuel_bind _ _ (NoFuel_release _ _) ?_
          intro t5 _
          exact NoFuel_ok _

theorem LinksUp_get (fr : Option Nat) (ok : Bool) (s s1 : Cache) (fd : Option FILE)
    (h : LinksUp s) (e : fcache_get fr ok s = .ok (fd, s1)) : LinksUp s1 := by
  unfold fcache_get at e
  cases fr with
  | none => simp at e; rw [← e.2]; exact h
  | some a =>
    simp only [bind_ok] at e
    obtain ⟨r, hr, t1, h1, r1, hr1, e⟩ := e
    simp at e
    rw [← e.2]
    split at h1
    · rw [map_ok] at h1
      obtain ⟨⟨ret0, t0⟩, g0, e0⟩ := h1
      simp at e0; subst e0
      exact LinksUp_resume _ _ _ _ _ h g0
    · rw [pure_ok] at h1; subst h1; exact h

theorem NoFuel_get (fr : Option Nat) (ok : Bool) (s : Cache) (h : LinksUp s) :
    NoFuel (fcache_get fr ok s) := by
  unfold fcache_get
  cases fr with
  | none => exact NoFuel_ok _
  | some a =>
    refine NoFuel_bind _ _ (NoFuel_deref _ _) ?_
    intro r _
    refine NoFuel_bind _ _ ?_ ?_
    · split
      · exact NoFuel_map _ _ (NoFuel_resume _ _ s h)
      · exact NoFuel_ok _
    · intro t1 _
      refine NoFuel_bind _ _ (NoFuel_deref _ _) ?_
      intro r1 _
      exact NoFuel_ok _

theorem LinksUp_setStream (fr : Option Nat) (f : FILE) (s s1 : Cache) (h : LinksUp s)
    (e : setStream fr f s = .ok s1) : LinksUp s1 := by
  cases fr with
  | none => simp [setStream] at e
  | some a => exact LinksUp_modify s s1 a _ h e (fun _ => ⟨rfl, rfl⟩)

theorem NoFuel_setStream (fr : Option Nat) (f : FILE) (s : Cache) :
    NoFuel (setStream fr f s) := by
  cases fr with
  | none => exact NoFuel_undefined
  | some a => exact NoFuel_modify _ _ _

theorem NoFuel_stdio_ftell (f : FILE) : NoFuel (stdio_ftell f) := by
  unfold stdio_ftell; split
  · exact NoFuel_undefined
  · exact NoFuel_ok _

theorem NoFuel_stdio_fflush (f : FILE) : NoFuel (stdio_fflush f) := by
  unfold stdio_fflush; split
  · exact NoFuel_undefined
  · exact NoFuel_ok _

theorem NoFuel_stdio_ferror (f : FILE) : NoFuel (stdio_ferror f) := by
  unfold stdio_ferror; split
  · exact NoFuel_undefined
  · exact NoFuel_ok _

theorem NoFuel_stdio_feof (f : FILE) : NoFuel (stdio_feof f) := by
  unfold stdio_feof; split
  · exact NoFuel_undefined
  · exact NoFuel_ok _

theorem NoFuel_stdio_fseek (d : Disk) (f : FILE) (off whence : Int) :
    NoFuel (stdio_fseek d f off whence) := by
  unfold stdio_fseek; split
  · exact NoFuel_undefined
  · split
    · exact NoFuel_ok _
    · split
      · exact NoFuel_ok _
      · exact NoFuel_ok _

theorem NoFuel_stdio_fread (d : Disk) (size n : Nat) (f : FILE) : NoFuel (stdio_fread d size n f) := by
  unfold stdio_fread; split
  · exact NoFuel_undefined
  · split
    · exact NoFuel_ok _
    · exact NoFuel_ok _

theorem NoFuel_stdio_fwrite (d : Disk) (buf : List Nat) (size n : Nat) (f : FILE) :
    NoFuel (stdio_fwrite d buf size n f) := by
  unfold stdio_fwrite; split
  · exact NoFuel_undefined
  · split
    · exact NoFuel_ok _
    · exact NoFuel_ok _

theorem LinksUp_ftell (pfd : Option Nat) (ok : Bool) (s s1 : Cache) (ret : Int)
    (h : LinksUp s) (e : fcached_ftell pfd ok s = .ok (ret, s1)) : LinksUp s1 := by
  unfold fcached_ftell at e
  simp only [bind_ok] at e
  obtain ⟨⟨fd, t1⟩, h1, e⟩ := e
  have a1 := LinksUp_get _ _ _ _ _ h h1
  split at e
  · simp only [bind_ok] at e
    obtain ⟨_, _, e⟩ := e
    simp at e; rw [← e.2]; exact a1
  · simp at e; rw [← e.2]; exact a1

theorem NoFuel_ftell (pfd : Option Nat) (ok : Bool) (s : Cache) (h : LinksUp s) :
    NoFuel (fcached_ftell pfd ok s) := by
  unfold fcached_ftell
  refine NoFuel_bind _ _ (NoFuel_get _ _ s h) ?_
  intro x _
  obtain ⟨fd, t1⟩ := x
  cases fd with
  | none => exact NoFuel_ok _
  | some f => exact NoFuel_bind _ _ (NoFuel_stdio_ftell f) (fun _ _ => NoFuel_ok _)

theorem LinksUp_ftello (pfd : Option Nat) (ok : Bool) (s s1 : Cache) (ret : Int)
    (h : LinksUp s) (e : fcached_ftello pfd ok s = .ok (ret, s1)) : LinksUp s1 := by
  unfold fcached_ftello at e
  simp only [bind_ok] at e
  obtain ⟨⟨fd, t1⟩, h1, e⟩ := e
  have a1 := LinksUp_get _ _ _ _ _ h h1
  split at e
  · simp only [bind_ok] at e
    obtain ⟨_, _, e⟩ := e
    simp at e; rw [← e.2]; exact a1
  · simp at e; rw [← e.2]; exact a1

theorem NoFuel_ftello (pfd : Option Nat) (ok : Bool) (s : Cache) (h : LinksUp s) :
    NoFuel (fcached_ftello pfd ok s) := by
  unfold fcached_ftello
  refine NoFuel_bind _ _ (NoFuel_get _ _ s h) ?_
  intro x _
  obtain ⟨fd, t1⟩ := x
  cases fd with
  | none => exact NoFuel_ok _
  | some f => exact NoFuel_bind _ _ (NoFuel_stdio_ftell f) (fun _ _ => NoFuel_ok _)

theorem LinksUp_fflush (pfd : Option Nat) (ok : Bool) (s s1 : Cache) (ret : Int)
    (h : LinksUp s) (e : fcached_fflush pfd ok s = .ok (ret, s1)) : LinksUp s1 := by
  unfold fcached_fflush at e
  simp only [bind_ok] at e
  obtain ⟨⟨fd, t1⟩, h1, e⟩ := e
  have a1 := LinksUp_get _ _ _ _ _ h h1
  split at e
  · simp only [bind_ok] at e
    obtain ⟨_, _, e⟩ := e
    simp at e; rw [← e.2]; exact a1
  · simp at e; rw [← e.2]; exact a1

theorem NoFuel_fflush (pfd : Option Nat) (ok : Bool) (s : Cache) (h : LinksUp s) :
    NoFuel (fcached_fflush pfd ok s) := by
  unfold fcached_fflush
  refine NoFuel_bind _ _ (NoFuel_get _ _ s h) ?_
  intro x _
  obtain ⟨fd, t1⟩ := x
  cases fd with
  | none => exact NoFuel_ok _
  | some f => exact NoFuel_bind _ _ (NoFuel_stdio_fflush f) (fun _ _ => NoFuel_ok _)

theorem LinksUp_ferror (pfd : Option Nat) (ok : Bool) (s s1 : Cache) (ret : Int)
    (h : LinksUp s) (e : fcached_ferror pfd ok s = .ok (ret, s1)) : LinksUp s1 := by
  unfold fcached_ferror at e
  simp only [bind_ok] at e
  obtain ⟨⟨fd, t1⟩, h1, e⟩ := e
  have a1 := LinksUp_get _ _ _ _ _ h h1
  split at e
  · simp only [bind_ok] at e
    obtain ⟨_, _, e⟩ := e
    simp at e; rw [← e.2]; exact a1
  · simp at e; rw [← e.2]; exact a1

theorem NoFuel_ferror (pfd : Option Nat) (ok : Bool) (s : Cache) (h : LinksUp s) :
    NoFuel (fcached_ferror pfd ok s) := by
  unfold fcached_ferror
  refine NoFuel_bind _ _ (NoFuel_get _ _ s h) ?_
  intro x _
  obtain ⟨fd, t1⟩ := x
  cases fd with
  | none => exact NoFuel_ok _
  | some f => exact NoFuel_bind _ _ (NoFuel_stdio_ferror f) (fun _ _ => NoFuel_ok _)

theorem LinksUp_feof (pfd : Option Nat) (ok : Bool) (s s1 : Cache) (ret : Int)
    (h : LinksUp s) (e : fcached_feof pfd ok s = .ok (ret, s1)) : LinksUp s1 := by
  unfold fcached_feof at e
  simp only [bind_ok] at e
  obtain ⟨⟨fd, t1⟩, h1, e⟩ := e
  have a1 := LinksUp_get _ _ _ _ _ h h1
  split at e
  · simp only [bind_ok] at e
    obtain ⟨_, _, e⟩ := e
    simp at e; rw [← e.2]; exact a1
  · simp at e; rw [← e.2]; exact a1

theorem NoFuel_feof (pfd : Option Nat) (ok : Bool) (s : Cache) (h : LinksUp s) :
    NoFuel (fcached_feof pfd ok s) := by
  unfold fcached_feof
  refine NoFuel_bind _ _ (NoFuel_get _ _ s h) ?_
  intro x _
  obtain ⟨fd, t1⟩ := x
  cases fd with
  | none => exact NoFuel_ok _
  | some f => exact NoFuel_bind _ _ (NoFuel_stdio_feof f) (fun _ _ => NoFuel_ok _)

theorem LinksUp_fseek (pfd : Option Nat) (pos mode : Int) (ok : Bool) (s s1 : Cache)
    (ret : Int) (h : LinksUp s) (e : fcached_fseek pfd pos mode ok s = .ok (ret, s1)) :
    LinksUp s1 := by
  unfold fcached_fseek at e
  simp only [bind_ok] at e
  obtain ⟨⟨fd, t1⟩, h1, e⟩ := e
  have a1 := LinksUp_get _ _ _ _ _ h h1
  split at e
  · simp only [bind_ok] at e
    obtain ⟨_, _, t2, h3, e⟩ := e
    simp at e; rw [← e.2]
    exact LinksUp_setStream _ _ _ _ a1 h3
  · simp at e; rw [← e.2]; exact a1

theorem NoFuel_fseek (pfd : Option Nat) (pos mode : Int) (ok : Bool) (s : Cache)
    (h : LinksUp s) : NoFuel (fcached_fseek pfd pos mode ok s) := by
  unfold fcached_fseek
  refine NoFuel_bind _ _ (NoFuel_get _ _ s h) ?_
  intro x _
  obtain ⟨fd, t1⟩ := x
  cases fd with
  | none => exact NoFuel_ok _
  | some f =>
    refine NoFuel_bind _ _ (NoFuel_stdio_fseek _ _ _ _) ?_
    intro y _
    exact NoFuel_bind _ _ (NoFuel_setStream _ _ _) (fun _ _ => NoFuel_ok _)

theorem LinksUp_fseeko (pfd : Option Nat) (pos mode : Int) (ok : Bool) (s s1 : Cache)
    (ret : Int) (h : LinksUp s) (e : fcached_fseeko pfd pos mode ok s = .ok (ret, s1)) :
    LinksUp s1 := by
  unfold fcached_fseeko at e
  simp only [bind_ok] at e
  obtain ⟨⟨fd, t1⟩, h1, e⟩ := e
  have a1 := LinksUp_get _ _ _ _ _ h h1
  split at e
  · simp only [bind_ok] at e
    obtain ⟨_, _, t2, h3, e⟩ := e
    simp at e; rw [← e.2]
    exact LinksUp_setStream _ _ _ _ a1 h3
  · simp at e; rw [← e.2]; exact a1

theorem NoFuel_fseeko (pfd : Option Nat) (pos mode : Int) (ok : Bool) (s : Cache)
    (h : LinksUp s) : NoFuel (fcached_fseeko pfd pos mode ok s) := by
  unfold fcached_fseeko
  refine NoFuel_bind _ _ (NoFuel_get _ _ s h) ?_
  intro x _
  obtain ⟨fd, t1⟩ := x
  cases fd with
  | none => exact NoFuel_ok _
  | some f =>
    refine NoFuel_bind _ _ (NoFuel_stdio_fseek _ _ _ _) ?_
    intro y _
    exact NoFuel_bind _ _ (NoFuel_setStream _ _ _) (fun _ _ => NoFuel_ok _)

theorem LinksUp_fread (size n : Nat) (pfd : Option Nat) (ok : Bool) (s s1 : Cache)
    (ret : Nat × List Nat) (h : LinksUp s)
    (e : fcached_fread size n pfd ok s = .ok (ret, s1)) : LinksUp s1 := by
  unfold fcached_fread at e
  simp only [bind_ok] at e
  obtain ⟨⟨fd, t1⟩, h1, e⟩ := e
  have a1 := LinksUp_get _ _ _ _ _ h h1
  split at e
  · simp only [bind_ok] at e
    obtain ⟨_, _, t2, h3, e⟩ := e
    simp at e; rw [← e.2]
    exact LinksUp_setStream _ _ _ _ a1 h3
  · simp at e; rw [← e.2]; exact a1

theorem NoFuel_fread_op (size n : Nat) (pfd : Option Nat) (ok : Bool) (s : Cache)
    (h : LinksUp s) : NoFuel (fcached_fread size n pfd ok s) := by
  unfold fcached_fread
  refine NoFuel_bind _ _ (NoFuel_get _ _ s h) ?_
  intro x _
  obtain ⟨fd, t1⟩ := x
  cases fd with
  | none => exact NoFuel_ok _
  | some f =>
    refine NoFuel_bind _ _ (NoFuel_stdio_fread _ _ _ _) ?_
    intro y _
    exact NoFuel_bind _ _ (NoFuel_setStream _ _ _) (fun _ _ => NoFuel_ok _)

theorem LinksUp_fwrite (buf : List Nat) (size n : Nat) (pfd : Option Nat) (ok : Bool)
    (s s1 : Cache) (ret : Nat) (h : LinksUp s)
    (e : fcached_fwrite buf size n pfd ok s = .ok (ret, s1)) : LinksUp s1 := by
  unfold fcached_fwrite at e
  simp only [bind_ok] at e
  obtain ⟨⟨fd, t1⟩, h1, e⟩ := e
  have a1 := LinksUp_get _ _ _ _ _ h h1
  split at e
  · simp only [bind_ok] at e
    obtain ⟨⟨r0, f1, d⟩, _, t2, h3, e⟩ := e
    simp at e; rw [← e.2]
    exact LinksUp_setStream _ _ _ _ (LinksUp_of_links t1 (t1.setDisk d) a1 (fun _ => rfl) rfl rfl) h3
  · simp at e; rw [← e.2]; exact a1

theorem NoFuel_fwrite_op (buf : List Nat) (size n : Nat) (pfd : Option Nat) (ok : Bool)
    (s : Cache) (h : LinksUp s) : NoFuel (fcached_fwrite buf size n pfd ok s) := by
  unfold fcached_fwrite
  refine NoFuel_bind _ _ (NoFuel_get _ _ s h) ?_
  intro x _
  obtain ⟨fd, t1⟩ := x
  cases fd with
  | none => exact NoFuel_ok _
  | some f =>
    refine NoFuel_bind _ _ (NoFuel_stdio_fwrite _ _ _ _ _) ?_
    intro y _
    exact NoFuel_bind _ _ (NoFuel_setStream _ _ _) (fun _ _ => NoFuel_ok _)

theorem LinksUp_step (op : Op) (s s1 : Cache) (hop : op.isReopen = false) (h : LinksUp s)
    (e : step op s = .ok s1) : LinksUp s1 := by
  cases op <;> simp only [step, map_ok] at e <;> obtain ⟨⟨ret, t⟩, e, e1⟩ := e <;>
    simp at e1 <;> subst e1
  · exact LinksUp_link _ _ _ _ _ _ _ h e
  · simp [Op.isReopen] at hop
  · exact LinksUp_unlink _ _ _ _ h e
  · exact LinksUp_ftell _ _ _ _ _ h e
  · exact LinksUp_fseek _ _ _ _ _ _ _ h e
  · exact LinksUp_ftello _ _ _ _ _ h e
  · exact LinksUp_fseeko _ _ _ _ _ _ _ h e
  · exact LinksUp_fflush _ _ _ _ _ h e
  · exact LinksUp_fread _ _ _ _ _ _ _ h e
  · exact LinksUp_fwrite _ _ _ _ _ _ _ _ h e
  · exact LinksUp_ferror _ _ _ _ _ h e
  · exact LinksUp_feof _ _ _ _ _ h e

theorem NoFuel_step (op : Op) (s : Cache) (hop : op.isReopen = false) (h : LinksUp s) :
    NoFuel (step op s) := by
  cases op <;> simp only [step]
  · exact NoFuel_map _ _ (NoFuel_link _ _ _ _ s h)
  · simp [Op.isReopen] at hop
  · exact NoFuel_map _ _ (NoFuel_unlink _ s)
  · exact NoFuel_map _ _ (NoFuel_ftell _ _ s h)
  · exact NoFuel_map _ _ (NoFuel_fseek _ _ _ _ s h)
  · exact NoFuel_map _ _ (NoFuel_ftello _ _ s h)
  · exact NoFuel_map _ _ (NoFuel_fseeko _ _ _ _ s h)
  · exact NoFuel_map _ _ (NoFuel_fflush _ _ s h)
  · exact NoFuel_map _ _ (NoFuel_fread_op _ _ _ _ s h)
  · exact NoFuel_map _ _ (NoFuel_fwrite_op _ _ _ _ _ s h)
  · exact NoFuel_map _ _ (NoFuel_ferror _ _ s h)
  · exact NoFuel_map _ _ (NoFuel_feof _ _ s h)

theorem NoFuel_run (ops : List Op) (s : Cache) (hops : ∀ op ∈ ops, op.isReopen = false)
    (h : LinksUp s) : NoFuel (run ops s) := by
  induction ops generalizing s with
  | nil => exact NoFuel_ok _
  | cons op rest ih =>
    unfold run
    have hs := NoFuel_step op s (hops op (List.mem_cons_self _ _)) h
    cases hst : step op s with
    | error x =>
      rw [hst] at hs
      exact NoFuel_cast _ hs
    | ok t =>
      exact ih t (fun o ho => hops o (List.mem_cons_of_mem _ ho))
        (LinksUp_step op s t (hops op (List.mem_cons_self _ _)) h hst)

theorem LinksUp_init (d : Disk) : LinksUp (Cache.init d) := by
  refine ⟨?_, ?_⟩
  · intro a x hx
    simp [linksAt, Cache.init] at hx
  · intro e he
    simp [Cache.init] at he

/-! ### Registered handles of a well-formed cache can be closed -/

theorem Chain_neighbours (s : Cache) (p : Option Nat) (L : List Nat) (hc : Chain s p L)
    (hp : ∀ q, p = some q → ∃ rq, s.mem[q]? = some (some rq)) (a : Nat) (ha : a ∈ L)
    (r : fileref_t) (hr : s.mem[a]? = some (some r)) :
    (∀ q, r.prev = some q → ∃ rq, s.mem[q]? = some (some rq)) ∧
    (∀ n, r.next = some n → ∃ rn, s.mem[n]? = some (some rn)) := by
  induction L generalizing p with
  | nil => cases ha
  | cons b rest ih =>
    obtain ⟨h1, h2⟩ := hc
    rcases List.mem_cons.1 ha with e | e
    · subst e
      obtain ⟨r0, hr0, e1, e2⟩ := linksAt_some _ _ _ h1
      rw [hr] at hr0
      simp at hr0
      subst hr0
      refine ⟨?_, ?_⟩
      · intro q hq
        exact hp q (by rw [← hq]; exact e1.symm)
      · intro n hn
        have : rest.head? = some n := by rw [← hn]; exact e2.symm
        exact Chain_mem s (some a) rest h2 n (List.mem_of_mem_head? this)
    · refine ih (some b) h2 ?_ e
      intro q hq
      simp at hq
      subst hq
      obtain ⟨r0, hr0, -⟩ := linksAt_some _ _ _ h1
      exact ⟨r0, hr0⟩

/-- The hypotheses of the close theorem hold for every registered handle of a well-formed
cache. -/
theorem WF_closeable (s : Cache) (L : List Nat) (h : Nat) (r : fileref_t) (hw : WF s L)
    (hr : s.mem[h]? = some (some r)) :
    (∀ f, r.fd = some f → f.closed = false) ∧
    (∀ p, r.prev = some p → ∃ rp, s.mem[p]? = some (some rp)) ∧
    (∀ n, r.next = some n → ∃ rn, s.mem[n]? = some (some rn)) := by
  have hn := Chain_neighbours s none L hw.reg.chain (by intro q hq; cases hq) h
    (hw.reg.live h r hr) r hr
  exact ⟨fun f hf => hw.acct.2 h r f hr hf, hn.1, hn.2⟩

theorem WF_fullPool : WF fullPool [0, 1, 2, 3, 4] :=
  (fopen_WF _ [0, 1, 2, 3] ['e'] ['w'] true
    (fopen_WF _ [0, 1, 2] ['d'] ['w'] true
      (fopen_WF _ [0, 1] ['c'] ['w'] true
        (fopen_WF _ [0] ['b'] ['w'] true
          (fopen_WF _ [] ['a'] ['w'] true (WF_init [])).2).2).2).2).2

theorem fullPool_reached : run fiveOps (Cache.init []) = .ok fullPool := rfl

/-! ### The data of the other records across an acquisition -/

theorem dataAt_store_same (s : Cache) (a b : Nat) (r r1 : fileref_t)
    (h : s.mem[a]? = some (some r)) (hp : r1.path = r.path) (hm : r1.mode = r.mode)
    (hf : r1.fd = r.fd) (ho : r1.fpos = r.fpos) :
    dataAt (s.store a r1) b = dataAt s b := by
  rw [dataAt_store s a b r r1 h]
  split
  · rename_i e; subst e
    simp [dataAt, h, hp, hm, hf, ho]
  · rfl

theorem dataAt_evictState (s : Cache) (L : List Nat) (b : Nat) :
    dataAt (evictState s L) b
      = if L.find? (residentAt s) = some b then (dataAt s b).map evictedData
        else dataAt s b := by
  rcases evictState_cases s L with ⟨hn, e⟩ | ⟨a, r, f, hfind, hr, hf, e⟩
  · rw [e, hn]; simp
  · rw [e, hfind]
    have h1 := dataAt_store s a b r { r with fpos := (f.pos : Int), fd := none } hr
    simp only [Cache.suspended, dataAt, setNumopen_mem] at h1 ⊢
    rw [h1]
    by_cases hab : a = b
    · subst hab
      simp [hr, evictedData, hf]
    · simp [hab]

theorem dataAt_limited (s : Cache) (L : List Nat) (b : Nat) :
    dataAt (limited s L) b
      = if s.fcache_numopen ≥ MAX_OPEN_FILES ∧ L.find? (residentAt s) = some b
        then (dataAt s b).map evictedData else dataAt s b := by
  unfold limited
  by_cases h : s.fcache_numopen ≥ MAX_OPEN_FILES
  · simp only [h, if_true, true_and]
    exact dataAt_evictState s L b
  · simp only [h, if_false, false_and]

theorem dataAt_resumeResult (s2 : Cache) (a b : Nat) (r : fileref_t) (ok : Bool) (hb : b ≠ a) :
    dataAt (resumeResult s2 a r ok).2 b = dataAt s2 b := by
  unfold resumeResult
  rcases stdio_fopen s2.disk r.path r.mode ok with ⟨_ | f, d⟩
  · simp [dataAt, Ne.symm hb]
  · simp [dataAt, Ne.symm hb]

theorem dataAt_alloc_store (s : Cache) (r : fileref_t) (b : Nat) (hb : b ≠ s.mem.length) :
    dataAt (s.alloc.store s.mem.length r) b = dataAt s b := by
  rw [dataAt_store s.alloc s.mem.length b _ r (alloc_new s)]
  simp only [Ne.symm hb, if_false]
  by_cases hlt : b < s.mem.length
  · simp only [dataAt, alloc_old s b hlt]
  · have h1 : s.alloc.mem[b]? = none := by
      simp only [alloc_mem]
      apply List.getElem?_eq_none
      simp; omega
    have h2 : s.mem[b]? = none := List.getElem?_eq_none (by omega)
    simp only [dataAt, h1, h2]

theorem dataAt_linkedState (s : Cache) (L : List Nat) (path mode : List Char)
    (h : Registry s L) (b : Nat) (hb : b ≠ s.mem.length) :
    dataAt (linkedState s path mode) b = dataAt s b := by
  rcases linkedState_cases s L path mode h with ⟨hL, _, e⟩ | ⟨e, re, hlast, _, hre, hne, e1⟩
  · rw [e]
    have := dataAt_alloc_store s (freshRef path mode) b hb
    simpa [dataAt] using this
  · rw [e1]
    have hlen : s.mem.length < s.alloc.mem.length := by simp
    have g0 : (s.alloc.store s.mem.length (freshRef path mode)).mem[e]? = some (some re) := by
      rw [store_other _ _ _ _ (Ne.symm hne), alloc_old s e (lt_of_mem s e _ hre)]; exact hre
    have g1 : ((s.alloc.store s.mem.length (freshRef path mode)).store e
        { re with next := some s.mem.length }).mem[s.mem.length]?
          = some (some (freshRef path mode)) := by
      rw [store_other _ _ _ _ hne]
      exact store_same s.alloc s.mem.length (freshRef path mode) hlen
    have l1 := dataAt_store_same _ s.mem.length b _ { freshRef path mode with prev := some e } g1
      rfl rfl rfl rfl
    have l2 := dataAt_store_same _ e b _ { re with next := some s.mem.length } g0 rfl rfl rfl rfl
    have l3 := dataAt_alloc_store s (freshRef path mode) b hb
    simp only [dataAt, setEnd_mem] at l1 l2 l3 ⊢
    rw [l1, l2, l3]

theorem nameAt_of_dataAt (s t : Cache) (a b : Nat) (h : dataAt t b = dataAt s a) :
    nameAt t b = nameAt s a := by
  unfold dataAt at h
  unfold nameAt
  split at h <;> split at h <;> simp_all

theorem fdAt_of_dataAt (s t : Cache) (a b : Nat) (h : dataAt t b = dataAt s a) :
    fdAt t b = fdAt s a := by
  unfold dataAt at h
  unfold fdAt
  split at h <;> split at h <;> simp_all

theorem get_WF (s : Cache) (L : List Nat) (a : Nat) (r : fileref_t) (ok : Bool)
    (h : WF s L) (hr : s.mem[a]? = some (some r)) :
    fcache_get (some a) ok s = .ok (fdAt (acquired s L a ok) a, acquired s L a ok) ∧
    WF (acquired s L a ok) L := by
  cases hf : r.fd with
  | some f =>
    have e : acquired s L a ok = s := by simp [acquired, hr, hf]
    rw [e]
    refine ⟨?_, h⟩
    rw [get_resident s a r f ok hr hf]
    simp [fdAt, hr, hf]
  | none =>
    have e : acquired s L a ok = (resumeResult (limited s L) a r ok).2 := by
      simp [acquired, hr, hf]
    have hk := limited_keeps s L h a r hr hf
    rw [e]
    refine ⟨?_, WF_resumeResult (limited s L) L a r ok (WF_limited s L h) hk hf⟩
    rw [get_suspended s L a r ok h hr hf, resumeResult_fd _ a a r ok hk]
    simp

theorem dataAt_acquired (s : Cache) (L : List Nat) (a b : Nat) (r : fileref_t) (ok : Bool)
    (hr : s.mem[a]? = some (some r)) (hb : b ≠ a) :
    dataAt (acquired s L a ok) b
      = if victim s L a = some b then (dataAt s b).map evictedData else dataAt s b := by
  have hres : residentAt s a = r.fd.isSome := by simp [residentAt, fdAt, hr]
  cases hf : r.fd with
  | some f =>
    have e : acquired s L a ok = s := by simp [acquired, hr, hf]
    simp [e, victim, hres, hf]
  | none =>
    have e : acquired s L a ok = (resumeResult (limited s L) a r ok).2 := by
      simp [acquired, hr, hf]
    rw [e, dataAt_resumeResult _ a b r ok hb, dataAt_limited]
    simp only [victim, hres, hf, Option.isSome_none, Bool.false_eq_true, false_or, ge_iff_le]
    by_cases hn : MAX_OPEN_FILES ≤ s.fcache_numopen
    · simp [hn, not_lt.2 hn]
    · simp [hn, not_le.1 hn]
theorem acquired_frame (s : Cache) (L : List Nat) (a : Nat) (r : fileref_t) (ok : Bool)
    (h : WF s L) (hr : s.mem[a]? = some (some r)) : PosFrame s (acquired s L a ok) L a := by
  refine ⟨(get_WF s L a r ok h hr).2, fun b hb => dataAt_acquired s L a b r ok hr hb, ?_, ?_, ?_⟩
  · cases hf : r.fd with
    | some f => simp [acquired, hr, hf]
    | none =>
      have e : acquired s L a ok = (resumeResult (limited s L) a r ok).2 := by
        simp [acquired, hr, hf]
      rw [e, nameAt_resumeResult _ a a r ok (limited_keeps s L h a r hr hf), nameAt_limited]
  · cases hf : r.fd with
    | some f => simp [acquired, hr, hf]
    | none =>
      have e : acquired s L a ok = (resumeResult (limited s L) a r ok).2 := by
        simp [acquired, hr, hf]
      rw [e, resumeResult_length, limited_length]
  · cases hf : r.fd with
    | some f =>
      have e : acquired s L a ok = s := by simp [acquired, hr, hf]
      rw [e]; exact fun p hp => hp
    | none =>
      have e : acquired s L a ok = (resumeResult (limited s L) a r ok).2 := by
        simp [acquired, hr, hf]
      rw [e, resumeResult_disk, limited_disk]
      exact stdio_fopen_disk s.disk r.path r.mode ok

theorem fdAt_some (s : Cache) (a : Nat) (f : FILE) (h : fdAt s a = some f) :
    ∃ r, s.mem[a]? = some (some r) ∧ r.fd = some f := by
  unfold fdAt at h
  split at h
  · rename_i r hr; exact ⟨r, hr, h⟩
  · cases h

theorem PosFrame_setDisk (s s1 : Cache) (L : List Nat) (a : Nat) (d : Disk)
    (h : PosFrame s s1 L a) (hd : DiskLe s1.disk d) : PosFrame s (s1.setDisk d) L a :=
  ⟨⟨Registry_of_links s1 _ L h.wf.reg (fun _ => rfl) rfl rfl, Acct_congr s1 _ rfl rfl h.wf.acct⟩,
    h.others, h.name, h.length, DiskLe_trans _ _ _ h.disk hd⟩

theorem PosFrame_store (s s1 : Cache) (L : List Nat) (a : Nat) (r1 : fileref_t) (f f2 : FILE)
    (h : PosFrame s s1 L a) (h1 : s1.mem[a]? = some (some r1)) (hfd : r1.fd = some f)
    (hc : f2.closed = false) : PosFrame s (s1.store a { r1 with fd := some f2 }) L a := by
  refine ⟨⟨Registry_of_links s1 _ L h.wf.reg ?_ rfl rfl, ?_⟩, ?_, ?_, ?_, h.disk⟩
  · intro b
    exact linksAt_store_same s1 a b r1 _ h1 rfl rfl
  · have := Acct_store s1 a r1 { r1 with fd := some f2 } s1.fcache_numopen h1 (by simp [hfd])
      (by intro f3 h3; simp at h3; rw [← h3]; exact hc) h.wf.acct
    exact Acct_congr _ _ rfl rfl this
  · intro b hb
    rw [dataAt_store s1 a b r1 _ h1, if_neg (Ne.symm hb)]
    exact h.others b hb
  · exact (nameAt_store_same s1 a a r1 { r1 with fd := some f2 } h1 rfl rfl).trans h.name
  · simp [h.length]

theorem stdio_fseek_total (d : Disk) (f : FILE) (off whence : Int) (hc : f.closed = false) :
    ∃ ret f1, stdio_fseek d f off whence = .ok (ret, f1) ∧ f1.closed = false := by
  unfold stdio_fseek
  simp only [hc, Bool.false_eq_true, if_false]
  split
  · exact ⟨_, _, rfl, hc⟩
  · split
    · exact ⟨_, _, rfl, hc⟩
    · exact ⟨_, _, rfl, rfl⟩

theorem stdio_fwrite_total (d : Disk) (buf : List Nat) (size n : Nat) (f : FILE)
    (hc : f.closed = false) :
    ∃ ret f1 d1, stdio_fwrite d buf size n f = .ok (ret, f1, d1) ∧ f1.closed = false ∧
      DiskLe d d1 := by
  unfold stdio_fwrite
  simp only [hc, Bool.false_eq_true, if_false]
  split
  · exact ⟨_, _, _, rfl, rfl, fun p hp => hp⟩
  · exact ⟨_, _, _, rfl, rfl, DiskLe_put _ _ _⟩

/-- The calls that only query the stream (`ftell`, `ftello`, `fflush`, `ferror`, `feof`). -/
theorem query_step (s : Cache) (L : List Nat) (a : Nat) (r : fileref_t) (ok : Bool)
    (h : WF s L) (hr : s.mem[a]? = some (some r)) :
    step (.ftell (some a) ok) s = .ok (acquired s L a ok) ∧
    step (.ftello (some a) ok) s = .ok (acquired s L a ok) ∧
    step (.fflush (some a) ok) s = .ok (acquired s L a ok) ∧
    step (.ferror (some a) ok) s = .ok (acquired s L a ok) ∧
    step (.feof (some a) ok) s = .ok (acquired s L a ok) := by
  obtain ⟨hg, hwa⟩ := get_WF s L a r ok h hr
  cases hfd : fdAt (acquired s L a ok) a with
  | none =>
    rw [hfd] at hg
    simp only [step, fcached_ftell, fcached_ftello, fcached_fflush, fcached_ferror, fcached_feof,
      hg, bind, Except.bind, Functor.map, Except.map, and_self]
  | some f =>
    rw [hfd] at hg
    obtain ⟨r1, h1, h2⟩ := fdAt_some _ _ _ hfd
    have hc := hwa.acct.2 a r1 f h1 h2
    simp only [step, fcached_ftell, fcached_ftello, fcached_fflush, fcached_ferror, fcached_feof,
      hg, bind, Except.bind, Functor.map, Except.map, stdio_ftell, stdio_fflush, stdio_ferror,
      stdio_feof, hc, Bool.false_eq_true, if_false, and_self]

/-- The calls that move the stream (`fseek`, `fseeko`, `fread`, `fwrite`). -/
theorem move_step (s : Cache) (L : List Nat) (a : Nat) (r : fileref_t) (ok : Bool)
    (pos whence : Int) (size n : Nat) (buf : List Nat)
    (h : WF s L) (hr : s.mem[a]? = some (some r)) :
    (∃ t, step (.fseek (some a) pos whence ok) s = .ok t ∧ PosFrame s t L a) ∧
    (∃ t, step (.fseeko (some a) pos whence ok) s = .ok t ∧ PosFrame s t L a) ∧
    (∃ t, step (.fread size n (some a) ok) s = .ok t ∧ PosFrame s t L a) ∧
    (∃ t, step (.fwrite buf size n (some a) ok) s = .ok t ∧ PosFrame s t L a) := by
  obtain ⟨hg, hwa⟩ := get_WF s L a r ok h hr
  have hfr := acquired_frame s L a r ok h hr
  cases hfd : fdAt (acquired s L a ok) a with
  | none =>
    rw [hfd] at hg
    refine ⟨⟨_, ?_, hfr⟩, ⟨_, ?_, hfr⟩, ⟨_, ?_, hfr⟩, ⟨_, ?_, hfr⟩⟩ <;>
    simp only [step, fcached_fseek, fcached_fseeko, fcached_fread, fcached_fwrite,
      hg, bind, Except.bind, Functor.map, Except.map]
  | some f =>
    rw [hfd] at hg
    obtain ⟨r1, h1, h2⟩ := fdAt_some _ _ _ hfd
    have hc := hwa.acct.2 a r1 f h1 h2
    obtain ⟨ret, f1, hs, hc1⟩ := stdio_fseek_total (acquired s L a ok).disk f pos whence hc
    obtain ⟨ret2, bytes, f2, hrd, hc2⟩ := stdio_fread_total (acquired s L a ok).disk size n f hc
    obtain ⟨ret3, f3, d3, hwr, hc3, hd3⟩ :=
      stdio_fwrite_total (acquired s L a ok).disk buf size n f hc
    have m1 := modify_of _ a r1 (fun x => { x with fd := some f1 }) h1
    have m2 := modify_of _ a r1 (fun x => { x with fd := some f2 }) h1
    have m3 := modify_of ((acquired s L a ok).setDisk d3) a r1
      (fun x => { x with fd := some f3 }) h1
    refine ⟨⟨_, ?_, PosFrame_store _ _ L a r1 f f1 hfr h1 h2 hc1⟩,
      ⟨_, ?_, PosFrame_store _ _ L a r1 f f1 hfr h1 h2 hc1⟩,
      ⟨_, ?_, PosFrame_store _ _ L a r1 f f2 hfr h1 h2 hc2⟩,
      ⟨_, ?_, PosFrame_store _ _ L a r1 f f3 (PosFrame_setDisk _ _ L a d3 hfr hd3) h1 h2 hc3⟩⟩
    · simp only [step, fcached_fseek, hg, bind, Except.bind, Functor.map, Except.map, hs,
        setStream, m1]
    · simp only [step, fcached_fseeko, hg, bind, Except.bind, Functor.map, Except.map, hs,
        setStream, m1]
    · simp only [step, fcached_fread, hg, bind, Except.bind, Functor.map, Except.map, hrd,
        setStream, m2]
    · simp only [step, fcached_fwrite, hg, bind, Except.bind, Functor.map, Except.map, hwr,
        setStream, m3]

theorem target_step (op : Op) (s : Cache) (L : List Nat) (a : Nat) (r : fileref_t)
    (h : WF s L) (ht : op.target = some (some a)) (hr : s.mem[a]? = some (some r)) :
    ∃ t, step op s = .ok t ∧ PosFrame s t L a := by
  cases op with
  | fopen path mode calloc_ok ok => cases ht
  | freopen path mode pfd ok => cases ht
  | fclose pfd => cases ht
  | ftell pfd ok =>
    cases ht
    exact ⟨_, (query_step s L a r ok h hr).1, acquired_frame s L a r ok h hr⟩
  | ftello pfd ok =>
    cases ht
    exact ⟨_, (query_step s L a r ok h hr).2.1, acquired_frame s L a r ok h hr⟩
  | fflush pfd ok =>
    cases ht
    exact ⟨_, (query_step s L a r ok h hr).2.2.1, acquired_frame s L a r ok h hr⟩
  | ferror pfd ok =>
    cases ht
    exact ⟨_, (query_step s L a r ok h hr).2.2.2.1, acquired_frame s L a r ok h hr⟩
  | feof pfd ok =>
    cases ht
    exact ⟨_, (query_step s L a r ok h hr).2.2.2.2, acquired_frame s L a r ok h hr⟩
  | fseek pfd pos whence ok =>
    cases ht
    exact (move_step s L a r ok pos whence 0 0 [] h hr).1
  | fseeko pfd pos whence ok =>
    cases ht
    exact (move_step s L a r ok pos whence 0 0 [] h hr).2.1
  | fread size n pfd ok =>
    cases ht
    exact (move_step s L a r ok 0 0 size n [] h hr).2.2.1
  | fwrite buf size n pfd ok =>
    cases ht
    exact (move_step s L a r ok 0 0 size n buf h hr).2.2.2

theorem target_null (op : Op) (s : Cache) (ht : op.target = some none) : step op s = .ok s := by
  cases op <;> first | (cases ht; rfl) | cases ht

theorem nameAt_eq (s : Cache) (a : Nat) :
    nameAt s a = (dataAt s a).map (fun x => (x.1, x.2.1)) := by
  unfold nameAt dataAt
  split <;> simp_all

theorem fdAt_eq (s : Cache) (a : Nat) : fdAt s a = (dataAt s a).bind (fun x => x.2.2.1) := by
  unfold fdAt dataAt
  split <;> simp_all

/-- An eviction changes neither the name nor the current offset of a record. -/
theorem frame_keeps (s t : Cache) (b : Nat) (c : Prop) [Decidable c]
    (h : dataAt t b = if c then (dataAt s b).map evictedData else dataAt s b) :
    nameAt t b = nameAt s b ∧ offsetAt t b = offsetAt s b := by
  rw [nameAt_eq, nameAt_eq]
  unfold offsetAt
  rw [h]
  split
  · rcases dataAt s b with _ | ⟨p, m, fd, o⟩
    · exact ⟨rfl, rfl⟩
    · cases fd <;> exact ⟨rfl, rfl⟩
  · exact ⟨rfl, rfl⟩

theorem find_snoc_fresh (s : Cache) (L : List Nat) :
    (L ++ [s.mem.length]).find? (residentAt s) = L.find? (residentAt s) := by
  rw [List.find?_append]
  have : [s.mem.length].find? (residentAt s) = none := by
    simp [residentAt, fdAt_fresh]
  rw [this]; simp

theorem victim_fresh (s : Cache) (L : List Nat) :
    victim s L s.mem.length
      = if s.fcache_numopen ≥ MAX_OPEN_FILES then L.find? (residentAt s) else none := by
  unfold victim
  have : residentAt s s.mem.length = false := by simp [residentAt, fdAt_fresh]
  by_cases hn : MAX_OPEN_FILES ≤ s.fcache_numopen
  · simp [this, hn, not_lt.2 hn]
  · simp [this, hn, not_le.1 hn]

theorem dataAt_openedState (s : Cache) (L : List Nat) (path mode : List Char) (ok : Bool)
    (h : WF s L) (b : Nat) (hb : b ≠ s.mem.length) :
    dataAt (openedState s L path mode ok) b
      = if victim s L s.mem.length = some b then (dataAt s b).map evictedData
        else dataAt s b := by
  have hres : residentAt (linkedState s path mode) = residentAt s := by
    funext x
    simp only [residentAt, linkedState_fd s L path mode h.reg x]
  unfold openedState
  rw [dataAt_resumeResult _ _ b _ ok hb, dataAt_limited, dataAt_linkedState s L path mode h.reg b hb,
    hres, find_snoc_fresh, (linkedState_fields s path mode).1, victim_fresh]
  by_cases hn : MAX_OPEN_FILES ≤ s.fcache_numopen
  · simp [hn]
  · simp [hn]

theorem openedState_disk (s : Cache) (L : List Nat) (path mode : List Char) (ok : Bool) :
    DiskLe s.disk (openedState s L path mode ok).disk := by
  unfold openedState
  rw [resumeResult_disk, limited_disk, (linkedState_fields s path mode).2.1]
  exact stdio_fopen_disk _ _ _ _

theorem openedState_length (s : Cache) (L : List Nat) (path mode : List Char) (ok : Bool)
    (h : WF s L) : (openedState s L path mode ok).mem.length = s.mem.length + 1 := by
  unfold openedState
  rw [resumeResult_length, limited_length, linkedState_length s L path mode h.reg]

/-- The evicted handle held a descriptor and is not the handle being acquired. -/
theorem victim_resident (s : Cache) (L : List Nat) (a v : Nat) (h : victim s L a = some v) :
    v ≠ a ∧ residentAt s v = true ∧ residentAt s a = false ∧
      MAX_OPEN_FILES ≤ s.fcache_numopen := by
  unfold victim at h
  split at h
  · cases h
  · rename_i hc
    have hv := List.find?_some h
    have ha : residentAt s a = false := by
      cases hra : residentAt s a with
      | false => rfl
      | true => exact absurd (Or.inl hra) hc
    refine ⟨?_, hv, ha, ?_⟩
    · intro e; rw [e, ha] at hv; cases hv
    · exact not_lt.1 (fun hlt => hc (Or.inr hlt))

/-! ### Runs of opens and positioned calls -/

theorem target_tame (op : Op) (pfd : Option Nat) (h : op.target = some pfd) :
    (∀ L k, op.grow L k = L) ∧ (∀ k, op.next k = k) ∧
    (∀ excl L, op.tame excl L = match pfd with
      | some a => L.contains a && (some a != excl)
      | none => true) := by
  cases op <;> cases h <;> refine ⟨fun _ _ => rfl, fun _ => rfl, fun _ _ => ?_⟩ <;>
    cases pfd <;> rfl

theorem grow_mem (op : Op) (L : List Nat) (k b : Nat) (h : b ∈ L) : b ∈ op.grow L k := by
  unfold Op.grow
  split
  · exact List.mem_append_left _ h
  · exact h

theorem tame_step (excl : Option Nat) (op : Op) (s : Cache) (L : List Nat) (hw : WF s L)
    (ht : op.tame excl L = true) :
    ∃ t, step op s = .ok t ∧ WF t (op.grow L s.mem.length) ∧
      t.mem.length = op.next s.mem.length ∧ DiskLe s.disk t.disk ∧
      (∀ b, b ∈ L → nameAt t b = nameAt s b) ∧
      (∀ b, b ∈ L → excl = some b → offsetAt t b = offsetAt s b) := by
  cases hto : op.target with
  | none =>
    cases op with
    | fopen path mode calloc_ok ok =>
      cases calloc_ok with
      | false =>
        refine ⟨s, ?_, hw, rfl, fun p hp => hp, fun _ _ => rfl, fun _ _ _ => rfl⟩
        simp [step, fcached_fopen, fcache_link]
      | true =>
        obtain ⟨e, hw1⟩ := fopen_WF s L path mode ok hw
        have hk : ∀ b, b ∈ L → b ≠ s.mem.length := fun b hb e1 =>
          Registry.fresh_not_mem s L hw.reg (e1 ▸ hb)
        refine ⟨openedState s L path mode ok, ?_, hw1, openedState_length s L path mode ok hw,
          openedState_disk s L path mode ok, ?_, ?_⟩
        · simp only [step, e, Functor.map, Except.map]
        · intro b hb
          exact (frame_keeps _ _ b _ (dataAt_openedState s L path mode ok hw b (hk b hb))).1
        · intro b hb _
          exact (frame_keeps _ _ b _ (dataAt_openedState s L path mode ok hw b (hk b hb))).2
    | _ => first | (simp [Op.tame, Op.target] at ht; done) | cases hto
  | some pfd =>
    obtain ⟨hg, hn, htm⟩ := target_tame op pfd hto
    rw [hg, hn]
    cases pfd with
    | none =>
      exact ⟨s, target_null op s hto, hw, rfl, fun p hp => hp, fun _ _ => rfl, fun _ _ _ => rfl⟩
    | some a =>
      rw [htm] at ht
      simp only [Bool.and_eq_true] at ht
      have ha : a ∈ L := by simpa using ht.1
      have hex : some a ≠ excl := by simpa using ht.2
      obtain ⟨r, hr⟩ := Chain_mem s none L hw.reg.chain a ha
      obtain ⟨t, e, fr⟩ := target_step op s L a r hw hto hr
      refine ⟨t, e, fr.wf, fr.length, fr.disk, ?_, ?_⟩
      · intro b _
        by_cases hb : b = a
        · rw [hb]; exact fr.name
        · exact (frame_keeps _ _ b _ (fr.others b hb)).1
      · intro b _ he
        have hb : b ≠ a := fun e1 => hex (by rw [he, e1])
        exact (frame_keeps _ _ b _ (fr.others b hb)).2

theorem run_tame (excl : Option Nat) (ops : List Op) (s : Cache) (L : List Nat) (hw : WF s L)
    (ht : Tame excl ops L s.mem.length = true) :
    ∃ s1 L1, run ops s = .ok s1 ∧ WF s1 L1 ∧ (∀ b, b ∈ L → b ∈ L1) ∧ DiskLe s.disk s1.disk ∧
      (∀ b, b ∈ L → nameAt s1 b = nameAt s b) ∧
      (∀ b, b ∈ L → excl = some b → offsetAt s1 b = offsetAt s b) := by
  induction ops generalizing s L with
  | nil => exact ⟨s, L, rfl, hw, fun _ hb => hb, fun p hp => hp, fun _ _ => rfl, fun _ _ _ => rfl⟩
  | cons op rest ih =>
    simp only [Tame, Bool.and_eq_true] at ht
    obtain ⟨t, e, hw1, hlen, hd, hname, hoff⟩ := tame_step excl op s L hw ht.1
    obtain ⟨s1, L1, e1, hw2, hsub, hd1, hname1, hoff1⟩ := ih t _ hw1 (by rw [hlen]; exact ht.2)
    refine ⟨s1, L1, ?_, hw2, fun b hb => hsub b (grow_mem op L _ b hb), DiskLe_trans _ _ _ hd hd1,
      ?_, ?_⟩
    · simp only [run, e]; exact e1
    · intro b hb
      rw [hname1 b (grow_mem op L _ b hb), hname b hb]
    · intro b hb he
      rw [hoff1 b (grow_mem op L _ b hb) he, hoff b hb he]

theorem reopened_canOpen (d : Disk) (r : fileref_t) (hcan : canOpen d r.path r.mode = true)
    (hp : 0 ≤ r.fpos) :
    ∃ f, reopened d r true = some f ∧ f.closed = false ∧ (f.pos : Int) = r.fpos := by
  have h1 := stdio_fopen_canOpen d r.path r.mode hcan
  obtain ⟨f0, hf0⟩ := Option.isSome_iff_exists.1 h1
  have hre : reopened d r true = some (seekSet f0 r.fpos) := by
    unfold reopened; rw [hf0]; rfl
  refine ⟨_, hre, reopened_open d r true _ hre, ?_⟩
  unfold seekSet
  rw [if_neg (not_lt.2 hp)]
  exact Int.toNat_of_nonneg hp

/-- `fcached_ftell` returns the current offset of a registered handle whose file can be
opened. -/
theorem ftell_offset (s : Cache) (L : List Nat) (h : Nat) (r : fileref_t) (p : Int)
    (hw : WF s L) (hr : s.mem[h]? = some (some r)) (ho : offsetAt s h = some p) (hp : 0 ≤ p)
    (hcan : canOpen s.disk r.path r.mode = true) :
    ∃ s2, fcached_ftell (some h) true s = .ok (p, s2) := by
  cases hf : r.fd with
  | some f =>
    have e : (f.pos : Int) = p := by
      simpa [offsetAt, dataAt, hr, hf] using ho
    rw [← e]
    exact ⟨s, ftell_resident s h r f true hr hf (hw.acct.2 h r f hr hf)⟩
  | none =>
    have e : r.fpos = p := by
      simpa [offsetAt, dataAt, hr, hf] using ho
    have hg := get_suspended s L h r true hw hr hf
    rw [limited_disk] at hg
    obtain ⟨f1, hre, hc, hpos⟩ := reopened_canOpen s.disk r hcan (by rw [e]; exact hp)
    rw [hre] at hg
    refine ⟨(resumeResult (limited s L) h r true).2, ?_⟩
    simp only [fcached_ftell, hg, bind, Except.bind, stdio_ftell, hc, Bool.false_eq_true,
      if_false, hpos, e]

theorem WF_suspended (s : Cache) (L : List Nat) (a : Nat) (r : fileref_t) (f : FILE) (pos : Int)
    (hw : WF s L) (hr : s.mem[a]? = some (some r)) (hf : r.fd = some f) :
    WF (s.suspended a r pos) L :=
  ⟨Registry_of_links s _ L hw.reg (fun b => linksAt_suspended s a b r pos hr) rfl rfl,
    Acct_suspended s a r f pos hr hf hw.acct⟩

/-- A suspend immediately followed by a resume. -/
theorem suspend_resume (s : Cache) (L : List Nat) (h : Nat) (r : fileref_t) (f : FILE)
    (hw : WF s L) (hr : s.mem[h]? = some (some r)) (hf : r.fd = some f)
    (hcan : canOpen s.disk r.path r.mode = true) :
    ∃ t u rt ru f1, fcache_suspend (some h) s = .ok (0, t) ∧
      t.mem[h]? = some (some rt) ∧ rt.fd = none ∧ rt.fpos = (f.pos : Int) ∧
      fcache_resume (some h) true t = .ok (0, u) ∧
      u.mem[h]? = some (some ru) ∧ ru.fd = some f1 ∧ f1.pos = f.pos ∧ ru.fpos = 0 := by
  have hc := hw.acct.2 h r f hr hf
  have ht : (s.suspended h r f.pos).mem[h]? = some (some { r with fpos := (f.pos : Int), fd := none }) :=
    store_same s h _ (lt_of_mem s h _ hr)
  have hwt := WF_suspended s L h r f f.pos hw hr hf
  have hk := limited_keeps _ L hwt h _ ht rfl
  obtain ⟨f1, hre, -, hpos⟩ := reopened_canOpen s.disk { r with fpos := (f.pos : Int), fd := none }
    hcan (Int.ofNat_nonneg _)
  have hd : (limited (s.suspended h r f.pos) L).disk = s.disk := by
    rw [limited_disk]; rfl
  obtain ⟨ru, h1, h2, -, -, -, -, h3⟩ := resumeResult_at _ h _ true hk
  rw [hd, hre] at h2 h3
  refine ⟨_, _, _, ru, f1, suspend_resident s h r f hr hf hc, ht, rfl, rfl, ?_, h1, h2,
    Int.ofNat_inj.1 hpos, by simpa using h3⟩
  rw [resume_WF _ L h _ true hwt ht rfl]
  have hret := resumeResult_ret (limited (s.suspended h r f.pos) L) h
    { r with fpos := (f.pos : Int), fd := none } true
  rw [hd, hre] at hret
  exact congrArg Except.ok (Prod.ext hret rfl)
/-! ### The bounded string buffers -/

theorem strncpy_buf_spec (dst src : List Char) (n : Nat) (hd : dst.drop n = [NUL])
    (hs : NUL ∉ src) :
    (strncpy_buf dst src n).length = n + 1 ∧
    (∃ rest, strncpy_buf dst src n = src.take n ++ NUL :: rest) ∧
    cstr (strncpy_buf dst src n) = strncpy src n ∧
    (strncpy_buf dst src n).drop n = [NUL] := by
  have hform : ∃ rest, strncpy_buf dst src n = src.take n ++ NUL :: rest := by
    unfold strncpy_buf
    rw [hd, List.append_assoc]
    cases hk : n - src.length with
    | zero => exact ⟨[], rfl⟩
    | succ k => exact ⟨List.replicate k NUL ++ [NUL], rfl⟩
  have hlen : (strncpy_buf dst src n).length = n + 1 := by
    unfold strncpy_buf
    rw [hd]
    simp only [List.length_append, List.length_take, List.length_replicate, List.length_singleton]
    omega
  refine ⟨hlen, hform, ?_, ?_⟩
  · obtain ⟨rest, e⟩ := hform
    rw [e]
    unfold cstr strncpy
    rw [List.takeWhile_append_of_pos]
    · simp
    · intro c hc
      have : c ∈ src := List.mem_of_mem_take hc
      simp only [bne_iff_ne, ne_eq]
      intro e1
      exact hs (e1 ▸ this)
  · unfold strncpy_buf
    rw [hd, List.drop_append_of_le_length]
    · have : (src.take n ++ List.replicate (n - src.length) NUL).length = n := by
        simp only [List.length_append, List.length_take, List.length_replicate]
        omega
      rw [List.drop_of_length_le (le_of_eq this)]
      rfl
    · simp only [List.length_append, List.length_take, List.length_replicate]
      omega

theorem drop_replicate_last (n : Nat) (c : Char) : (List.replicate (n + 1) c).drop n = [c] := by
  rw [List.drop_replicate, Nat.add_sub_cancel_left]
  rfl

theorem WF_oneRead : WF oneRead [0] := by
  refine ⟨⟨by decide, ⟨rfl, trivial⟩, rfl, rfl, ?_⟩, rfl, ?_⟩
  · intro a r h
    cases a with
    | zero => simp
    | succ a => simp [oneRead] at h
  · intro a r f hr hf
    cases a with
    | zero =>
      simp [oneRead] at hr
      subst hr
      simp at hf
      subst hf
      rfl
    | succ a => simp [oneRead] at hr

/-! ### Closing a handle that is not the head of the registry -/

theorem Chain_bypass_off (s s1 : Cache) (r : fileref_t) (M : List Nat) (x : Option Nat)
    (hc : Chain s x M) (hn : ∀ b ∈ M, r.next ≠ some b) (hp : ∀ b ∈ M, r.prev ≠ some b)
    (hl : ∀ b ∈ M, linksAt s1 b = (linksAt s b).map (bypass r b)) : Chain s1 x M := by
  induction M generalizing x with
  | nil => trivial
  | cons c M ih =>
    obtain ⟨h1, h2⟩ := hc
    refine ⟨?_, ih (some c) h2 (fun b hb => hn b (List.mem_cons_of_mem _ hb))
      (fun b hb => hp b (List.mem_cons_of_mem _ hb))
      (fun b hb => hl b (List.mem_cons_of_mem _ hb))⟩
    rw [hl c (List.mem_cons_self _ _), h1]
    simp [bypass, hn c (List.mem_cons_self _ _), hp c (List.mem_cons_self _ _)]

theorem Chain_next_mem (s : Cache) (M : List Nat) (x : Option Nat) (hc : Chain s x M)
    (h : Nat) (pv : Option Nat) (n : Nat) (hM : h ∈ M) (hl : linksAt s h = some (pv, some n)) :
    n ∈ M := by
  induction M generalizing x with
  | nil => cases hM
  | cons c M ih =>
    obtain ⟨h1, h2⟩ := hc
    by_cases e : h = c
    · subst e
      rw [hl] at h1
      simp only [Option.some.injEq, Prod.mk.injEq] at h1
      exact List.mem_cons_of_mem _ (List.mem_of_mem_head? h1.2.symm)
    · have hM1 : h ∈ M := by
        rcases List.mem_cons.1 hM with e1 | e1
        · exact absurd e1 e
        · exact e1
      exact List.mem_cons_of_mem _ (ih (some c) h2 hM1)

theorem Chain_next_ne (s : Cache) (M : List Nat) (x : Option Nat) (hc : Chain s x M)
    (hnd : M.Nodup) (h : Nat) (pv : Option Nat) (n : Nat) (hM : h ∈ M)
    (hl : linksAt s h = some (pv, some n)) : n ≠ h := by
  induction M generalizing x with
  | nil => cases hM
  | cons c M ih =>
    obtain ⟨h1, h2⟩ := hc
    have hnd1 := List.nodup_cons.1 hnd
    by_cases e : h = c
    · subst e
      rw [hl] at h1
      simp only [Option.some.injEq, Prod.mk.injEq] at h1
      intro e1
      exact hnd1.1 (e1 ▸ List.mem_of_mem_head? h1.2.symm)
    · have hM1 : h ∈ M := by
        rcases List.mem_cons.1 hM with e1 | e1
        · exact absurd e1 e
        · exact e1
      exact ih (some c) h2 hnd1.2 hM1

theorem Chain_prev_mem (s : Cache) (M : List Nat) (x : Option Nat) (hc : Chain s x M)
    (h : Nat) (pv nx : Option Nat) (hM : h ∈ M) (hl : linksAt s h = some (pv, nx)) :
    (M.head? = some h ∧ pv = x) ∨ (∃ b, b ∈ M ∧ pv = some b ∧ b ≠ h) := by
  induction M generalizing x with
  | nil => cases hM
  | cons c M ih =>
    obtain ⟨h1, h2⟩ := hc
    by_cases e : h = c
    · subst e
      rw [hl] at h1
      simp only [Option.some.injEq, Prod.mk.injEq] at h1
      exact Or.inl ⟨rfl, h1.1⟩
    · have hM1 : h ∈ M := by
        rcases List.mem_cons.1 hM with e1 | e1
        · exact absurd e1 e
        · exact e1
      rcases ih (some c) h2 hM1 with ⟨-, hpv⟩ | ⟨b, hb, hpv, hne⟩
      · exact Or.inr ⟨c, List.mem_cons_self _ _, hpv, Ne.symm e⟩
      · exact Or.inr ⟨b, List.mem_cons_of_mem _ hb, hpv, hne⟩

theorem Chain_erase (s s1 : Cache) (h : Nat) (r : fileref_t)
    (hlk : linksAt s h = some (r.prev, r.next)) (L : List Nat) (q : Option Nat)
    (hc : Chain s q L) (hnd : L.Nodup) (hq : ∀ x, q = some x → x ∉ L) (hL : h ∈ L)
    (hl : ∀ b ∈ L, b ≠ h → linksAt s1 b = (linksAt s b).map (bypass r b)) :
    Chain s1 q (L.erase h) := by
  induction L generalizing q with
  | nil => cases hL
  | cons a rest ih =>
    obtain ⟨h1, h2⟩ := hc
    have hnd1 := List.nodup_cons.1 hnd
    by_cases e : a = h
    · subst e
      rw [List.erase_cons_head]
      rw [hlk] at h1
      simp only [Option.some.injEq, Prod.mk.injEq] at h1
      cases rest with
      | nil => trivial
      | cons c M =>
        obtain ⟨g1, g2⟩ := h2
        have hca : c ≠ a := fun e1 => hnd1.1 (e1 ▸ List.mem_cons_self _ _)
        have hnd2 := List.nodup_cons.1 hnd1.2
        have hnx : r.next = some c := h1.2
        have hpc : ∀ b, b ∈ c :: M → r.prev ≠ some b := by
          intro b hb e1
          exact hq b (h1.1 ▸ e1) (List.mem_cons_of_mem _ hb)
        refine ⟨?_, Chain_bypass_off s s1 r M (some c) g2 ?_
          (fun b hb => hpc b (List.mem_cons_of_mem _ hb)) ?_⟩
        · rw [hl c (List.mem_cons_of_mem _ (List.mem_cons_self _ _)) hca, g1]
          have hqc : ¬ q = some c := fun e1 =>
            hq c e1 (List.mem_cons_of_mem _ (List.mem_cons_self _ _))
          simp [bypass, hnx, h1.1, hqc]
        · intro b hb e1
          rw [hnx] at e1
          simp only [Option.some.injEq] at e1
          exact hnd2.1 (e1 ▸ hb)
        · intro b hb
          exact hl b (List.mem_cons_of_mem _ (List.mem_cons_of_mem _ hb))
            (fun e1 => hnd1.1 (e1 ▸ List.mem_cons_of_mem _ hb))
    · have hLr : h ∈ rest := by
        rcases List.mem_cons.1 hL with e1 | e1
        · exact absurd e1.symm e
        · exact e1
      rw [List.erase_cons_tail (by simpa using e)]
      have hn1 : r.next ≠ some a := by
        intro e1
        exact hnd1.1 (Chain_next_mem s rest (some a) h2 h r.prev a hLr (by rw [hlk, e1]))
      refine ⟨?_, ih (some a) h2 hnd1.2 (fun x hx => by cases hx; exact hnd1.1) hLr
        (fun b hb => hl b (List.mem_cons_of_mem _ hb))⟩
      rw [hl a (List.mem_cons_self _ _) e, h1]
      simp only [Option.map_some', bypass, if_neg hn1]
      cases rest with
      | nil => cases hLr
      | cons c M =>
        obtain ⟨g1, g2⟩ := h2
        by_cases ec : c = h
        · subst ec
          rw [hlk] at g1
          simp only [Option.some.injEq, Prod.mk.injEq] at g1
          rw [List.erase_cons_head, if_pos g1.1, g1.2]
        · have hpa : r.prev ≠ some a := by
            intro e1
            rcases Chain_prev_mem s (c :: M) (some a) ⟨g1, g2⟩ h r.prev r.next hLr hlk with
              ⟨hh, -⟩ | ⟨b, hb, hpv, -⟩
            · simp only [List.head?_cons, Option.some.injEq] at hh
              exact ec hh
            · rw [e1] at hpv
              simp only [Option.some.injEq] at hpv
              exact hnd1.1 (hpv ▸ hb)
          rw [if_neg hpa, List.erase_cons_tail (by simpa using ec)]
          rfl

theorem Chain_last (s : Cache) (A : List Nat) (q : Option Nat) (h : Nat)
    (hc : Chain s q (A ++ [h])) : linksAt s h = some (A.getLast?.or q, none) := by
  induction A generalizing q with
  | nil => simpa [Chain] using hc.1
  | cons a A ih =>
    obtain ⟨-, h2⟩ := hc
    rw [ih (some a) h2, List.getLast?_cons]
    cases A.getLast? <;> rfl

theorem linksAt_store_next (s : Cache) (a b : Nat) (ra : fileref_t) (v : Option Nat)
    (h : s.mem[a]? = some (some ra)) :
    linksAt (s.store a { ra with next := v }) b
      = (linksAt s b).map (fun x => (x.1, if a = b then v else x.2)) := by
  rw [linksAt_store s a b ra _ h]
  by_cases e : a = b
  · subst e; simp [linksAt, h]
  · simp only [e, if_false]
    cases linksAt s b <;> rfl

theorem linksAt_store_prev (s : Cache) (a b : Nat) (ra : fileref_t) (v : Option Nat)
    (h : s.mem[a]? = some (some ra)) :
    linksAt (s.store a { ra with prev := v }) b
      = (linksAt s b).map (fun x => (if a = b then v else x.1, x.2)) := by
  rw [linksAt_store s a b ra _ h]
  by_cases e : a = b
  · subst e; simp [linksAt, h]
  · simp only [e, if_false]
    cases linksAt s b <;> rfl
/-- The links, the head pointer and the tail pointer after `fcache_unlink`. -/
theorem unlink_links (s s1 : Cache) (h : Nat) (r : fileref_t) (ret : Int)
    (hr : s.mem[h]? = some (some r)) (e : fcache_unlink (some h) s = .ok (ret, s1)) :
    s1.fcache = s.fcache ∧
    s1.fcache_end = (if some h = s.fcache_end then r.prev else s.fcache_end) ∧
    ∀ b, linksAt s1 b = if b = h then none else (linksAt s b).map (bypass r b) := by
  unfold fcache_unlink at e
  simp only [bind_ok] at e
  obtain ⟨r0, hr0, t1, h1, r1, hr1, r2, hr2, t3, h3, r3, hr3, t4, h4, t5, h5, e⟩ := e
  simp at e
  rw [deref_ok] at hr0 hr1 hr2 hr3
  have hlk : linksAt s h = some (r.prev, r.next) := by simp [linksAt, hr]
  -- the conditional suspend keeps links and pointers
  have a1 : (∀ b, linksAt t1 b = linksAt s b) ∧ t1.fcache = s.fcache ∧
      t1.fcache_end = s.fcache_end := by
    split at h1
    · rw [map_ok] at h1
      obtain ⟨⟨ret0, t0⟩, g0, e0⟩ := h1
      simp at e0; subst e0
      obtain ⟨rr, hrr, hcase⟩ := suspend_inv s t0 h ret0 g0
      rcases hcase with ⟨-, -, e1⟩ | ⟨f, -, -, -, e1⟩
      · rw [e1]; exact ⟨fun _ => rfl, rfl, rfl⟩
      · rw [e1]; exact ⟨fun b => linksAt_suspended s h b rr _ hrr, rfl, rfl⟩
    · rw [pure_ok] at h1; subst h1; exact ⟨fun _ => rfl, rfl, rfl⟩
  have l1 : r1.prev = r.prev ∧ r1.next = r.next := by
    have := a1.1 h
    rw [hlk] at this
    simpa [linksAt, hr1] using this
  -- the tail pointer
  obtain ⟨s2, hs2⟩ : ∃ s2, s2 = (if some h = t1.fcache_end then t1.setEnd r1.prev else t1) :=
    ⟨_, rfl⟩
  rw [← hs2] at hr2 h3
  have a2 : (∀ b, linksAt s2 b = linksAt s b) ∧ s2.fcache = s.fcache ∧
      s2.fcache_end = (if some h = s.fcache_end then r.prev else s.fcache_end) := by
    rw [hs2, ← a1.2.2, ← l1.1]
    split
    · exact ⟨a1.1, a1.2.1, rfl⟩
    · exact ⟨a1.1, a1.2.1, rfl⟩
  have l2 : r2.prev = r.prev ∧ r2.next = r.next := by
    have := a2.1 h
    rw [hlk] at this
    simpa [linksAt, hr2] using this
  -- the predecessor
  have a3 : (∀ b, linksAt t3 b
      = (linksAt s b).map (fun x => (x.1, if r.prev = some b then r.next else x.2))) ∧
      t3.fcache = s2.fcache ∧ t3.fcache_end = s2.fcache_end := by
    split at h3
    · rename_i p hp
      rw [modify_ok] at h3
      obtain ⟨rp, hrp, e3⟩ := h3
      rw [e3]
      refine ⟨?_, rfl, rfl⟩
      intro b
      rw [linksAt_store_next s2 p b rp _ hrp, a2.1 b, ← l2.1, hp, l2.2]
      simp
    · rename_i hp
      rw [pure_ok] at h3; subst h3
      refine ⟨?_, rfl, rfl⟩
      intro b
      rw [a2.1 b, ← l2.1, hp]
      cases linksAt s b <;> simp
  have l3 : r3.prev = r.prev ∧ r3.next = r.next := by
    have := a3.1 h
    rw [hlk] at this
    simp only [linksAt, hr3, Option.map_some', ite_self] at this
    simpa using this
  -- the successor
  have a4 : (∀ b, linksAt t4 b = (linksAt s b).map (bypass r b)) ∧
      t4.fcache = s2.fcache ∧ t4.fcache_end = s2.fcache_end := by
    split at h4
    · rename_i n hn
      rw [modify_ok] at h4
      obtain ⟨rn, hrn, e4⟩ := h4
      rw [e4]
      refine ⟨?_, a3.2.1, a3.2.2⟩
      intro b
      rw [linksAt_store_prev t3 n b rn _ hrn, a3.1 b, ← l3.2, hn, l3.1]
      cases linksAt s b <;> simp [bypass, l3.2 ▸ hn]
    · rename_i hn
      rw [pure_ok] at h4; subst h4
      refine ⟨?_, a3.2.1, a3.2.2⟩
      intro b
      rw [a3.1 b]
      cases linksAt s b <;> simp [bypass, l3.2 ▸ hn]
  rw [release_ok] at h5
  obtain ⟨⟨r4, hr4⟩, e5⟩ := h5
  rw [← e.2, e5]
  refine ⟨a4.2.1.trans a2.2.1, a4.2.2.trans a2.2.2, ?_⟩
  intro b
  by_cases hb : b = h
  · subst hb
    simp [linksAt, lt_of_mem t4 b _ hr4]
  · rw [if_neg hb, ← a4.1 b]
    simp only [linksAt, List.getElem?_set_ne (Ne.symm hb)]
/-- Closing a registered handle that is not the head of the registry of a well-formed
cache: the cache stays well formed, its registry is the old one without the handle. -/
theorem close_registry (s : Cache) (L : List Nat) (h : Nat) (r : fileref_t) (hw : WF s L)
    (hr : s.mem[h]? = some (some r)) (hh : L.head? ≠ some h) :
    ∃ s1, fcached_fclose (some h) s = .ok (0, s1) ∧ WF s1 (L.erase h) ∧
      (∀ b, linksAt s1 b = if b = h then none else (linksAt s b).map (bypass r b)) ∧
      s1.fcache_end = (if L.getLast? = some h then r.prev else L.getLast?) := by
  obtain ⟨hc, hp, hn⟩ := WF_closeable s L h r hw hr
  obtain ⟨t, e, -⟩ := unlink_total s h r hr hc hp hn
  obtain ⟨k1, k2, k3⟩ := unlink_links s _ h r 0 hr e
  have hL : h ∈ L := hw.reg.live h r hr
  have hlk : linksAt s h = some (r.prev, r.next) := by simp [linksAt, hr]
  have hend : ({ t with mem := t.mem.set h none } : Cache).fcache_end
      = (if L.getLast? = some h then r.prev else L.getLast?) := by
    rw [k2, hw.reg.tail]
    by_cases e1 : L.getLast? = some h
    · rw [if_pos e1, if_pos e1.symm]
    · rw [if_neg e1, if_neg (fun e2 => e1 e2.symm)]
  refine ⟨_, e, ⟨⟨hw.reg.nodup.erase h, ?_, ?_, ?_, ?_⟩, Acct_unlink _ _ _ _ e hw.acct⟩, k3, hend⟩
  · exact Chain_erase s _ h r hlk L none hw.reg.chain hw.reg.nodup (by intro x hx; cases hx) hL
      (fun b _ hb => by rw [k3 b, if_neg hb])
  · rw [k1, hw.reg.head]
    cases L with
    | nil => cases hL
    | cons a rest =>
      have hah : a ≠ h := fun e1 => hh (by rw [e1]; rfl)
      rw [List.erase_cons_tail (by simpa using hah)]
      rfl
  · rw [hend]
    by_cases e1 : L.getLast? = some h
    · rw [if_pos e1]
      obtain ⟨A, hA⟩ := List.getLast?_eq_some_iff.1 e1
      have hnd := hw.reg.nodup
      have hch := hw.reg.chain
      rw [hA] at hnd hch ⊢
      have hA1 : h ∉ A := by
        intro hm
        have := (List.nodup_append.1 hnd).2.2
        exact this hm (List.mem_singleton_self h)
      have := Chain_last s A none h hch
      rw [hlk] at this
      simp only [Option.some.injEq, Prod.mk.injEq, Option.or_none] at this
      rw [List.erase_append_right _ hA1, List.erase_cons_head, List.append_nil, this.1]
    · rw [if_neg e1]
      cases hl : L.getLast? with
      | none =>
        rw [List.getLast?_eq_none_iff] at hl
        rw [hl] at hL; cases hL
      | some x =>
        obtain ⟨A, hA⟩ := List.getLast?_eq_some_iff.1 hl
        have hxh : x ≠ h := fun e2 => e1 (by rw [hl, e2])
        have hA1 : h ∈ A := by
          rw [hA] at hL
          rcases List.mem_append.1 hL with h1 | h1
          · exact h1
          · exact absurd (List.mem_singleton.1 h1).symm hxh
        rw [hA, List.erase_append_left _ hA1, List.getLast?_concat]
  · intro a ra ha
    have h1 : linksAt { t with mem := t.mem.set h none } a ≠ none :=
      (live_iff_links _ a).1 ⟨ra, ha⟩
    rw [k3 a] at h1
    by_cases hah : a = h
    · rw [if_pos hah] at h1; exact absurd rfl h1
    · rw [if_neg hah] at h1
      have h2 : linksAt s a ≠ none := by
        intro e1; rw [e1] at h1; exact h1 rfl
      obtain ⟨r0, hr0⟩ := (live_iff_links s a).2 h2
      exact (List.mem_erase_of_ne hah).2 (hw.reg.live a r0 hr0)

/-- An exclusive open of an existing file fails and leaves the disk as it is; on a missing
file it creates the file. -/
theorem fopen_exclusive (c : List Nat) :
    stdio_fopen [(['a'], c)] ['a'] ['w', 'x'] true = (none, [(['a'], c)]) ∧
    (stdio_fopen [] ['a'] ['w', 'x'] true).1.isSome = true ∧
    canOpen [] ['a'] ['w', 'x'] = false :=
  ⟨rfl, rfl, rfl⟩

/-! ### Defined executions keep the count; reopen in place -/

/-- Every defined execution of `fcached_fopen`, `fcached_fclose` and positioned calls from
the empty cache ends in a state in which `fcache_numopen` equals the number of registered
handles holding a descriptor, each of these descriptors being live.  An execution that is
not defined dereferenced a released or unallocated record (a call on a handle that is not
registered, or the eviction scan through the stale head pointer left by the close of the
head); the iteration bound of the model's eviction scan is never reached. -/
theorem numopen_counts_resident (d : Disk) (ops : List Op)
    (hops : ∀ op ∈ ops, op.isReopen = false) :
    run ops (Cache.init d) = .error .undefined ∨
    ∃ s, run ops (Cache.init d) = .ok s ∧
      s.fcache_numopen = (residentCount s : Int) ∧ StreamsOpen s := by
  cases hrun : run ops (Cache.init d) with
  | ok s => exact Or.inr ⟨s, rfl, Acct_run ops (Cache.init d) s hops hrun (Acct_init d)⟩
  | error e =>
    cases e with
    | undefined => exact Or.inl rfl
    | fuel => exact absurd hrun (NoFuel_run ops (Cache.init d) hops (LinksUp_init d))

theorem numopen_counts_resident_sample :
    ∃ s, run sampleOps (Cache.init []) = .ok s ∧
      s.fcache_numopen = (residentCount s : Int) ∧ StreamsOpen s := by
  have hok : isOk (run sampleOps (Cache.init [])) = true := by decide
  rcases numopen_counts_resident [] sampleOps (by decide) with h | h
  · rw [h] at hok
    simp [isOk] at hok
  · exact h

/-- A successful `fcached_freopen` with a mode string on a registered handle `h` returns
`h`; head and tail pointers, every link (hence the registry) and `fcache_numopen` are
unchanged; the record stores the new path when one is given (the old one otherwise) and
the new mode; a following `fcached_ftell(h)` returns the position of the new stream. -/
theorem reopen_in_place (s : Cache) (h : Nat) (r : fileref_t) (path : Option (List Char))
    (mode : List Char) (ok ok2 : Bool) (f1 : FILE) (d1 : Disk)
    (hr : s.mem[h]? = some (some r))
    (hre : stdio_freopen s.disk path (some mode) r.fd ok = .ok (some f1, d1)) :
    ∃ s1 r1, fcached_freopen path (some mode) (some h) ok s = .ok (some h, s1) ∧
      s1.fcache = s.fcache ∧ s1.fcache_end = s.fcache_end ∧
      (∀ b, linksAt s1 b = linksAt s b) ∧ (∀ L, Registry s L → Registry s1 L) ∧
      s1.fcache_numopen = s.fcache_numopen ∧
      s1.mem[h]? = some (some r1) ∧ r1.fd = some f1 ∧
      (∀ p, path = some p → r1.path = strncpy p MAX_PATH) ∧ (path = none → r1.path = r.path) ∧
      r1.mode = strncpy mode MAX_MODESTR ∧
      fcached_ftell (some h) ok2 s1 = .ok ((f1.pos : Int), s1) := by
  have hnn : (path.isNone && (some mode).isNone) = false := by cases path <;> rfl
  have e := freopen_success s h r path (some mode) ok f1 d1 hr hnn hre
  have hlt := lt_of_mem s h _ hr
  have hc := stdio_freopen_open _ _ _ _ _ _ _ hre
  have hnew : ((s.setDisk d1).store h (reopenedRef r path (some mode) f1)).mem[h]?
      = some (some (reopenedRef r path (some mode) f1)) := store_same (s.setDisk d1) h _ hlt
  have hlinks : ∀ b, linksAt ((s.setDisk d1).store h (reopenedRef r path (some mode) f1)) b
      = linksAt s b := by
    intro b
    have := linksAt_store_same (s.setDisk d1) h b r (reopenedRef r path (some mode) f1) hr
      rfl rfl
    simpa [linksAt] using this
  refine ⟨_, reopenedRef r path (some mode) f1, e, rfl, rfl, hlinks, ?_, rfl, hnew, rfl, ?_, ?_,
    rfl, ?_⟩
  · intro L hL
    exact Registry_of_links s _ L hL hlinks rfl rfl
  · intro p hp; subst hp; rfl
  · intro hp; subst hp; rfl
  · exact ftell_resident _ h _ f1 ok2 hnew rfl hc

/-- A call of `fcached_freopen` with a null `mode` on a registered handle that holds a
live stream is undefined, whatever the path. -/
theorem freopen_null_mode (s : Cache) (h : Nat) (r : fileref_t) (f : FILE) (p : List Char)
    (ok : Bool) (hr : s.mem[h]? = some (some r)) (hf : r.fd = some f) :
    fcached_freopen (some p) none (some h) ok s = .error .undefined := by
  have e : stdio_freopen s.disk (some p) none (some f) ok = .error .undefined := by
    unfold stdio_freopen
    simp only
    split <;> rfl
  unfold fcached_freopen
  simp only [Option.isNone_some, Option.isNone_none, Bool.false_and, Bool.false_eq_true,
    if_false, deref_of s h r hr, bind, Except.bind, hf, e]

/-- When the underlying `freopen` on the stream of a registered handle `h` fails,
`fcached_freopen` returns `h`; path, mode, cached offset and links of the record, the
registry and `fcache_numopen` are as before (the record keeps the stream that the library
has closed). -/
theorem reopen_failure_frame (s : Cache) (h : Nat) (r : fileref_t)
    (path mode : Option (List Char)) (ok : Bool) (d1 : Disk)
    (hr : s.mem[h]? = some (some r))
    (hnn : (path.isNone && mode.isNone) = false)
    (hre : stdio_freopen s.disk path mode r.fd ok = .ok (none, d1)) :
    ∃ s1 r1, fcached_freopen path mode (some h) ok s = .ok (some h, s1) ∧
      s1.mem[h]? = some (some r1) ∧ r1.path = r.path ∧ r1.mode = r.mode ∧
      r1.fpos = r.fpos ∧ r1.prev = r.prev ∧ r1.next = r.next ∧
      (∀ L, Registry s L → Registry s1 L) ∧ s1.fcache_numopen = s.fcache_numopen := by
  have e := freopen_failure s h r path mode ok d1 hr hnn hre
  have hlt := lt_of_mem s h _ hr
  refine ⟨_, _, e, store_same (s.setDisk d1) h _ hlt, rfl, rfl, rfl, rfl, rfl, ?_, rfl⟩
  intro L hL
  refine Registry_of_links s _ L hL ?_ rfl rfl
  intro b
  have := linksAt_store_same (s.setDisk d1) h b r
    { r with fd := r.fd.map (fun f => { f with closed := true }) } hr rfl rfl
  simpa [linksAt] using this

/-! ## The claims on `cached_stdio.c` -/

/-- C1: for every sequence of `fcached_fopen` calls from the empty cache, whatever
`calloc` and the underlying `fopen` do in each call, after every call (after the first `k`
calls, for every `k`) the run is defined and at most `MAX_OPEN_FILES` = 4 registered
handles hold a descriptor; these descriptors are live and `fcache_numopen` counts them. -/
theorem C1_capacity (d : Disk) (calls : List OpenCall) (k : Nat) :
    ∃ s, run ((calls.take k).map OpenCall.toOp) (Cache.init d) = .ok s ∧
      residentCount s ≤ 4 ∧ StreamsOpen s := by
  obtain ⟨s, L, h1, h2, h3⟩ :=
    run_opens_WF (calls.take k) (Cache.init d) [] (WF_init d) (by simp [Cache.init, MAX_OPEN_FILES])
  refine ⟨s, h1, ?_, h2.acct.2⟩
  have := h2.acct.1
  unfold MAX_OPEN_FILES at h3
  omega

/-- C2 (evaluation at the failing input): handle 0 is opened with mode `w+`; after six
bytes, a seek to 0 and the N = 2 bytes `9 9` the file holds `9 9 3 4 5 6` and the position
is 2.  Four more opens suspend handle 0 with cached offset 2.  The read of four bytes
then delivers no item where the claim promises `3 4 5 6`: the resume ran `fopen` with the
truncating mode again, and the file is empty afterwards. -/
theorem C2_truncating_mode_loses_data :
    (do
      let s ← run c2Ops (Cache.init [])
      let (ret, s1) ← fcached_fread 1 4 (some 0) true s
      pure (s.disk.get ['a'], fdAt s 0, (s.deref 0).map (fun r => r.fpos), ret,
        s1.disk.get ['a']) : Except Fault _)
      = .ok (some [9, 9, 3, 4, 5, 6], none, .ok 2, (0, []), some []) :=
  rfl

/-- C3 (evaluation at the failing input): after two opens and the close of the first
handle, `fcache` still holds address 0 although the record there is released, while the
only registered handle is the one at address 1; the eviction scan started from this state
dereferences the released record, and so does the run continued by four more opens. -/
theorem C3_head_dangles_after_close :
    run c3Ops (Cache.init []) = .ok c3After ∧
      c3After.fcache = some 0 ∧ c3After.mem[0]? = some none ∧
      fcache_ensure_limits c3After = .error .undefined ∧
      run (c3Ops ++ [.fopen ['c'] ['w'] true true, .fopen ['d'] ['w'] true true,
        .fopen ['e'] ['w'] true true, .fopen ['f'] ['w'] true true]) (Cache.init [])
        = .error .undefined :=
  ⟨rfl, rfl, rfl, rfl, rfl⟩

/-- C4 (evaluation at the failing input): four opens, the close of the first handle (the
head of the registry) and one more open, all on registered handles.  Afterwards
`fcache_numopen` is 4 and four registered handles hold a descriptor, but `fcache` still
holds address 0, whose record is released.  The next open finds the pool full and runs
the eviction scan from `fcache`: it dereferences the released record, so the execution
is undefined and no count is established. -/
theorem C4_count_lost_after_head_close :
    (do
      let s ← run c4Ops (Cache.init [])
      pure (s.fcache_numopen, residentCount s, s.fcache, s.mem[0]?) : Except Fault _)
      = .ok (4, 4, some 0, some none) ∧
    run (c4Ops ++ [.fopen ['f'] ['w'] true true]) (Cache.init []) = .error .undefined :=
  ⟨rfl, rfl⟩

/-- C5 (counterexample): opening the missing file `x` for reading on the empty cache makes
the underlying `fopen` fail, yet `fcached_fopen` returns the handle at address 0, not
null. -/
theorem C5_returns_handle :
    (stdio_fopen [] ['x'] ['r'] true).1 = none ∧
    (∃ s, fcached_fopen ['x'] ['r'] true true (Cache.init []) = .ok (some 0, s) ∧
      fdAt s 0 = none) ∧
    ¬ ∃ s, fcached_fopen ['x'] ['r'] true true (Cache.init []) = .ok (none, s) := by
  refine ⟨rfl, ⟨_, rfl, rfl⟩, ?_⟩
  rintro ⟨s, h⟩
  have e : ∃ t, fcached_fopen ['x'] ['r'] true true (Cache.init []) = .ok (some 0, t) :=
    ⟨_, rfl⟩
  obtain ⟨t, ht⟩ := e
  rw [ht] at h
  cases h

/-- C5 (amended): on a well-formed cache, when `calloc` succeeds and the underlying `fopen`
fails, `fcached_fopen` returns the new (non-null) handle; the handle is appended to the
registry, its record holds no descriptor, and `fcache_numopen` is not incremented. -/
theorem C5_failed_open (s : Cache) (L : List Nat) (path mode : List Char) (ok : Bool)
    (h : WF s L)
    (hfail : (stdio_fopen s.disk (strncpy path MAX_PATH) (strncpy mode MAX_MODESTR) ok).1 = none) :
    ∃ s1, fcached_fopen path mode true ok s = .ok (some s.mem.length, s1) ∧
      Registry s1 (L ++ [s.mem.length]) ∧
      (∃ r, s1.mem[s.mem.length]? = some (some r) ∧ r.fd = none) ∧
      s1.fcache_numopen ≤ s.fcache_numopen := by
  obtain ⟨e, hw⟩ := fopen_WF s L path mode ok h
  refine ⟨_, e, hw.reg, ?_, ?_⟩
  · have hw0 := WF_linkedState s L path mode h
    have hnew := linkedState_new s L path mode h.reg
    obtain ⟨r1, h1, h2, -⟩ := resumeResult_at _ _ _ ok (limited_keeps _ _ hw0 _ _ hnew rfl)
    refine ⟨r1, h1, ?_⟩
    rw [h2]
    unfold reopened
    rw [limited_disk, (linkedState_fields s path mode).2.1]
    simp only [freshRef]
    rw [hfail]; rfl
  · unfold openedState
    rw [resumeResult_numopen]
    have hre : reopened (limited (linkedState s path mode) (L ++ [s.mem.length])).disk
        { freshRef path mode with prev := L.getLast? } ok = none := by
      unfold reopened
      rw [limited_disk, (linkedState_fields s path mode).2.1]
      simp only [freshRef]
      rw [hfail]; rfl
    rw [hre]
    have := limited_numopen_le (linkedState s path mode) (L ++ [s.mem.length])
    rw [(linkedState_fields s path mode).1] at this
    simpa using this

theorem C5_failed_open_witness :
    ∃ s1, fcached_fopen ['x'] ['r'] true true (Cache.init []) = .ok (some 0, s1) ∧
      Registry s1 [0] ∧ (∃ r, s1.mem[0]? = some (some r) ∧ r.fd = none) ∧
      s1.fcache_numopen ≤ 0 :=
  C5_failed_open (Cache.init []) [] ['x'] ['r'] true (WF_init []) rfl

/-- C6: every public function called with a null handle returns its sentinel and leaves
the whole state unchanged: `fcached_fclose` returns `EINVAL`, `fcached_freopen` returns
null, `fcached_fread` and `fcached_fwrite` return 0 items, and `fcached_fseek`,
`fcached_fseeko`, `fcached_ftell`, `fcached_ftello`, `fcached_fflush`, `fcached_ferror` and
`fcached_feof` return -1. -/
theorem C6_null_handle (s : Cache) (ok : Bool) (path mode : Option (List Char))
    (pos whence : Int) (size n : Nat) (buf : List Nat) :
    fcached_fclose none s = .ok (EINVAL, s) ∧
    fcached_freopen path mode none ok s = .ok (none, s) ∧
    fcached_fread size n none ok s = .ok ((0, []), s) ∧
    fcached_fwrite buf size n none ok s = .ok (0, s) ∧
    fcached_fseek none pos whence ok s = .ok (-1, s) ∧
    fcached_fseeko none pos whence ok s = .ok (-1, s) ∧
    fcached_ftell none ok s = .ok (-1, s) ∧
    fcached_ftello none ok s = .ok (-1, s) ∧
    fcached_fflush none ok s = .ok (-1, s) ∧
    fcached_ferror none ok s = .ok (-1, s) ∧
    fcached_feof none ok s = .ok (-1, s) := by
  refine ⟨rfl, rfl, rfl, rfl, rfl, rfl, rfl, rfl, rfl, rfl, rfl⟩

/-- C7: for every registered handle `h` whose stream (if any) is live and whose `prev` and
`next` pointers are null or designate registered records, `fcached_fclose(h)` returns 0,
releases the record, changes `fcache_numopen` by exactly -1 when `h` holds a descriptor
and by 0 when it is suspended, and leaves path, mode, descriptor and cached offset of
every other record unchanged. -/
theorem C7_close (s : Cache) (h : Nat) (r : fileref_t)
    (hr : s.mem[h]? = some (some r))
    (hc : ∀ f, r.fd = some f → f.closed = false)
    (hp : ∀ p, r.prev = some p → ∃ rp, s.mem[p]? = some (some rp))
    (hn : ∀ n, r.next = some n → ∃ rn, s.mem[n]? = some (some rn)) :
    ∃ s1, fcached_fclose (some h) s = .ok (0, s1) ∧
      s1.fcache_numopen = s.fcache_numopen - (if r.fd.isSome then 1 else 0) ∧
      s1.mem[h]? = some none ∧
      ∀ b, b ≠ h → dataAt s1 b = dataAt s b := by
  obtain ⟨t, e, m⟩ := unlink_total s h r hr hc hp hn
  obtain ⟨rt, hrt, -⟩ := m.self
  refine ⟨_, e, m.numopen, ?_, ?_⟩
  · simp [List.getElem?_set, lt_of_mem t h _ hrt]
  · intro b hb
    rw [← m.others b hb]
    simp only [dataAt, List.getElem?_set_ne (Ne.symm hb)]

theorem C7_close_witness :
    ∃ s1, fcached_fclose (some 1) twoOpen = .ok (0, s1) ∧
      s1.fcache_numopen = 2 - 1 ∧ s1.mem[1]? = some none ∧
      ∀ b, b ≠ 1 → dataAt s1 b = dataAt twoOpen b :=
  C7_close twoOpen 1
    { path := ['b'], mode := ['w'],
      fd := some ⟨['b'], 0, false, true, false, false, false, false⟩,
      fpos := 0, prev := some 0, next := none }
    rfl (by intro f hf; cases hf; rfl) (by intro p hp; cases hp; exact ⟨_, rfl⟩)
    (by intro n hn; cases hn)

/-- C8: on every well-formed cache with registry `L` (oldest first) the eviction scan
`fcache_ensure_limits` suspends exactly the first member of `L` that holds a descriptor
and keeps the registry; re-acquiring a suspended handle `a` (a read whose underlying
`fopen` succeeds) makes `a` resident without moving anything in `L`.  Concretely, for the
code's capacity 4 and five opens whose underlying `fopen` succeed: afterwards handle 0 is
suspended and handles 1 to 4 are resident; a read on handle 0 then suspends handle 1,
makes handle 0 resident again, and leaves `fcache_numopen` = 4. -/
theorem C8_eviction_order (s : Cache) (L : List Nat) (a : Nat) (r : fileref_t)
    (d : Disk) (p0 p1 p2 p3 p4 m0 m1 m2 m3 m4 : List Char) (size n : Nat)
    (hw : WF s L) (hr : s.mem[a]? = some (some r)) (hf : r.fd = none)
    (hcan : canOpen s.disk r.path r.mode = true)
    (h0 : canOpen d (strncpy p0 MAX_PATH) (strncpy m0 MAX_MODESTR) = true)
    (h1 : canOpen d (strncpy p1 MAX_PATH) (strncpy m1 MAX_MODESTR) = true)
    (h2 : canOpen d (strncpy p2 MAX_PATH) (strncpy m2 MAX_MODESTR) = true)
    (h3 : canOpen d (strncpy p3 MAX_PATH) (strncpy m3 MAX_MODESTR) = true)
    (h4 : canOpen d (strncpy p4 MAX_PATH) (strncpy m4 MAX_MODESTR) = true) :
    (∃ t, fcache_ensure_limits s = .ok t ∧ Registry t L ∧
      ∀ b, fdAt t b = if L.find? (residentAt s) = some b then none else fdAt s b) ∧
    (∃ ret s1, fcached_fread size n (some a) true s = .ok (ret, s1) ∧ Registry s1 L ∧
      ∀ b, residentAt s1 b = if a = b then true else residentAt (limited s L) b) ∧
    (∃ s5 ret s6,
      run [.fopen p0 m0 true true, .fopen p1 m1 true true, .fopen p2 m2 true true,
        .fopen p3 m3 true true, .fopen p4 m4 true true] (Cache.init d) = .ok s5 ∧
      Registry s5 [0, 1, 2, 3, 4] ∧
      resAlong s5 [0, 1, 2, 3, 4] = [false, true, true, true, true] ∧
      s5.fcache_numopen = 4 ∧
      fcached_fread size n (some 0) true s5 = .ok (ret, s6) ∧
      Registry s6 [0, 1, 2, 3, 4] ∧
      resAlong s6 [0, 1, 2, 3, 4] = [true, false, true, true, true] ∧
      s6.fcache_numopen = 4) := by
  refine ⟨⟨evictState s L, ensure_limits_registry s L hw.reg hw.acct.2,
      (WF_evictState s L hw).reg, fdAt_evictState s L⟩, ?_,
    five_opens_then_read d p0 p1 p2 p3 p4 m0 m1 m2 m3 m4 size n h0 h1 h2 h3 h4⟩
  obtain ⟨ret, s1, e, w, v, -⟩ := fread_step s L a r size n hw hr hf hcan
  exact ⟨ret, s1, e, w.reg, v⟩

theorem C8_eviction_order_witness :
    (∃ t, fcache_ensure_limits oneSuspended = .ok t ∧ Registry t [0] ∧
      ∀ b, fdAt t b
        = if [0].find? (residentAt oneSuspended) = some b then none else fdAt oneSuspended b) ∧
    (∃ ret s1, fcached_fread 1 1 (some 0) true oneSuspended = .ok (ret, s1) ∧ Registry s1 [0] ∧
      ∀ b, residentAt s1 b = if 0 = b then true else residentAt (limited oneSuspended [0]) b) ∧
    (∃ s5 ret s6,
      run [.fopen ['a'] ['w'] true true, .fopen ['b'] ['w'] true true,
        .fopen ['c'] ['w'] true true, .fopen ['d'] ['w'] true true,
        .fopen ['e'] ['w'] true true] (Cache.init []) = .ok s5 ∧
      Registry s5 [0, 1, 2, 3, 4] ∧
      resAlong s5 [0, 1, 2, 3, 4] = [false, true, true, true, true] ∧
      s5.fcache_numopen = 4 ∧
      fcached_fread 1 1 (some 0) true s5 = .ok (ret, s6) ∧
      Registry s6 [0, 1, 2, 3, 4] ∧
      resAlong s6 [0, 1, 2, 3, 4] = [true, false, true, true, true] ∧
      s6.fcache_numopen = 4) :=
  C8_eviction_order oneSuspended [0] 0
    { path := ['x'], mode := ['r'], fd := none, fpos := 0, prev := none, next := none }
    [] ['a'] ['b'] ['c'] ['d'] ['e'] ['w'] ['w'] ['w'] ['w'] ['w'] 1 1
    (fopen_WF (Cache.init [(['x'], [7])]) [] ['x'] ['r'] false (WF_init _)).2
    rfl rfl rfl rfl rfl rfl rfl rfl

/-- C9 (evaluation at the failing input): on the cache with two resident handles,
`fcached_freopen` with both `path` and `mode` null is refused by the argument check, but a
call with a path and a null `mode` passes the check and hands the null `mode` to the
underlying `freopen`, which is undefined: no call with a null mode succeeds, so the old
mode is never kept.  With a mode string the same call returns the handle and stores the
new path and the new mode. -/
theorem C9_null_mode_reaches_freopen :
    fcached_freopen none none (some 1) true twoOpen = .ok (none, twoOpen) ∧
    fcached_freopen (some ['a']) none (some 1) true twoOpen = .error .undefined ∧
    (do
      let (ret, s1) ← fcached_freopen (some ['a']) (some ['r', '+']) (some 1) true twoOpen
      pure (ret, nameAt s1 1, s1.fcache_numopen) : Except Fault _)
      = .ok (some 1, some (['a'], ['r', '+']), 2) :=
  ⟨rfl, rfl, rfl⟩

/-- C10 (evaluation at the failing input): on the cache with two resident handles,
reopening handle 1 onto the missing file `x` for reading makes the underlying `freopen`
fail.  `fcached_freopen` returns handle 1, not null; path and mode of the record are
unchanged, but the record still holds the stream that `freopen` has closed and
`fcache_numopen` still counts it (2, as the number of records holding a descriptor).
`fcached_ftell`, `fcached_fclose` and `fcache_suspend` on the handle then use the closed
stream: they are undefined. -/
theorem C10_failed_reopen_keeps_closed_stream :
    stdio_freopen twoOpen.disk (some ['x']) (some ['r'])
        (some ⟨['b'], 0, false, true, false, false, false, false⟩) true
      = .ok (none, twoOpen.disk) ∧
    (do
      let (ret, s1) ← fcached_freopen (some ['x']) (some ['r']) (some 1) true twoOpen
      pure (ret, nameAt s1 1, (fdAt s1 1).map (fun f => f.closed), s1.fcache_numopen,
        residentCount s1, isOk (fcached_ftell (some 1) true s1),
        isOk (fcached_fclose (some 1) s1), isOk (fcache_suspend (some 1) s1)) :
        Except Fault _)
      = .ok (some 1, some (['b'], ['w']), some true, 2, 2, false, false, false) :=
  ⟨rfl, rfl⟩

/-- C11: for every suspended registered handle `a` of a well-formed cache whose underlying
`fopen` fails, `fcached_fread` and `fcached_fwrite` return 0 items, `fcached_fseek`,
`fcached_fseeko`, `fcached_ftell`, `fcached_ftello` and `fcached_fflush` return -1,
`fcached_ferror` and `fcached_feof` return a value different from 0; all of them end in the
same state, in which the handle is still registered without a descriptor, with cached
offset, path and mode unchanged, `fcache_numopen` is not larger than before, and the cache
is well formed again, so that the next call goes through the same acquisition. -/
theorem C11_failed_reacquire (s : Cache) (L : List Nat) (a : Nat) (r : fileref_t) (ok : Bool)
    (pos whence : Int) (size n : Nat) (buf : List Nat)
    (h : WF s L) (hr : s.mem[a]? = some (some r)) (hf : r.fd = none)
    (hfail : (stdio_fopen s.disk r.path r.mode ok).1 = none) :
    ∃ t, fcached_fread size n (some a) ok s = .ok ((0, []), t) ∧
      fcached_fwrite buf size n (some a) ok s = .ok (0, t) ∧
      fcached_fseek (some a) pos whence ok s = .ok (-1, t) ∧
      fcached_fseeko (some a) pos whence ok s = .ok (-1, t) ∧
      fcached_ftell (some a) ok s = .ok (-1, t) ∧
      fcached_ftello (some a) ok s = .ok (-1, t) ∧
      fcached_fflush (some a) ok s = .ok (-1, t) ∧
      (∃ e, e ≠ 0 ∧ fcached_ferror (some a) ok s = .ok (e, t)) ∧
      (∃ e, e ≠ 0 ∧ fcached_feof (some a) ok s = .ok (e, t)) ∧
      (∃ r1, t.mem[a]? = some (some r1) ∧ r1.fd = none ∧ r1.fpos = r.fpos ∧
        r1.path = r.path ∧ r1.mode = r.mode) ∧
      t.fcache_numopen ≤ s.fcache_numopen ∧ WF t L := by
  have hk := limited_keeps s L h a r hr hf
  have hre : reopened (limited s L).disk r ok = none := by
    unfold reopened
    rw [limited_disk, hfail]; rfl
  have hg := get_suspended s L a r ok h hr hf
  rw [hre] at hg
  obtain ⟨r1, h1, h2, h3, h4, -, -, h5⟩ := resumeResult_at (limited s L) a r ok hk
  refine ⟨(resumeResult (limited s L) a r ok).2, ?_, ?_, ?_, ?_, ?_, ?_, ?_, ⟨-1, by decide, ?_⟩,
    ⟨-1, by decide, ?_⟩, ⟨r1, h1, ?_, ?_, h3, h4⟩, ?_,
    WF_resumeResult (limited s L) L a r ok (WF_limited s L h) hk hf⟩
  · simp only [fcached_fread, hg, bind, Except.bind]
  · simp only [fcached_fwrite, hg, bind, Except.bind]
  · simp only [fcached_fseek, hg, bind, Except.bind]
  · simp only [fcached_fseeko, hg, bind, Except.bind]
  · simp only [fcached_ftell, hg, bind, Except.bind]
  · simp only [fcached_ftello, hg, bind, Except.bind]
  · simp only [fcached_fflush, hg, bind, Except.bind]
  · simp only [fcached_ferror, hg, bind, Except.bind]
  · simp only [fcached_feof, hg, bind, Except.bind]
  · rw [h2, hre]
  · rw [h5, hre]; rfl
  · rw [resumeResult_numopen, hre]
    simpa using limited_numopen_le s L

theorem C11_failed_reacquire_witness :
    ∃ t, fcached_fread 1 1 (some 0) false oneSuspended = .ok ((0, []), t) ∧
      fcached_fwrite [5] 1 1 (some 0) false oneSuspended = .ok (0, t) ∧
      fcached_fseek (some 0) 0 SEEK_SET false oneSuspended = .ok (-1, t) ∧
      fcached_fseeko (some 0) 0 SEEK_SET false oneSuspended = .ok (-1, t) ∧
      fcached_ftell (some 0) false oneSuspended = .ok (-1, t) ∧
      fcached_ftello (some 0) false oneSuspended = .ok (-1, t) ∧
      fcached_fflush (some 0) false oneSuspended = .ok (-1, t) ∧
      (∃ e, e ≠ 0 ∧ fcached_ferror (some 0) false oneSuspended = .ok (e, t)) ∧
      (∃ e, e ≠ 0 ∧ fcached_feof (some 0) false oneSuspended = .ok (e, t)) ∧
      (∃ r1, t.mem[0]? = some (some r1) ∧ r1.fd = none ∧ r1.fpos = 0 ∧
        r1.path = ['x'] ∧ r1.mode = ['r']) ∧
      t.fcache_numopen ≤ oneSuspended.fcache_numopen ∧ WF t [0] :=
  C11_failed_reacquire oneSuspended [0] 0
    { path := ['x'], mode := ['r'], fd := none, fpos := 0, prev := none, next := none }
    false 0 SEEK_SET 1 1 [5]
    (fopen_WF (Cache.init [(['x'], [7])]) [] ['x'] ['r'] false (WF_init _)).2 rfl rfl rfl

/-- C12: for every path and mode string (without NUL byte) passed to `fcached_fopen` on a
well-formed cache: `strncpy` into the zeroed buffers of `MAX_PATH + 1` = 513 and
`MAX_MODESTR + 1` = 9 bytes leaves buffers of the same sizes holding the first
min(length, 512) bytes of the path and the first min(length, 8) bytes of the mode, each
followed by a NUL byte, and these are the strings of the new record (a shorter input is
stored unchanged).  After every following sequence of opens and positioned calls on
registered handles the record still stores them, and a transparent reopen of the handle
(`fcache_resume`) gives it the stream, and leaves the disk, of the underlying `fopen`
called with exactly these two strings. -/
theorem C12_stored_strings (s : Cache) (L : List Nat) (path mode : List Char) (ok : Bool)
    (ops : List Op) (hw : WF s L) (hp : NUL ∉ path) (hm : NUL ∉ mode)
    (hops : Tame none ops (L ++ [s.mem.length]) (s.mem.length + 1) = true) :
    ((strncpy_buf (List.replicate (MAX_PATH + 1) NUL) path MAX_PATH).length = 513 ∧
      (∃ rest, strncpy_buf (List.replicate (MAX_PATH + 1) NUL) path MAX_PATH
        = path.take (min path.length 512) ++ NUL :: rest) ∧
      cstr (strncpy_buf (List.replicate (MAX_PATH + 1) NUL) path MAX_PATH)
        = path.take (min path.length 512)) ∧
    ((strncpy_buf (List.replicate (MAX_MODESTR + 1) NUL) mode MAX_MODESTR).length = 9 ∧
      (∃ rest, strncpy_buf (List.replicate (MAX_MODESTR + 1) NUL) mode MAX_MODESTR
        = mode.take (min mode.length 8) ++ NUL :: rest) ∧
      cstr (strncpy_buf (List.replicate (MAX_MODESTR + 1) NUL) mode MAX_MODESTR)
        = mode.take (min mode.length 8)) ∧
    (path.length ≤ 512 → path.take (min path.length 512) = path) ∧
    (mode.length ≤ 8 → mode.take (min mode.length 8) = mode) ∧
    ∃ s1 s2, fcached_fopen path mode true ok s = .ok (some s.mem.length, s1) ∧
      nameAt s1 s.mem.length
        = some (path.take (min path.length 512), mode.take (min mode.length 8)) ∧
      run ops s1 = .ok s2 ∧
      nameAt s2 s.mem.length
        = some (path.take (min path.length 512), mode.take (min mode.length 8)) ∧
      ∀ (r : fileref_t) (ok2 : Bool), s2.mem[s.mem.length]? = some (some r) → r.fd = none →
        ∃ ret u, fcache_resume (some s.mem.length) ok2 s2 = .ok (ret, u) ∧
          fdAt u s.mem.length
            = (stdio_fopen s2.disk (path.take (min path.length 512))
                (mode.take (min mode.length 8)) ok2).1.map (fun f => seekSet f r.fpos) ∧
          u.disk = (stdio_fopen s2.disk (path.take (min path.length 512))
                (mode.take (min mode.length 8)) ok2).2 := by
  have tk : ∀ (l : List Char) (n : Nat), l.take (min l.length n) = l.take n := by
    intro l n
    rcases Nat.le_total l.length n with h | h
    · rw [Nat.min_eq_left h, List.take_of_length_le h, List.take_of_length_le (le_refl _)]
    · rw [Nat.min_eq_right h]
  have hdp := drop_replicate_last MAX_PATH NUL
  have hdm := drop_replicate_last MAX_MODESTR NUL
  obtain ⟨p1, p2, p3, -⟩ := strncpy_buf_spec _ path MAX_PATH hdp hp
  obtain ⟨m1, m2, m3, -⟩ := strncpy_buf_spec _ mode MAX_MODESTR hdm hm
  have eP : path.take (min path.length 512) = strncpy path MAX_PATH := tk path 512
  have eM : mode.take (min mode.length 8) = strncpy mode MAX_MODESTR := tk mode 8
  rw [eP, eM]
  refine ⟨⟨p1, p2, p3⟩, ⟨m1, m2, m3⟩, fun h => List.take_of_length_le h,
    fun h => List.take_of_length_le h, ?_⟩
  obtain ⟨e, hw1⟩ := fopen_WF s L path mode ok hw
  have hn1 := nameAt_openedState s L path mode ok hw s.mem.length
  rw [if_pos rfl] at hn1
  have hlen := openedState_length s L path mode ok hw
  obtain ⟨s2, L2, hrun, hw2, -, hd, hname, -⟩ :=
    run_tame none ops _ _ hw1 (by rw [hlen]; exact hops)
  have hn2 := hname s.mem.length (List.mem_append_right _ (List.mem_singleton_self _))
  rw [hn1] at hn2
  refine ⟨_, s2, e, hn1, hrun, hn2, ?_⟩
  intro r ok2 hr hf
  obtain ⟨r2, hr2, hpath, hmode⟩ := nameAt_some _ _ _ hn2
  rw [hr] at hr2
  simp only [Option.some.injEq] at hr2
  subst hr2
  have hk := limited_keeps s2 L2 hw2 _ r hr hf
  refine ⟨(resumeResult (limited s2 L2) s.mem.length r ok2).1,
    (resumeResult (limited s2 L2) s.mem.length r ok2).2, resume_WF s2 L2 _ r ok2 hw2 hr hf, ?_, ?_⟩
  · rw [resumeResult_fd _ _ _ r ok2 hk, if_pos rfl]
    unfold reopened
    rw [limited_disk, hpath, hmode]
  · rw [resumeResult_disk, limited_disk, hpath, hmode]

theorem C12_stored_strings_witness :
    ((strncpy_buf (List.replicate (MAX_PATH + 1) NUL) ['a'] MAX_PATH).length = 513 ∧
      (∃ rest, strncpy_buf (List.replicate (MAX_PATH + 1) NUL) ['a'] MAX_PATH
        = ['a'].take (min ['a'].length 512) ++ NUL :: rest) ∧
      cstr (strncpy_buf (List.replicate (MAX_PATH + 1) NUL) ['a'] MAX_PATH)
        = ['a'].take (min ['a'].length 512)) ∧
    ((strncpy_buf (List.replicate (MAX_MODESTR + 1) NUL)
        ['r', '+', 'b', 'b', 'b', 'b', 'b', 'b', 'b', 'b'] MAX_MODESTR).length = 9 ∧
      (∃ rest, strncpy_buf (List.replicate (MAX_MODESTR + 1) NUL)
          ['r', '+', 'b', 'b', 'b', 'b', 'b', 'b', 'b', 'b'] MAX_MODESTR
        = ['r', '+', 'b', 'b', 'b', 'b', 'b', 'b', 'b', 'b'].take
            (min ['r', '+', 'b', 'b', 'b', 'b', 'b', 'b', 'b', 'b'].length 8) ++ NUL :: rest) ∧
      cstr (strncpy_buf (List.replicate (MAX_MODESTR + 1) NUL)
          ['r', '+', 'b', 'b', 'b', 'b', 'b', 'b', 'b', 'b'] MAX_MODESTR)
        = ['r', '+', 'b', 'b', 'b', 'b', 'b', 'b', 'b', 'b'].take
            (min ['r', '+', 'b', 'b', 'b', 'b', 'b', 'b', 'b', 'b'].length 8)) ∧
    (['a'].length ≤ 512 → ['a'].take (min ['a'].length 512) = ['a']) ∧
    (['r', '+', 'b', 'b', 'b', 'b', 'b', 'b', 'b', 'b'].length ≤ 8 →
      ['r', '+', 'b', 'b', 'b', 'b', 'b', 'b', 'b', 'b'].take
        (min ['r', '+', 'b', 'b', 'b', 'b', 'b', 'b', 'b', 'b'].length 8)
        = ['r', '+', 'b', 'b', 'b', 'b', 'b', 'b', 'b', 'b']) ∧
    ∃ s1 s2, fcached_fopen ['a'] ['r', '+', 'b', 'b', 'b', 'b', 'b', 'b', 'b', 'b'] true false
        (Cache.init [(['a'], [1])]) = .ok (some (Cache.init [(['a'], [1])]).mem.length, s1) ∧
      nameAt s1 (Cache.init [(['a'], [1])]).mem.length
        = some (['a'].take (min ['a'].length 512),
            ['r', '+', 'b', 'b', 'b', 'b', 'b', 'b', 'b', 'b'].take
              (min ['r', '+', 'b', 'b', 'b', 'b', 'b', 'b', 'b', 'b'].length 8)) ∧
      run [.ftell (some 0) false] s1 = .ok s2 ∧
      nameAt s2 (Cache.init [(['a'], [1])]).mem.length
        = some (['a'].take (min ['a'].length 512),
            ['r', '+', 'b', 'b', 'b', 'b', 'b', 'b', 'b', 'b'].take
              (min ['r', '+', 'b', 'b', 'b', 'b', 'b', 'b', 'b', 'b'].length 8)) ∧
      ∀ (r : fileref_t) (ok2 : Bool),
        s2.mem[(Cache.init [(['a'], [1])]).mem.length]? = some (some r) → r.fd = none →
        ∃ ret u, fcache_resume (some (Cache.init [(['a'], [1])]).mem.length) ok2 s2
            = .ok (ret, u) ∧
          fdAt u (Cache.init [(['a'], [1])]).mem.length
            = (stdio_fopen s2.disk (['a'].take (min ['a'].length 512))
                (['r', '+', 'b', 'b', 'b', 'b', 'b', 'b', 'b', 'b'].take
                  (min ['r', '+', 'b', 'b', 'b', 'b', 'b', 'b', 'b', 'b'].length 8)) ok2).1.map
                (fun f => seekSet f r.fpos) ∧
          u.disk = (stdio_fopen s2.disk (['a'].take (min ['a'].length 512))
                (['r', '+', 'b', 'b', 'b', 'b', 'b', 'b', 'b', 'b'].take
                  (min ['r', '+', 'b', 'b', 'b', 'b', 'b', 'b', 'b', 'b'].length 8)) ok2).2 :=
  C12_stored_strings (Cache.init [(['a'], [1])]) [] ['a']
    ['r', '+', 'b', 'b', 'b', 'b', 'b', 'b', 'b', 'b'] false [.ftell (some 0) false]
    (WF_init _) (by decide) (by decide) rfl

/-- C13: for every registered handle `h` of a well-formed cache with current offset `p`
(the position of its stream if it holds one, the cached offset otherwise; `p` is not
negative, so the seek succeeds) whose file can be opened, and every sequence of
`fcached_fopen` calls and positioned calls on null or registered handles other than `h`:
the sequence is defined and `fcached_ftell(h)` afterwards returns `p`.  In particular, when
`h` holds a stream, `fcache_suspend(h)` returns 0 and leaves the record without descriptor
and with cached offset `p`, and the `fcache_resume(h)` that follows returns 0 and leaves
the record with a stream at position `p` and the cached offset 0. -/
theorem C13_offset_preserved (s : Cache) (L : List Nat) (h : Nat) (r : fileref_t) (p : Int)
    (ops : List Op) (hw : WF s L) (hr : s.mem[h]? = some (some r))
    (ho : offsetAt s h = some p) (hp : 0 ≤ p)
    (hcan : canOpen s.disk r.path r.mode = true)
    (hops : Tame (some h) ops L s.mem.length = true) :
    (∃ s1 s2, run ops s = .ok s1 ∧ fcached_ftell (some h) true s1 = .ok (p, s2)) ∧
    (∀ f, r.fd = some f →
      ∃ t u rt ru f1, fcache_suspend (some h) s = .ok (0, t) ∧
        t.mem[h]? = some (some rt) ∧ rt.fd = none ∧ rt.fpos = p ∧
        fcache_resume (some h) true t = .ok (0, u) ∧
        u.mem[h]? = some (some ru) ∧ ru.fd = some f1 ∧ (f1.pos : Int) = p ∧ ru.fpos = 0) := by
  constructor
  · have hL : h ∈ L := hw.reg.live h r hr
    obtain ⟨s1, L1, hrun, hw1, -, hd, hname, hoff⟩ := run_tame (some h) ops s L hw hops
    have hn : nameAt s1 h = some (r.path, r.mode) := by
      rw [hname h hL]; simp [nameAt, hr]
    obtain ⟨r1, hr1, hpath, hmode⟩ := nameAt_some _ _ _ hn
    have ho1 : offsetAt s1 h = some p := by rw [hoff h hL rfl]; exact ho
    obtain ⟨s2, e⟩ := ftell_offset s1 L1 h r1 p hw1 hr1 ho1 hp
      (by rw [hpath, hmode]; exact canOpen_mono _ _ _ _ hd hcan)
    exact ⟨s1, s2, hrun, e⟩
  · intro f hf
    have e : (f.pos : Int) = p := by
      simpa [offsetAt, dataAt, hr, hf] using ho
    obtain ⟨t, u, rt, ru, f1, h1, h2, h3, h4, h5, h6, h7, h8, h9⟩ :=
      suspend_resume s L h r f hw hr hf hcan
    exact ⟨t, u, rt, ru, f1, h1, h2, h3, by rw [h4, e], h5, h6, h7, by rw [h8, e], h9⟩

theorem C13_offset_preserved_witness :
    (∃ s1 s2, run c13Ops oneRead = .ok s1 ∧ fcached_ftell (some 0) true s1 = .ok (3, s2)) ∧
    (∀ f, some (⟨['a'], 3, true, true, false, false, false, false⟩ : FILE) = some f →
      ∃ t u rt ru f1, fcache_suspend (some 0) oneRead = .ok (0, t) ∧
        t.mem[0]? = some (some rt) ∧ rt.fd = none ∧ rt.fpos = 3 ∧
        fcache_resume (some 0) true t = .ok (0, u) ∧
        u.mem[0]? = some (some ru) ∧ ru.fd = some f1 ∧ (f1.pos : Int) = 3 ∧ ru.fpos = 0) :=
  C13_offset_preserved oneRead [0] 0
    { path := ['a'], mode := ['r', '+'],
      fd := some ⟨['a'], 3, true, true, false, false, false, false⟩,
      fpos := 0, prev := none, next := none }
    3 c13Ops WF_oneRead rfl rfl (by decide) rfl rfl

/-- C14 (evaluation at the failing input): handle 0 is opened with mode `w` and the bytes
`1 2 3` are written, so the file holds `1 2 3` and the position is 3.  `fcache_suspend`
returns 0 and leaves the file as it is; the following `fcache_resume` returns 0 and
restores the position 3, but it ran `fopen` with the truncating mode again: the file is
empty afterwards. -/
theorem C14_resume_truncates :
    (do
      let s ← run c14Ops (Cache.init [])
      let (r1, t) ← fcache_suspend (some 0) s
      let (r2, u) ← fcache_resume (some 0) true t
      pure (s.disk.get ['a'], fdAt s 0 |>.map (fun f => f.pos), r1, t.disk.get ['a'], r2,
        u.disk.get ['a'], fdAt u 0 |>.map (fun f => f.pos)) : Except Fault _)
      = .ok (some [1, 2, 3], some 3, 0, some [1, 2, 3], 0, some [], some 3) :=
  rfl

/-- C15 (evaluation at the failing input): after five opens the pool is full and handle 0
is suspended.  `fcached_freopen` on handle 0 does not acquire a descriptor: it hands the
null descriptor of the record to the underlying `freopen`, which is undefined, whether or
not a path is given.  A positioned call such as `fcached_ftell` on the same handle is
defined: it goes through `fcache_get`. -/
theorem C15_reopen_of_suspended_handle :
    run fiveOps (Cache.init []) = .ok fullPool ∧ fdAt fullPool 0 = none ∧
    fullPool.fcache_numopen = 4 ∧
    fcached_freopen (some ['a']) (some ['r']) (some 0) true fullPool = .error .undefined ∧
    fcached_freopen none (some ['r']) (some 0) true fullPool = .error .undefined ∧
    isOk (fcached_ftell (some 0) true fullPool) = true :=
  ⟨rfl, rfl, rfl, rfl, rfl, rfl⟩

/-- C16: on a well-formed cache, a single `fcached_fopen` (acquiring the new handle `a`) or
a single positioned call on a registered handle `a` is defined, and there is at most one
handle `v` other than `a` whose record changes: every record other than `a` and `v` keeps
path, mode, descriptor and cached offset.  There is no such `v` when `a` already holds a
descriptor or `fcache_numopen < MAX_OPEN_FILES` before the call.  When there is one, it
held a descriptor before the call and holds none afterwards, its cached offset is the
position its stream had, and its path and mode are unchanged. -/
theorem C16_one_eviction (s : Cache) (L : List Nat) (op : Op) (a : Nat)
    (h : WF s L)
    (hop : (∃ path mode calloc_ok ok, op = .fopen path mode calloc_ok ok ∧ a = s.mem.length) ∨
           (op.target = some (some a) ∧ ∃ r, s.mem[a]? = some (some r))) :
    ∃ (t : Cache) (v : Option Nat), step op s = .ok t ∧
      (residentAt s a = true ∨ s.fcache_numopen < MAX_OPEN_FILES → v = none) ∧
      (∀ b, b ≠ a → v ≠ some b → dataAt t b = dataAt s b) ∧
      (∀ b, v = some b → b ≠ a ∧ ∃ path mode f fpos,
        dataAt s b = some (path, mode, some f, fpos) ∧
        dataAt t b = some (path, mode, none, (f.pos : Int))) := by
  have key : ∀ t : Cache, (∀ b, b ≠ a → dataAt t b
      = if victim s L a = some b then (dataAt s b).map evictedData else dataAt s b) →
      (residentAt s a = true ∨ s.fcache_numopen < MAX_OPEN_FILES → victim s L a = none) ∧
      (∀ b, b ≠ a → victim s L a ≠ some b → dataAt t b = dataAt s b) ∧
      (∀ b, victim s L a = some b → b ≠ a ∧ ∃ path mode f fpos,
        dataAt s b = some (path, mode, some f, fpos) ∧
        dataAt t b = some (path, mode, none, (f.pos : Int))) := by
    intro t ht
    refine ⟨?_, ?_, ?_⟩
    · intro hc
      unfold victim
      rw [if_pos hc]
    · intro b hb hv
      rw [ht b hb, if_neg hv]
    · intro b hv
      obtain ⟨hne, hres, -, -⟩ := victim_resident s L a b hv
      obtain ⟨r, f, hr, hf⟩ := residentAt_true s b hres
      refine ⟨hne, r.path, r.mode, f, r.fpos, ?_, ?_⟩
      · simp [dataAt, hr, hf]
      · rw [ht b hne, if_pos hv]
        simp [dataAt, hr, hf, evictedData]
  rcases hop with ⟨path, mode, calloc_ok, ok, rfl, rfl⟩ | ⟨ht, r, hr⟩
  · cases calloc_ok with
    | false =>
      refine ⟨s, none, ?_, fun _ => rfl, fun _ _ _ => rfl, ?_⟩
      · simp [step, fcached_fopen, fcache_link]
      · intro b hb; cases hb
    | true =>
      refine ⟨openedState s L path mode ok, victim s L s.mem.length, ?_,
        key _ (dataAt_openedState s L path mode ok h)⟩
      simp only [step, (fopen_WF s L path mode ok h).1, Functor.map, Except.map]
  · obtain ⟨t, e, fr⟩ := target_step op s L a r h ht hr
    exact ⟨t, victim s L a, e, key t fr.others⟩

theorem C16_one_eviction_witness :
    ∃ (t : Cache) (v : Option Nat), step (.ftell (some 0) true) fullPool = .ok t ∧
      (residentAt fullPool 0 = true ∨ fullPool.fcache_numopen < MAX_OPEN_FILES → v = none) ∧
      (∀ b, b ≠ 0 → v ≠ some b → dataAt t b = dataAt fullPool b) ∧
      (∀ b, v = some b → b ≠ 0 ∧ ∃ path mode f fpos,
        dataAt fullPool b = some (path, mode, some f, fpos) ∧
        dataAt t b = some (path, mode, none, (f.pos : Int))) :=
  C16_one_eviction fullPool [0, 1, 2, 3, 4] (.ftell (some 0) true) 0 WF_fullPool
    (Or.inr ⟨rfl, _, rfl⟩)

/-- C17: for every well-formed cache with registry `L` (head to tail) and every registered
handle `h` that is not the head of `L` (so `L` holds at least two handles),
`fcached_fclose(h)` returns 0 and the registry afterwards, read from `fcache` along the
`next` links, is `L` with exactly `h` removed, the others in their old order; the `next`
of the predecessor of `h` is the old successor of `h` and the `prev` of that successor is
the old predecessor of `h`; `fcache_end` designates the last remaining handle, which is
the predecessor of `h` when `h` was the tail. -/
theorem C17_close_keeps_order (s : Cache) (L : List Nat) (h : Nat) (r : fileref_t)
    (hw : WF s L) (hr : s.mem[h]? = some (some r)) (hh : L.head? ≠ some h) :
    2 ≤ L.length ∧
    ∃ s1, fcached_fclose (some h) s = .ok (0, s1) ∧ Registry s1 (L.erase h) ∧
      L.erase h = L.filter (fun b => b != h) ∧
      (∀ p, r.prev = some p → ∃ x, linksAt s1 p = some (x, r.next)) ∧
      (∀ n, r.next = some n → ∃ x, linksAt s1 n = some (r.prev, x)) ∧
      s1.fcache_end = (L.erase h).getLast? ∧
      (L.getLast? = some h → s1.fcache_end = r.prev ∧ ∃ p, r.prev = some p ∧ p ∈ L.erase h) := by
  have hL : h ∈ L := hw.reg.live h r hr
  have hlk : linksAt s h = some (r.prev, r.next) := by simp [linksAt, hr]
  have hprev : ∃ p, r.prev = some p ∧ p ∈ L ∧ p ≠ h := by
    rcases Chain_prev_mem s L none hw.reg.chain h r.prev r.next hL hlk with ⟨e1, -⟩ | ⟨b, hb, e1, hne⟩
    · exact absurd e1 hh
    · exact ⟨b, e1, hb, hne⟩
  obtain ⟨s1, e, hw1, k3, hend⟩ := close_registry s L h r hw hr hh
  obtain ⟨hc, hp, hn⟩ := WF_closeable s L h r hw hr
  refine ⟨?_, s1, e, hw1.reg, hw.reg.nodup.erase_eq_filter h, ?_, ?_, hw1.reg.tail, ?_⟩
  · obtain ⟨p, -, hpL, hne⟩ := hprev
    rcases L with _ | ⟨a, _ | ⟨b, M⟩⟩
    · cases hL
    · simp only [List.mem_singleton] at hL hpL
      exact absurd (hpL.trans hL.symm) hne
    · simp
  · intro p hp1
    obtain ⟨p0, e0, -, hne⟩ := hprev
    rw [hp1] at e0
    simp only [Option.some.injEq] at e0
    subst e0
    obtain ⟨rp, hrp⟩ := hp p hp1
    rw [k3 p, if_neg hne]
    simp [linksAt, hrp, bypass, hp1]
  · intro n hn1
    have hne : n ≠ h :=
      Chain_next_ne s L none hw.reg.chain hw.reg.nodup h r.prev n hL (by rw [hlk, hn1])
    obtain ⟨rn, hrn⟩ := hn n hn1
    rw [k3 n, if_neg hne]
    simp [linksAt, hrn, bypass, hn1]
  · intro hlast
    rw [hend, if_pos hlast]
    obtain ⟨p, e1, hpL, hne⟩ := hprev
    exact ⟨rfl, p, e1, (List.mem_erase_of_ne hne).2 hpL⟩

theorem C17_close_keeps_order_witness :
    2 ≤ [0, 1, 2, 3, 4].length ∧
    ∃ s1, fcached_fclose (some 4) fullPool = .ok (0, s1) ∧
      Registry s1 ([0, 1, 2, 3, 4].erase 4) ∧
      [0, 1, 2, 3, 4].erase 4 = [0, 1, 2, 3, 4].filter (fun b => b != 4) ∧
      (∀ p, some 3 = some p → ∃ x, linksAt s1 p = some (x, none)) ∧
      (∀ n, (none : Option Nat) = some n → ∃ x, linksAt s1 n = some (some 3, x)) ∧
      s1.fcache_end = ([0, 1, 2, 3, 4].erase 4).getLast? ∧
      ([0, 1, 2, 3, 4].getLast? = some 4 →
        s1.fcache_end = some 3 ∧ ∃ p, some 3 = some p ∧ p ∈ [0, 1, 2, 3, 4].erase 4) :=
  C17_close_keeps_order fullPool [0, 1, 2, 3, 4] 4
    { path := ['e'], mode := ['w'],
      fd := some ⟨['e'], 0, false, true, false, false, false, false⟩,
      fpos := 0, prev := some 3, next := none }
    WF_fullPool rfl (by decide)

/-- C18: for every registered handle, `fcache_suspend` on a handle holding no descriptor
returns -2 and `fcache_resume` on a handle that holds a descriptor returns -2; in both
cases the whole state (every record, every link, both counters, head and tail pointers,
the disk) is returned unchanged, whatever the value of `fcache_numopen`: a double resume
evicts nothing, also when the pool is full. -/
theorem C18_double_transition (s : Cache) (a : Nat) (r : fileref_t) (ok : Bool)
    (hr : s.mem[a]? = some (some r)) :
    (r.fd = none → fcache_suspend (some a) s = .ok (-2, s)) ∧
    (r.fd.isSome = true → fcache_resume (some a) ok s = .ok (-2, s)) :=
  ⟨suspend_absent s a r hr, resume_resident s a r ok hr⟩

theorem C18_double_transition_witness :
    fullPool.fcache_numopen = 4 ∧
    fcache_suspend (some 0) fullPool = .ok (-2, fullPool) ∧
    fcache_resume (some 1) true fullPool = .ok (-2, fullPool) :=
  ⟨rfl,
   (C18_double_transition fullPool 0
      { path := ['a'], mode := ['w'], fd := none, fpos := 0, prev := none, next := some 1 }
      true rfl).1 rfl,
   (C18_double_transition fullPool 1
      { path := ['b'], mode := ['w'],
        fd := some ⟨['b'], 0, false, true, false, false, false, false⟩,
        fpos := 0, prev := some 0, next := some 2 } true rfl).2 rfl⟩

end CachedStdio

namespace NxMain

/-! ## `Sys_GetSystemRam` -/

theorem land_mask (n : Nat) (h : n < 2 ^ 32) : Nat.land n 4294967280 = 16 * (n / 16) := by
  apply Nat.eq_of_testBit_eq
  intro i
  have hm : (4294967280 : Nat) = 2 ^ 4 * (2 ^ 28 - 1) := by norm_num
  have hd : 16 * (n / 16) = 2 ^ 4 * (n >>> 4) := by
    rw [Nat.shiftRight_eq_div_pow]; norm_num
  show (n &&& 4294967280).testBit i = _
  rw [Nat.testBit_and, hm, hd, Nat.testBit_mul_pow_two, Nat.testBit_mul_pow_two,
    Nat.testBit_two_pow_sub_one, Nat.testBit_shiftRight]
  by_cases h4 : 4 ≤ i
  · have e : 4 + (i - 4) = i := by omega
    rw [e]
    by_cases h32 : i < 32
    · have : i - 4 < 28 := by omega
      simp [h4, this]
    · have hlt : n < 2 ^ i :=
        lt_of_lt_of_le h (Nat.pow_le_pow_right (by norm_num) (by omega))
      simp [Nat.testBit_lt_two_pow hlt]
  · simp [h4]

theorem toBits32_mask : toBits32 (-16) = 4294967280 := by
  unfold toBits32
  norm_num
  rfl

/-- The rounding step on a megabyte count that does not overflow. -/
theorem round_eq (m : Nat) (h : m + 8 < 2 ^ 31) :
    toInt32 (Nat.land (toBits32 (toInt32 m + 8)) (toBits32 (-16))) = ((16 * ((m + 8) / 16) : Nat) : Int) := by
  have h1 : toInt32 m = (m : Int) := by
    unfold toInt32
    have : m % 2 ^ 32 = m := Nat.mod_eq_of_lt (by omega)
    rw [this, if_pos (by omega)]
  have h2 : toBits32 ((m : Int) + 8) = m + 8 := by
    unfold toBits32
    have : ((m : Int) + 8) % 2 ^ 32 = ((m + 8 : Nat) : Int) := by
      rw [Int.emod_eq_of_lt (by omega) (by omega)]; push_cast; rfl
    rw [this, Int.toNat_ofNat]
  rw [h1, h2, toBits32_mask, land_mask (m + 8) (by omega)]
  unfold toInt32
  have h3 : 16 * ((m + 8) / 16) < 2 ^ 31 := by omega
  have : (16 * ((m + 8) / 16)) % 2 ^ 32 = 16 * ((m + 8) / 16) := Nat.mod_eq_of_lt (by omega)
  rw [this, if_pos h3]

/-! ## The argument vector of `main` when `argc ≤ MAX_FAKEARGS` -/

theorem poke_ok (arr : List (Option (List Char))) (i : Nat) (v : Option (List Char))
    (h : i < arr.length) : poke arr i v = .ok (arr.set i v) := by
  unfold poke
  rw [if_pos h]

theorem copy_loop_ok (argv : List (List Char)) (fuel i : Nat) (arr : List (Option (List Char)))
    (hlen : arr.length = MAX_FAKEARGS + 1) (hfuel : min argv.length MAX_FAKEARGS - i < fuel) :
    ∃ arr1, copy_loop argv fuel i arr = .ok arr1 ∧ arr1.length = MAX_FAKEARGS + 1 ∧
      ∀ j, arr1[j]? = if i ≤ j ∧ j < min argv.length MAX_FAKEARGS then some argv[j]?
        else arr[j]? := by
  induction fuel generalizing i arr with
  | zero => omega
  | succ fuel ih =>
    unfold copy_loop
    by_cases hc : i < argv.length ∧ i < MAX_FAKEARGS
    · rw [if_pos hc, poke_ok arr i _ (by omega)]
      obtain ⟨arr1, e, hl, hj⟩ := ih (i + 1) (arr.set i argv[i]?) (by simpa using hlen) (by omega)
      refine ⟨arr1, by simpa [bind, Except.bind] using e, hl, ?_⟩
      intro j
      rw [hj j]
      by_cases hij : j = i
      · subst hij
        have h1 : ¬ (j + 1 ≤ j ∧ j < min argv.length MAX_FAKEARGS) := by omega
        have h2 : j ≤ j ∧ j < min argv.length MAX_FAKEARGS := by omega
        rw [if_neg h1, if_pos h2]
        simp [List.getElem?_set, show j < arr.length by omega]
      · rw [List.getElem?_set_ne (Ne.symm hij)]
        by_cases h1 : i + 1 ≤ j ∧ j < min argv.length MAX_FAKEARGS
        · rw [if_pos h1, if_pos (by omega)]
        · rw [if_neg h1, if_neg (by omega)]
    · rw [if_neg hc]
      refine ⟨arr, rfl, hlen, ?_⟩
      intro j
      rw [if_neg (by omega)]

theorem inject_ok (a b c : List Char) (n : Nat) (arr : List (Option (List Char)))
    (hlen : arr.length = MAX_FAKEARGS + 1) (hn : n ≤ MAX_FAKEARGS) :
    ∃ n1 arr1, inject a b c n arr = .ok (n1, arr1) ∧ n ≤ n1 ∧ n1 ≤ MAX_FAKEARGS ∧
      arr1.length = MAX_FAKEARGS + 1 ∧ ∀ j, j < n → arr1[j]? = arr[j]? := by
  unfold inject
  by_cases hc : n + 3 < MAX_FAKEARGS
  · rw [if_pos hc]
    have e1 := poke_ok arr n (some a) (by omega)
    have e2 := poke_ok (arr.set n (some a)) (n + 1) (some b) (by simp; omega)
    have e3 := poke_ok ((arr.set n (some a)).set (n + 1) (some b)) (n + 2) (some c)
      (by simp; omega)
    refine ⟨n + 3, ((arr.set n (some a)).set (n + 1) (some b)).set (n + 2) (some c),
      by simp only [e1, e2, e3, bind, Except.bind], by omega, by omega,
      by simpa using hlen, ?_⟩
    intro j hj
    rw [List.getElem?_set_ne (by omega), List.getElem?_set_ne (by omega),
      List.getElem?_set_ne (by omega)]
  · rw [if_neg hc]
    exact ⟨n, arr, rfl, le_refl _, hn, hlen, fun _ _ => rfl⟩

/-- For at most `MAX_FAKEARGS` arguments the preparation stays inside the array: the
arguments are copied in order, `fake_argc` is at most `MAX_FAKEARGS`, and the entry at
`fake_argc` is NULL. -/
theorem main_args_short (d3xp debug : Bool) (argv : List (List Char))
    (h : argv.length ≤ MAX_FAKEARGS) :
    ∃ n arr, main_args d3xp debug argv = .ok (n, arr) ∧ argv.length ≤ n ∧ n ≤ MAX_FAKEARGS ∧
      arr.length = MAX_FAKEARGS + 1 ∧ (∀ j, j < argv.length → arr[j]? = some argv[j]?) ∧
      arr[n]? = some none := by
  obtain ⟨arr0, e0, l0, c0⟩ := copy_loop_ok argv (MAX_FAKEARGS + 1) 0
    (List.replicate (MAX_FAKEARGS + 1) none) (by simp) (by omega)
  have s1 : ∃ n1 arr1, (if d3xp then
      inject ['+', 's', 'e', 't'] ['f', 's', '_', 'g', 'a', 'm', 'e'] ['d', '3', 'x', 'p']
        argv.length arr0
      else pure (argv.length, arr0)) = Except.ok (n1, arr1) ∧ argv.length ≤ n1 ∧
      n1 ≤ MAX_FAKEARGS ∧ arr1.length = MAX_FAKEARGS + 1 ∧
      ∀ j, j < argv.length → arr1[j]? = arr0[j]? := by
    cases d3xp with
    | true => exact inject_ok _ _ _ _ _ l0 h
    | false => exact ⟨_, _, rfl, le_refl _, h, l0, fun _ _ => rfl⟩
  obtain ⟨n1, arr1, e1, a1, b1, l1, c1⟩ := s1
  have s2 : ∃ n2 arr2, (if debug then
      inject ['+', 's', 'e', 't'] ['d', 'e', 'v', 'e', 'l', 'o', 'p', 'e', 'r'] ['1'] n1 arr1
      else pure (n1, arr1)) = Except.ok (n2, arr2) ∧ n1 ≤ n2 ∧
      n2 ≤ MAX_FAKEARGS ∧ arr2.length = MAX_FAKEARGS + 1 ∧
      ∀ j, j < n1 → arr2[j]? = arr1[j]? := by
    cases debug with
    | true => exact inject_ok _ _ _ _ _ l1 b1
    | false => exact ⟨_, _, rfl, le_refl _, b1, l1, fun _ _ => rfl⟩
  obtain ⟨n2, arr2, e2, a2, b2, l2, c2⟩ := s2
  have e3 := poke_ok arr2 n2 none (by omega)
  refine ⟨n2, arr2.set n2 none, ?_, by omega, b2, by simpa using l2, ?_, ?_⟩
  · unfold main_args
    simp only [e0, e1, e2, e3, bind, Except.bind]
  · intro j hj
    rw [List.getElem?_set_ne (by omega), c2 j (by omega), c1 j hj, c0 j,
      if_pos (by omega)]
  · simp [List.getElem?_set, show n2 < arr2.length by omega]

/-! ## The claims on `sys/nx/main.cpp` -/

/-- C19: for every 64-bit count `avail` of available bytes whose megabyte value
`mb = avail / 2^20` (which is not negative) satisfies `mb + 8 < 2^31`, `Sys_GetSystemRam`
returns `(mb + 8) & ~15`, which is 16 times the integer quotient of `mb + 8` by 16: a
multiple of 16 that differs from `mb` by at most 8, and no multiple of 16 is strictly
closer to `mb`.  When the system query fails the result is 304. -/
theorem C19_round_to_16 (avail : Nat) (ha : avail < 2 ^ 64) (h : avail / 2 ^ 20 + 8 < 2 ^ 31) :
    Sys_GetSystemRam false avail = ((16 * ((avail / 2 ^ 20 + 8) / 16) : Nat) : Int) ∧
    Sys_GetSystemRam false avail % 16 = 0 ∧
    |Sys_GetSystemRam false avail - ((avail / 2 ^ 20 : Nat) : Int)| ≤ 8 ∧
    (∀ k : Int, |Sys_GetSystemRam false avail - ((avail / 2 ^ 20 : Nat) : Int)|
      ≤ |16 * k - ((avail / 2 ^ 20 : Nat) : Int)|) ∧
    (∀ a, Sys_GetSystemRam true a = 304) := by
  have e : Sys_GetSystemRam false avail = ((16 * ((avail / 2 ^ 20 + 8) / 16) : Nat) : Int) := by
    have := round_eq (avail / 2 ^ 20) h
    unfold Sys_GetSystemRam
    simp only [Bool.false_eq_true, if_false, Nat.mod_eq_of_lt ha]
    exact this
  refine ⟨e, ?_, ?_, ?_, ?_⟩
  · rw [e]; omega
  · rw [e]
    rcases abs_cases (((16 * ((avail / 2 ^ 20 + 8) / 16) : Nat) : Int)
      - ((avail / 2 ^ 20 : Nat) : Int)) with ⟨h1, -⟩ | ⟨h1, -⟩ <;> rw [h1] <;> omega
  · intro k
    rw [e]
    rcases abs_cases (((16 * ((avail / 2 ^ 20 + 8) / 16) : Nat) : Int)
      - ((avail / 2 ^ 20 : Nat) : Int)) with ⟨h1, g1⟩ | ⟨h1, g1⟩ <;>
    rcases abs_cases (16 * k - ((avail / 2 ^ 20 : Nat) : Int)) with ⟨h2, g2⟩ | ⟨h2, g2⟩ <;>
    rw [h1, h2] <;> omega
  · intro a
    have := round_eq 304 (by norm_num)
    unfold Sys_GetSystemRam
    simp only [if_true]
    exact this

theorem C19_round_to_16_witness :
    Sys_GetSystemRam false 3230662656 = ((16 * ((3230662656 / 2 ^ 20 + 8) / 16) : Nat) : Int) ∧
    Sys_GetSystemRam false 3230662656 % 16 = 0 ∧
    |Sys_GetSystemRam false 3230662656 - ((3230662656 / 2 ^ 20 : Nat) : Int)| ≤ 8 ∧
    (∀ k : Int, |Sys_GetSystemRam false 3230662656 - ((3230662656 / 2 ^ 20 : Nat) : Int)|
      ≤ |16 * k - ((3230662656 / 2 ^ 20 : Nat) : Int)|) ∧
    (∀ a, Sys_GetSystemRam true a = 304) :=
  C19_round_to_16 3230662656 (by norm_num) (by norm_num)

/-- C20 (evaluation at the failing input): with two arguments and both macros defined the
array holds the two arguments, the six injected ones and NULL at index 8, and `fake_argc`
is 8.  With a command line of 33 arguments, whatever macros are defined, `fake_argc` is 33
while 32 arguments are copied and nothing is injected, and the terminating store
`fake_argv[fake_argc] = NULL` goes to index 33 of the array of `MAX_FAKEARGS + 1` = 33
entries, one past its last index 32. -/
theorem C20_store_past_the_array :
    (main_args true true [['a'], ['b']]).map (fun x => (x.1, x.2.take 9, x.2.length))
      = .ok (8, [some ['a'], some ['b'], some ['+', 's', 'e', 't'],
          some ['f', 's', '_', 'g', 'a', 'm', 'e'], some ['d', '3', 'x', 'p'],
          some ['+', 's', 'e', 't'], some ['d', 'e', 'v', 'e', 'l', 'o', 'p', 'e', 'r'],
          some ['1'], none], 33) ∧
    longArgv.length = 33 ∧
    (∀ d3xp debug, main_args d3xp debug longArgv = .error (.outOfBounds 33)) := by
  refine ⟨rfl, rfl, ?_⟩
  intro d3xp debug
  cases d3xp <;> cases debug <;> rfl

end NxMain
